import Mathlib

/-!
# MiniDB: a verification development for the storage / index / concurrency core

Shallow embedding of the relevant parts of the `minidb` C++ sources:
checksums (`page.cpp`, `wal.cpp`), the catalog row-count update
(`catalog.cpp`), the lock manager (`lock_manager.cpp`), the transaction
manager visibility check, the write-ahead log state machine (`wal.cpp`),
the slotted page (`page.cpp`), the buffer pool / file manager
(`buffer_pool.cpp`, `file_manager.cpp`), and the in-memory B+ tree
(`btree.cpp`).  Machine integers are modelled as `Nat`/`Int` with explicit
wrap-around where the C++ types can overflow on the inputs considered.
-/

namespace MiniDB

/-! ## Checksums

`WalManager::calculateChecksum` (wal.cpp lines 42-49) folds
`checksum = (checksum << 1) ^ byte` over the bytes, in `uint32_t`
arithmetic.  `Page::calculateChecksum` (page.cpp lines 401-412) performs
the same shift-and-xor step but afterwards XORs in the CRC-32 polynomial
`0x04C11DB7` whenever the high bit of the accumulator is set.
Bytes are the `uint8_t` casts of the input characters, so each is `< 256`.
-/

/-- One step of `WalManager::calculateChecksum`: `checksum = (checksum << 1) ^ byte`
in 32-bit arithmetic. -/
def walChecksumStep (acc b : Nat) : Nat := (acc * 2 % 2 ^ 32) ^^^ b

/-- `WalManager::calculateChecksum` over a byte range. -/
def walChecksum (data : List Nat) : Nat := data.foldl walChecksumStep 0

/-- One step of `Page::calculateChecksum`: shift-and-xor, then
`if (checksum & 0x80000000) checksum ^= 0x04C11DB7`. -/
def pageChecksumStep (acc b : Nat) : Nat :=
  if ((acc * 2 % 2 ^ 32) ^^^ b) &&& 0x80000000 ≠ 0
  then ((acc * 2 % 2 ^ 32) ^^^ b) ^^^ 0x04C11DB7
  else (acc * 2 % 2 ^ 32) ^^^ b

/-- `Page::calculateChecksum` over a byte range. -/
def pageChecksum (data : List Nat) : Nat := data.foldl pageChecksumStep 0

/-- The page-checksum accumulator never has its high bit set at any point of
the fold (so the conditional polynomial XOR never fires on this range). -/
def pageAccLow (data : List Nat) : Prop :=
  ∀ n, pageChecksum (List.take n data) &&& 0x80000000 = 0

/-! ## Catalog row count

`Catalog::updateRowCount` (catalog.cpp lines 77-84, the clamped version that
`tests/test_fixes.cpp` exercises): the `uint64_t` row count is cast to
`int64_t`, the delta added, and the result clamped to zero when negative. -/

/-- Two's-complement wrap of an integer into the `int64_t` range, modelling
the `static_cast<int64_t>` and the 64-bit signed addition. -/
def wrapI64 (x : Int) : Int := (x + 2 ^ 63) % 2 ^ 64 - 2 ^ 63

/-- `Catalog::updateRowCount` on one table's row count:
`new_count = (int64_t)row_count + delta; row_count = new_count < 0 ? 0 : (uint64_t)new_count`. -/
def updateRowCount (row_count : Nat) (delta : Int) : Nat :=
  if wrapI64 (wrapI64 row_count + delta) < 0 then 0
  else (wrapI64 (wrapI64 row_count + delta)).toNat

/-! ### C5 and C6 theorems -/

theorem wrapI64_eq_self {x : Int} (h1 : -(2 ^ 63) ≤ x) (h2 : x < 2 ^ 63) :
    wrapI64 x = x := by
  unfold wrapI64
  rw [Int.emod_eq_of_lt (by omega) (by omega)]
  omega

/-- C5: for a table with row count `c` (within `int64_t` range, as any real
row count is) and a delta `d` whose sum does not overflow `int64_t`,
`Catalog::updateRowCount` sets the row count to `max (c + d) 0`. -/
theorem updateRowCount_clamps (c : Nat) (d : Int)
    (hc : (c : Int) < 2 ^ 63)
    (hlo : -(2 ^ 63) ≤ (c : Int) + d) (hhi : (c : Int) + d < 2 ^ 63) :
    (updateRowCount c d : Int) = max ((c : Int) + d) 0 := by
  have h1 : wrapI64 c = c := wrapI64_eq_self (by omega) hc
  unfold updateRowCount
  rw [h1, wrapI64_eq_self hlo hhi]
  by_cases hneg : (c : Int) + d < 0
  · rw [if_pos hneg, max_eq_right (by omega : (c : Int) + d ≤ 0)]
    simp
  · rw [if_neg hneg, Int.toNat_of_nonneg (by omega),
      max_eq_left (by omega : (0 : Int) ≤ (c : Int) + d)]

/-- Witness for C5: the spec's concrete instance, current count 5 and delta
−10 gives 0 (not the 2⁶⁴−5 wrap-around value). -/
theorem updateRowCount_clamps_witness :
    (updateRowCount 5 (-10) : Int) = max ((5 : Int) + (-10)) 0 ∧
    updateRowCount 5 (-10) = 0 :=
  ⟨updateRowCount_clamps 5 (-10) (by norm_num) (by norm_num) (by norm_num),
   by decide⟩

set_option maxRecDepth 10000 in
/-- C6 counterexample: the two checksum routines are NOT the same function.
On the 25-byte range `0x80` followed by 24 zero bytes the page fold's
accumulator reaches the high bit, so `Page::calculateChecksum` XORs in the
polynomial while `WalManager::calculateChecksum` does not. -/
theorem checksum_functions_differ :
    pageChecksum (0x80 :: List.replicate 24 0) ≠
      walChecksum (0x80 :: List.replicate 24 0) := by decide

theorem pageChecksumStep_eq_walChecksumStep {acc b : Nat}
    (h : pageChecksumStep acc b &&& 0x80000000 = 0) :
    pageChecksumStep acc b = walChecksumStep acc b := by
  unfold pageChecksumStep walChecksumStep at *
  by_cases hb : ((acc * 2 % 2 ^ 32) ^^^ b) &&& 0x80000000 ≠ 0
  · exfalso
    rw [if_pos hb, Nat.and_xor_distrib_right,
      (by decide : (0x04C11DB7 : Nat) &&& 0x80000000 = 0), Nat.xor_zero] at h
    exact hb h
  · rw [if_neg hb]

theorem pageChecksum_append_one (l : List Nat) (b : Nat) :
    pageChecksum (l ++ [b]) = pageChecksumStep (pageChecksum l) b := by
  simp [pageChecksum, List.foldl_append]

theorem walChecksum_append_one (l : List Nat) (b : Nat) :
    walChecksum (l ++ [b]) = walChecksumStep (walChecksum l) b := by
  simp [walChecksum, List.foldl_append]

/-- On a byte range where the page fold's accumulator keeps its high bit
clear throughout, the two checksums agree. -/
theorem pageChecksum_eq_walChecksum_of_low (data : List Nat)
    (h : pageAccLow data) : pageChecksum data = walChecksum data := by
  suffices H : ∀ n, pageChecksum (data.take n) = walChecksum (data.take n) by
    have := H data.length
    rwa [List.take_length] at this
  intro n
  induction n with
  | zero => simp [pageChecksum, walChecksum]
  | succ m ih =>
    by_cases hm : m < data.length
    · have htake : data.take (m + 1) = data.take m ++ [data[m]] := by
        rw [← List.take_concat_get _ _ hm, List.concat_eq_append]
      rw [htake, pageChecksum_append_one]
      have hlow : pageChecksumStep (pageChecksum (data.take m)) (data[m])
          &&& 0x80000000 = 0 := by
        have := h (m + 1)
        rwa [htake, pageChecksum_append_one] at this
      rw [pageChecksumStep_eq_walChecksumStep hlow, ih, ← walChecksum_append_one]
    · have : data.take (m + 1) = data.take m := by
        rw [List.take_of_length_le (by omega), List.take_of_length_le (by omega)]
      rw [this, ih]

/-- Witness for the amended C6: on the range `"abc"` (bytes 97, 98, 99) the
accumulator stays low and the two checksums coincide. -/
theorem pageChecksum_eq_walChecksum_of_low_witness :
    pageAccLow [97, 98, 99] ∧ pageChecksum [97, 98, 99] = walChecksum [97, 98, 99] := by
  have hlow : pageAccLow [97, 98, 99] := by
    intro n
    match n with
    | 0 => decide
    | 1 => decide
    | 2 => decide
    | (m + 3) =>
      rw [List.take_of_length_le (by simp)]
      decide
  exact ⟨hlow, pageChecksum_eq_walChecksum_of_low _ hlow⟩

end MiniDB

namespace MiniDB

/-! ## Lock manager

`LockManager` (lock_manager.cpp).  A `LockQueue` holds the per-resource
request list and the granted-lock counters (`lock_manager.h`: defaults
`shared_count = 0`, `has_exclusive = false`).  Only the queue of the one
resource under consideration is modelled; `txn_locks_` bookkeeping does not
affect grant decisions and is omitted.  The blocking wait of
`acquireLock` is modelled by the `blocked` outcome (a single-threaded step
cannot be woken). -/

inductive LockMode where
  | SHARED
  | EXCLUSIVE
deriving DecidableEq, Repr

inductive LockStatus where
  | WAITING
  | GRANTED
  | ABORTED
deriving DecidableEq, Repr

structure LockRequest where
  txn_id : Nat
  mode : LockMode
  status : LockStatus
deriving DecidableEq, Repr

structure LockQueue where
  requests : List LockRequest
  shared_count : Int
  has_exclusive : Bool
deriving DecidableEq, Repr

/-- A fresh queue, as default-constructed by `lock_table_[rid]`. -/
def LockQueue.fresh : LockQueue := ⟨[], 0, false⟩

/-- `LockManager::grantLock` (lock_manager.cpp lines 79-87). -/
def grantLock (q : LockQueue) (r : LockRequest) : Bool :=
  match r.mode with
  | .SHARED => !q.has_exclusive
  | .EXCLUSIVE => q.shared_count == 0 && !q.has_exclusive

/-- `LockManager::upgradeLock` (lock_manager.cpp lines 183-212). -/
def upgradeLock (q : LockQueue) (txn : Nat) : LockQueue × Bool :=
  match q.requests.findIdx? (fun r => r.txn_id == txn && r.status == .GRANTED) with
  | none => (q, false)
  | some i =>
    let r := q.requests.getD i ⟨0, .SHARED, .WAITING⟩
    if r.mode == .EXCLUSIVE then (q, true)
    else if q.shared_count == 1 && !q.has_exclusive then
      ({ requests := q.requests.set i { r with mode := .EXCLUSIVE },
         shared_count := q.shared_count - 1, has_exclusive := true }, true)
    else (q, false)

inductive AcquireOutcome where
  | granted
  | denied
  | blocked
deriving DecidableEq, Repr

/-- `LockManager::acquireLock` (lock_manager.cpp lines 10-77) up to the point
where the caller would block.  The immediate-grant path (lines 36-41) pushes
the request with status `GRANTED` and returns without touching
`shared_count` / `has_exclusive`, exactly as the source does. -/
def acquireLock (q : LockQueue) (txn : Nat) (mode : LockMode) :
    LockQueue × AcquireOutcome :=
  match q.requests.find? (fun r => r.txn_id == txn && r.status == .GRANTED) with
  | some r =>
    if r.mode == .EXCLUSIVE || mode == .SHARED then (q, .granted)
    else
      let (q', ok) := upgradeLock q txn
      (q', if ok then .granted else .denied)
  | none =>
    let request : LockRequest := ⟨txn, mode, .WAITING⟩
    if grantLock q request then
      ({ q with requests := q.requests ++ [{ request with status := .GRANTED }] },
       .granted)
    else
      ({ q with requests := q.requests ++ [request] }, .blocked)

/-- The loop of `LockManager::wakeUpWaiters` (lock_manager.cpp lines 164-181):
walk the requests in order, granting compatible waiters against the live
counters; stop after granting an exclusive. -/
def wakeUp : List LockRequest → Int → Bool → List LockRequest × Int × Bool
  | [], sc, he => ([], sc, he)
  | r :: rest, sc, he =>
    if r.status == .WAITING then
      let can : Bool := match r.mode with
        | .SHARED => !he
        | .EXCLUSIVE => sc == 0 && !he
      if can then
        match r.mode with
        | .SHARED =>
          let (rest', sc', he') := wakeUp rest (sc + 1) he
          ({ r with status := .GRANTED } :: rest', sc', he')
        | .EXCLUSIVE =>
          ({ r with status := .GRANTED } :: rest, sc, true)
      else
        let (rest', sc', he') := wakeUp rest sc he
        (r :: rest', sc', he')
    else
      let (rest', sc', he') := wakeUp rest sc he
      (r :: rest', sc', he')

/-- `LockManager::releaseLock` (lock_manager.cpp lines 89-124) on the
resource's queue. -/
def releaseLock (q : LockQueue) (txn : Nat) : LockQueue × Bool :=
  match q.requests.findIdx? (fun r => r.txn_id == txn && r.status == .GRANTED) with
  | none => (q, false)
  | some i =>
    let r := q.requests.getD i ⟨0, .SHARED, .WAITING⟩
    let sc := if r.mode == .SHARED then q.shared_count - 1 else q.shared_count
    let he := if r.mode == .SHARED then q.has_exclusive else false
    let (reqs', sc', he') := wakeUp (q.requests.eraseIdx i) sc he
    (⟨reqs', sc', he'⟩, true)

inductive LockOp where
  | acq (txn : Nat) (mode : LockMode)
  | rel (txn : Nat)

/-- Apply a sequence of acquire/release calls for one resource, starting from
a fresh queue. -/
def runLockOps (ops : List LockOp) : LockQueue :=
  ops.foldl (fun q op =>
    match op with
    | .acq t m => (acquireLock q t m).1
    | .rel t => (releaseLock q t).1) .fresh

/-- C1 failing input: starting from no locks, txn 1 then txn 2 each request
EXCLUSIVE on the same resource.  Both are granted immediately, both requests
end up simultaneously `GRANTED`, and the queue's counters are never
updated (`has_exclusive` stays `false`, `shared_count` stays `0`) — the
immediate-grant path of `acquireLock` omits the counter update, so two
EXCLUSIVE requests on one resource are not serialized. -/
theorem two_exclusive_granted :
    (acquireLock .fresh 1 .EXCLUSIVE).2 = .granted ∧
    (acquireLock (acquireLock .fresh 1 .EXCLUSIVE).1 2 .EXCLUSIVE).2 = .granted ∧
    runLockOps [.acq 1 .EXCLUSIVE, .acq 2 .EXCLUSIVE] =
      ⟨[⟨1, .EXCLUSIVE, .GRANTED⟩, ⟨2, .EXCLUSIVE, .GRANTED⟩], 0, false⟩ := by
  decide

end MiniDB

namespace MiniDB

/-! ## Transaction manager visibility

`TransactionManager` (lock_manager.cpp lines 376-515, `transaction.h`).
A transaction carries an isolation level, a state and the snapshot LSN
captured at begin for REPEATABLE_READ / SERIALIZABLE.  The state also keeps
the WAL positions: `beginTxn` appends a BEGIN record through
`WalManager::beginTransaction` (consuming one LSN) and then snapshots
`wal_.getCurrentLSN()`; `commitTxn` appends the COMMIT record (consuming one
LSN).  The `commits` list records each appended COMMIT record's
`(txn_id, lsn)` pair, i.e. the observable WAL history used to state when a
writer committed relative to a snapshot. -/

inductive IsolationLevel where
  | READ_UNCOMMITTED
  | READ_COMMITTED
  | REPEATABLE_READ
  | SERIALIZABLE
deriving DecidableEq, Repr

inductive TransactionState where
  | ACTIVE
  | COMMITTED
  | ABORTED
deriving DecidableEq, Repr

structure Txn where
  txn_id : Nat
  isolation : IsolationLevel
  state : TransactionState
  snapshot_lsn : Nat
deriving DecidableEq, Repr

structure TMState where
  current_lsn : Nat
  next_txn_id : Nat
  txns : List Txn
  commits : List (Nat × Nat)
deriving DecidableEq, Repr

/-- Fresh manager over a fresh WAL (`current_lsn_ = 1`, `next_txn_id_ = 1`). -/
def TMState.init : TMState := ⟨1, 1, [], []⟩

/-- `TransactionManager::beginTransaction`: obtain a TxnId from the WAL
(which appends BEGIN at the current LSN), then for REPEATABLE_READ and
SERIALIZABLE capture `snapshot_lsn = wal_.getCurrentLSN()`.
`snapshot_lsn_` defaults to `INVALID_LSN = 0` otherwise (`transaction.h`). -/
def beginTxn (s : TMState) (iso : IsolationLevel) : TMState × Nat :=
  let txn_id := s.next_txn_id
  let lsn' := s.current_lsn + 1
  let snap := if iso == .REPEATABLE_READ || iso == .SERIALIZABLE then lsn' else 0
  ({ current_lsn := lsn', next_txn_id := txn_id + 1,
     txns := s.txns ++ [⟨txn_id, iso, .ACTIVE, snap⟩],
     commits := s.commits }, txn_id)

/-- `TransactionManager::commitTransaction`, restricted to the parts that
affect visibility: `wal_.commitTransaction` appends the COMMIT record at the
current LSN, and the transaction's state becomes COMMITTED. -/
def commitTxn (s : TMState) (txn_id : Nat) : TMState :=
  if (s.txns.find? (fun t => t.txn_id == txn_id)).any (fun t => t.state == .ACTIVE) then
    { current_lsn := s.current_lsn + 1, next_txn_id := s.next_txn_id,
      txns := s.txns.map (fun t =>
        if t.txn_id == txn_id then { t with state := .COMMITTED } else t),
      commits := s.commits ++ [(txn_id, s.current_lsn)] }
  else s

/-- `TransactionManager::isVisible` (lock_manager.cpp lines 481-515): for
REPEATABLE_READ and SERIALIZABLE the source checks only
`writer.state == COMMITTED` and then returns `true` (the comparison against
the reader's snapshot is absent). -/
def isVisible (s : TMState) (writer_txn_id : Nat) (reader : Txn) : Bool :=
  if writer_txn_id == reader.txn_id then true
  else
    match s.txns.find? (fun t => t.txn_id == writer_txn_id) with
    | none => true
    | some writer =>
      match reader.isolation with
      | .READ_UNCOMMITTED => true
      | .READ_COMMITTED => writer.state == .COMMITTED
      | .REPEATABLE_READ | .SERIALIZABLE =>
        if writer.state != .COMMITTED then false
        else true

/-- The writer's COMMIT record was appended before the given LSN. -/
def committedBefore (s : TMState) (writer_txn_id : Nat) (lsn : Nat) : Bool :=
  s.commits.any (fun p => p.1 == writer_txn_id && p.2 < lsn)

/-- C2 failing input: a REPEATABLE_READ reader begins (snapshot LSN 2), a
second transaction begins afterwards and commits (COMMIT record at LSN 3,
i.e. *after* the reader's snapshot).  `isVisible` nevertheless returns
`true` for that writer, because the source never compares the commit
position with `snapshot_lsn`. -/
theorem visible_despite_late_commit :
    (let s1 := (beginTxn TMState.init .REPEATABLE_READ).1
     let reader := (s1.txns.getD 0 ⟨0, .READ_COMMITTED, .ACTIVE, 0⟩)
     let s2 := (beginTxn s1 .READ_COMMITTED).1
     let s3 := commitTxn s2 2
     reader.isolation = .REPEATABLE_READ ∧ reader.snapshot_lsn = 2 ∧
     (s3.txns.find? (fun t => t.txn_id == 2)).any (fun t => t.state == .COMMITTED) ∧
     committedBefore s3 2 reader.snapshot_lsn = false ∧
     isVisible s3 2 reader = true) := by
  decide

end MiniDB

namespace MiniDB

/-! ## Write-ahead log

`WalManager` (wal.cpp).  The WAL owns an append-only file (`disk`) and an
in-memory 64 KiB write buffer (`buffer`); `appendRecord` flushes the buffer
first when the record would overflow it, then copies the record into the
buffer.  `current_lsn_` and `next_txn_id_` start at 1; `active_txns_` maps a
live transaction to the LSN of its BEGIN record.  Record payload bytes do
not affect the claims; each record is represented by its header plus its
payload length (`data_length`), and the header checksum field (zero for all
transaction-lifecycle records) is omitted.  On-disk sizes:
`sizeof(WalRecordHeader) = 40`, `sizeof(WalDataRecord) = 12`. -/

inductive WalRecordType where
  | BEGIN_TXN
  | COMMIT_TXN
  | ABORT_TXN
  | INSERT
  | UPDATE
  | DELETE
  | CHECKPOINT
deriving DecidableEq, Repr

structure WalRecordHeader where
  lsn : Nat
  prev_lsn : Nat
  txn_id : Nat
  type : WalRecordType
  data_length : Nat
deriving DecidableEq, Repr

structure WalState where
  current_lsn : Nat
  next_txn_id : Nat
  buffer : List WalRecordHeader
  disk : List WalRecordHeader
  active_txns : List (Nat × Nat)
deriving DecidableEq, Repr

def WAL_HEADER_SIZE : Nat := 40
def WAL_DATA_REC_SIZE : Nat := 12
def WAL_BUFFER_SIZE : Nat := 64 * 1024

/-- A fresh WAL (`current_lsn_ = 1`, `next_txn_id_ = 1`, empty buffer and file). -/
def WalState.init : WalState := ⟨1, 1, [], [], []⟩

/-- The whole log: the on-disk bytes followed by the not-yet-flushed buffer. -/
def walLog (s : WalState) : List WalRecordHeader := s.disk ++ s.buffer

def bufferBytes (buf : List WalRecordHeader) : Nat :=
  (buf.map (fun h => WAL_HEADER_SIZE + h.data_length)).sum

/-- `WalManager::flushBuffer` (wal.cpp lines 236-246). -/
def flushBuffer (s : WalState) : WalState :=
  { s with disk := s.disk ++ s.buffer, buffer := [] }

/-- `WalManager::appendRecord` (wal.cpp lines 214-234): flush first if the
record would overflow the buffer, copy the record in, return the assigned
LSN (the pre-increment `current_lsn_`, which the caller already placed in
the header). -/
def appendRecord (s : WalState) (h : WalRecordHeader) : WalState :=
  let s1 := if WAL_BUFFER_SIZE < bufferBytes s.buffer + (WAL_HEADER_SIZE + h.data_length)
            then flushBuffer s else s
  { s1 with buffer := s1.buffer ++ [h], current_lsn := s1.current_lsn + 1 }

def lookupActive (s : WalState) (t : Nat) : Option Nat :=
  (s.active_txns.find? (fun p => p.1 == t)).map (fun p => p.2)

def eraseActive (s : WalState) (t : Nat) : List (Nat × Nat) :=
  s.active_txns.filter (fun p => p.1 != t)

/-- `WalManager::beginTransaction` (wal.cpp lines 51-70). -/
def walBegin (s : WalState) : WalState × Nat :=
  let txn_id := s.next_txn_id
  let lsn := s.current_lsn
  let s1 := appendRecord { s with next_txn_id := txn_id + 1 }
    ⟨lsn, 0, txn_id, .BEGIN_TXN, 0⟩
  ({ s1 with active_txns := s1.active_txns ++ [(txn_id, lsn)] }, txn_id)

/-- `WalManager::commitTransaction` (wal.cpp lines 72-97): append COMMIT with
`prev_lsn` = the transaction's first LSN, drop it from `active_txns_`, and
force-flush the buffer. -/
def walCommit (s : WalState) (txn_id : Nat) : WalState × Bool :=
  match lookupActive s txn_id with
  | none => (s, false)
  | some first_lsn =>
    let s1 := appendRecord s ⟨s.current_lsn, first_lsn, txn_id, .COMMIT_TXN, 0⟩
    (flushBuffer { s1 with active_txns := eraseActive s1 txn_id }, true)

/-- `WalManager::abortTransaction` (wal.cpp lines 99-121): append ABORT with
`prev_lsn` = the transaction's first LSN and drop it from `active_txns_`;
no force-flush. -/
def walAbort (s : WalState) (txn_id : Nat) : WalState × Bool :=
  match lookupActive s txn_id with
  | none => (s, false)
  | some first_lsn =>
    let s1 := appendRecord s ⟨s.current_lsn, first_lsn, txn_id, .ABORT_TXN, 0⟩
    ({ s1 with active_txns := eraseActive s1 txn_id }, true)

/-- `WalManager::logInsert` / `logUpdate` / `logDelete` (wal.cpp lines
123-212), abstracted over the record type and total payload length. -/
def walLogData (s : WalState) (ty : WalRecordType) (txn_id payload_len : Nat) :
    WalState :=
  appendRecord s ⟨s.current_lsn, 0, txn_id, ty, payload_len⟩

/-- `WalManager::checkpoint` (wal.cpp lines 253-268). -/
def walCheckpoint (s : WalState) : WalState :=
  flushBuffer (appendRecord s ⟨s.current_lsn, 0, 0, .CHECKPOINT, 0⟩)

inductive WalOp where
  | begin
  | commit (t : Nat)
  | abort (t : Nat)
  | logInsert (t len : Nat)
  | logUpdate (t old_len new_len : Nat)
  | logDelete (t old_len : Nat)
  | checkpoint
  | flush

def walStep (s : WalState) : WalOp → WalState
  | .begin => (walBegin s).1
  | .commit t => (walCommit s t).1
  | .abort t => (walAbort s t).1
  | .logInsert t len => walLogData s .INSERT t (WAL_DATA_REC_SIZE + len)
  | .logUpdate t o n => walLogData s .UPDATE t (WAL_DATA_REC_SIZE + o + n)
  | .logDelete t o => walLogData s .DELETE t (WAL_DATA_REC_SIZE + o)
  | .checkpoint => walCheckpoint s
  | .flush => flushBuffer s

/-- The WAL state after a call sequence on a fresh WAL. -/
def walRun (ops : List WalOp) : WalState := ops.foldl walStep .init

theorem walLog_flushBuffer (s : WalState) : walLog (flushBuffer s) = walLog s := by
  simp [walLog, flushBuffer]

theorem walLog_appendRecord (s : WalState) (h : WalRecordHeader) :
    walLog (appendRecord s h) = walLog s ++ [h] := by
  unfold appendRecord
  split
  · simp [walLog, flushBuffer]
  · simp [walLog]

theorem active_appendRecord (s : WalState) (h : WalRecordHeader) :
    (appendRecord s h).active_txns = s.active_txns := by
  unfold appendRecord
  split <;> simp [flushBuffer]

theorem nextTxn_appendRecord (s : WalState) (h : WalRecordHeader) :
    (appendRecord s h).next_txn_id = s.next_txn_id := by
  unfold appendRecord
  split <;> simp [flushBuffer]

/-- The reachability invariant for C3: every active transaction has a BEGIN
record at its recorded first LSN, has no COMMIT/ABORT record anywhere in the
log, and has an id below `next_txn_id_`; and every COMMIT/ABORT record in
the log names an id below `next_txn_id_`. -/
def WalInv (s : WalState) : Prop :=
  (∀ p ∈ s.active_txns, ∃ h ∈ walLog s,
      h.type = .BEGIN_TXN ∧ h.txn_id = p.1 ∧ h.lsn = p.2) ∧
  (∀ p ∈ s.active_txns, ∀ h ∈ walLog s,
      h.txn_id = p.1 → h.type ≠ .COMMIT_TXN ∧ h.type ≠ .ABORT_TXN) ∧
  (∀ p ∈ s.active_txns, p.1 < s.next_txn_id) ∧
  (∀ h ∈ walLog s, (h.type = .COMMIT_TXN ∨ h.type = .ABORT_TXN) →
      h.txn_id < s.next_txn_id)

theorem walInv_init : WalInv .init := by
  refine ⟨?_, ?_, ?_, ?_⟩ <;> simp [WalState.init, walLog]

end MiniDB

namespace MiniDB

theorem lookupActive_some {s : WalState} {t l : Nat}
    (h : lookupActive s t = some l) : (t, l) ∈ s.active_txns := by
  unfold lookupActive at h
  cases hf : s.active_txns.find? (fun p => p.1 == t) with
  | none => rw [hf] at h; simp at h
  | some p =>
    rw [hf] at h
    simp at h
    have hp := List.find?_some hf
    have hm := List.mem_of_find?_eq_some hf
    simp at hp
    have : p = (t, l) := by
      cases p with
      | mk a b => simp_all
    rwa [this] at hm

theorem mem_eraseActive {s : WalState} {t : Nat} {p : Nat × Nat}
    (h : p ∈ eraseActive s t) : p ∈ s.active_txns ∧ p.1 ≠ t := by
  unfold eraseActive at h
  have := List.of_mem_filter h
  refine ⟨List.mem_of_mem_filter h, ?_⟩
  simpa using this


theorem walLog_withActive (s : WalState) (a : List (Nat × Nat)) :
    walLog { s with active_txns := a } = walLog s := rfl

theorem walLog_withNext (s : WalState) (n : Nat) :
    walLog { s with next_txn_id := n } = walLog s := rfl

theorem walInv_congr {s s' : WalState} (hlog : walLog s' = walLog s)
    (hact : s'.active_txns = s.active_txns)
    (hnext : s'.next_txn_id = s.next_txn_id)
    (inv : WalInv s) : WalInv s' := by
  obtain ⟨a, b, c, d⟩ := inv
  refine ⟨?_, ?_, ?_, ?_⟩
  · intro p hp
    rw [hact] at hp
    obtain ⟨h, hm, hty⟩ := a p hp
    exact ⟨h, hlog ▸ hm, hty⟩
  · intro p hp h hm hid
    rw [hact] at hp
    rw [hlog] at hm
    exact b p hp h hm hid
  · intro p hp
    rw [hact] at hp
    rw [hnext]
    exact c p hp
  · intro h hm hty
    rw [hlog] at hm
    rw [hnext]
    exact d h hm hty

theorem walInv_append (s : WalState) (inv : WalInv s) (h0 : WalRecordHeader)
    (h1 : h0.type ≠ .COMMIT_TXN) (h2 : h0.type ≠ .ABORT_TXN) :
    WalInv (appendRecord s h0) := by
  obtain ⟨hbeg, hnc, hfresh, hcab⟩ := inv
  refine ⟨?_, ?_, ?_, ?_⟩
  · intro p hp
    rw [active_appendRecord] at hp
    obtain ⟨h, hm, hty⟩ := hbeg p hp
    exact ⟨h, by rw [walLog_appendRecord]; exact List.mem_append_left _ hm, hty⟩
  · intro p hp h hm hid
    rw [active_appendRecord] at hp
    rw [walLog_appendRecord] at hm
    rcases List.mem_append.mp hm with hm | hm
    · exact hnc p hp h hm hid
    · rw [List.mem_singleton] at hm
      subst hm
      exact ⟨h1, h2⟩
  · intro p hp
    rw [active_appendRecord] at hp
    rw [nextTxn_appendRecord]
    exact hfresh p hp
  · intro h hm hty
    rw [walLog_appendRecord] at hm
    rw [nextTxn_appendRecord]
    rcases List.mem_append.mp hm with hm | hm
    · exact hcab h hm hty
    · rw [List.mem_singleton] at hm
      subst hm
      rcases hty with hty | hty
      · exact absurd hty h1
      · exact absurd hty h2

theorem walInv_resolve (s : WalState) (inv : WalInv s) (t l : Nat)
    (hl : lookupActive s t = some l) (h0 : WalRecordHeader)
    (hid0 : h0.txn_id = t) (s' : WalState)
    (hlog : walLog s' = walLog s ++ [h0])
    (hact : s'.active_txns = eraseActive (appendRecord s h0) t)
    (hnext : s'.next_txn_id = s.next_txn_id)
    (hty0 : h0.type = .COMMIT_TXN ∨ h0.type = .ABORT_TXN) : WalInv s' := by
  obtain ⟨hbeg, hnc, hfresh, hcab⟩ := inv
  have hmem_t := lookupActive_some hl
  have ht_lt : t < s.next_txn_id := hfresh _ hmem_t
  have heract : ∀ p, p ∈ s'.active_txns → p ∈ s.active_txns ∧ p.1 ≠ t := by
    intro p hp
    rw [hact] at hp
    have := mem_eraseActive (s := appendRecord s h0) hp
    rwa [active_appendRecord] at this
  refine ⟨?_, ?_, ?_, ?_⟩
  · intro p hp
    obtain ⟨hp', _⟩ := heract p hp
    obtain ⟨h, hm, hty⟩ := hbeg p hp'
    exact ⟨h, by rw [hlog]; exact List.mem_append_left _ hm, hty⟩
  · intro p hp h hm hid
    obtain ⟨hp', hpn⟩ := heract p hp
    rw [hlog] at hm
    rcases List.mem_append.mp hm with hm | hm
    · exact hnc p hp' h hm hid
    · rw [List.mem_singleton] at hm
      subst hm
      exact absurd (hid0 ▸ hid : t = p.1).symm hpn
  · intro p hp
    rw [hnext]
    exact hfresh p (heract p hp).1
  · intro h hm hty
    rw [hlog] at hm
    rw [hnext]
    rcases List.mem_append.mp hm with hm | hm
    · exact hcab h hm hty
    · rw [List.mem_singleton] at hm
      subst hm
      rw [hid0]
      exact ht_lt

theorem walBegin_components (s : WalState) :
    walLog (walBegin s).1
      = walLog s ++ [⟨s.current_lsn, 0, s.next_txn_id, .BEGIN_TXN, 0⟩]
    ∧ (walBegin s).1.active_txns = s.active_txns ++ [(s.next_txn_id, s.current_lsn)]
    ∧ (walBegin s).1.next_txn_id = s.next_txn_id + 1 := by
  simp only [walBegin, appendRecord]
  split
  · refine ⟨?_, ?_, ?_⟩ <;> simp [walLog, flushBuffer]
  · refine ⟨?_, ?_, ?_⟩ <;> simp [walLog]

theorem walInv_step (s : WalState) (op : WalOp) (hs : WalInv s) :
    WalInv (walStep s op) := by
  obtain ⟨hbeg, hnc, hfresh, hcab⟩ := hs
  cases op with
  | begin =>
    show WalInv (walBegin s).1
    obtain ⟨hlog, hact, hnext⟩ := walBegin_components s
    refine ⟨?_, ?_, ?_, ?_⟩
    · intro p hp
      rw [hact] at hp
      rcases List.mem_append.mp hp with hp | hp
      · obtain ⟨h, hm, hty⟩ := hbeg p hp
        exact ⟨h, by rw [hlog]; exact List.mem_append_left _ hm, hty⟩
      · rw [List.mem_singleton] at hp
        subst hp
        exact ⟨⟨s.current_lsn, 0, s.next_txn_id, .BEGIN_TXN, 0⟩,
          by rw [hlog]; exact List.mem_append_right _ (List.mem_singleton_self _),
          rfl, rfl, rfl⟩
    · intro p hp h hm hid
      rw [hact] at hp
      rw [hlog] at hm
      rcases List.mem_append.mp hm with hm | hm
      · rcases List.mem_append.mp hp with hp | hp
        · exact hnc p hp h hm hid
        · rw [List.mem_singleton] at hp
          subst hp
          constructor
          · intro hty
            have h2 := hcab h hm (Or.inl hty)
            rw [hid] at h2
            exact absurd h2 (lt_irrefl _)
          · intro hty
            have h2 := hcab h hm (Or.inr hty)
            rw [hid] at h2
            exact absurd h2 (lt_irrefl _)
      · rw [List.mem_singleton] at hm
        subst hm
        exact ⟨by simp, by simp⟩
    · intro p hp
      rw [hact] at hp
      rw [hnext]
      rcases List.mem_append.mp hp with hp | hp
      · exact Nat.lt_succ_of_lt (hfresh p hp)
      · rw [List.mem_singleton] at hp
        subst hp
        exact Nat.lt_succ_self _
    · intro h hm hty
      rw [hlog] at hm
      rw [hnext]
      rcases List.mem_append.mp hm with hm | hm
      · exact Nat.lt_succ_of_lt (hcab h hm hty)
      · rw [List.mem_singleton] at hm
        subst hm
        simp at hty
  | commit t =>
    show WalInv (walCommit s t).1
    unfold walCommit
    cases hl : lookupActive s t with
    | none => exact ⟨hbeg, hnc, hfresh, hcab⟩
    | some l =>
      refine walInv_resolve s ⟨hbeg, hnc, hfresh, hcab⟩ t l hl
        ⟨s.current_lsn, l, t, .COMMIT_TXN, 0⟩ rfl _ ?_ ?_ ?_ (Or.inl rfl)
      · rw [walLog_flushBuffer, walLog_withActive, walLog_appendRecord]
      · simp [flushBuffer]
      · simp [flushBuffer, nextTxn_appendRecord]
  | abort t =>
    show WalInv (walAbort s t).1
    unfold walAbort
    cases hl : lookupActive s t with
    | none => exact ⟨hbeg, hnc, hfresh, hcab⟩
    | some l =>
      refine walInv_resolve s ⟨hbeg, hnc, hfresh, hcab⟩ t l hl
        ⟨s.current_lsn, l, t, .ABORT_TXN, 0⟩ rfl _ ?_ ?_ ?_ (Or.inr rfl)
      · rw [walLog_withActive, walLog_appendRecord]
      · rfl
      · simp [nextTxn_appendRecord]
  | logInsert t len =>
    exact walInv_append s ⟨hbeg, hnc, hfresh, hcab⟩ _ (by simp) (by simp)
  | logUpdate t o n =>
    exact walInv_append s ⟨hbeg, hnc, hfresh, hcab⟩ _ (by simp) (by simp)
  | logDelete t o =>
    exact walInv_append s ⟨hbeg, hnc, hfresh, hcab⟩ _ (by simp) (by simp)
  | checkpoint =>
    show WalInv (walCheckpoint s)
    unfold walCheckpoint
    exact walInv_congr (walLog_flushBuffer _) rfl rfl
      (walInv_append s ⟨hbeg, hnc, hfresh, hcab⟩ _ (by simp) (by simp))
  | flush =>
    show WalInv (flushBuffer s)
    exact walInv_congr (walLog_flushBuffer _) rfl rfl ⟨hbeg, hnc, hfresh, hcab⟩

theorem walInv_run (ops : List WalOp) : WalInv (walRun ops) := by
  suffices H : ∀ s, WalInv s → WalInv (ops.foldl walStep s) from H _ walInv_init
  induction ops with
  | nil => intro s hs; exact hs
  | cons op rest ih =>
    intro s hs
    exact ih _ (walInv_step s op hs)

end MiniDB

namespace MiniDB

theorem walCommit_none {s : WalState} {t : Nat}
    (hl : lookupActive s t = none) : (walCommit s t).2 = false := by
  unfold walCommit
  rw [hl]

theorem walCommit_components {s : WalState} {t l : Nat}
    (hl : lookupActive s t = some l) :
    (walCommit s t).2 = true ∧
    (walCommit s t).1.buffer = [] ∧
    (walCommit s t).1.disk = walLog s ++ [⟨s.current_lsn, l, t, .COMMIT_TXN, 0⟩] := by
  unfold walCommit
  rw [hl]
  exact ⟨rfl, rfl, walLog_appendRecord s _⟩

theorem walAbort_none {s : WalState} {t : Nat}
    (hl : lookupActive s t = none) : (walAbort s t).2 = false := by
  unfold walAbort
  rw [hl]

theorem walAbort_components {s : WalState} {t l : Nat}
    (hl : lookupActive s t = some l) :
    (walAbort s t).2 = true ∧
    walLog (walAbort s t).1 = walLog s ++ [⟨s.current_lsn, l, t, .ABORT_TXN, 0⟩] := by
  unfold walAbort
  rw [hl]
  exact ⟨rfl, walLog_appendRecord s _⟩

/-- C3: for any call sequence on a fresh WAL and any transaction id `t`:
if `commitTransaction(t)` returns true, then afterwards the write buffer is
force-flushed (empty) and the on-disk log contains both t's BEGIN record at
some LSN `l` and a COMMIT record for t whose `prev_lsn` is that same first
LSN `l`; and if `abortTransaction(t)` returns true, no COMMIT record for t
exists anywhere in the log afterwards. -/
theorem wal_commit_durable_abort_no_commit (ops : List WalOp) (t : Nat) :
    ((walCommit (walRun ops) t).2 = true →
      (walCommit (walRun ops) t).1.buffer = [] ∧
      ∃ l, (∃ hb ∈ (walCommit (walRun ops) t).1.disk,
              hb.type = .BEGIN_TXN ∧ hb.txn_id = t ∧ hb.lsn = l) ∧
           ∃ hc ∈ (walCommit (walRun ops) t).1.disk,
              hc.type = .COMMIT_TXN ∧ hc.txn_id = t ∧ hc.prev_lsn = l) ∧
    ((walAbort (walRun ops) t).2 = true →
      ∀ h ∈ walLog (walAbort (walRun ops) t).1,
        ¬(h.type = .COMMIT_TXN ∧ h.txn_id = t)) := by
  obtain ⟨hbeg, hnc, hfresh, hcab⟩ := walInv_run ops
  constructor
  · intro hsucc
    cases hl : lookupActive (walRun ops) t with
    | none => rw [walCommit_none hl] at hsucc; simp at hsucc
    | some l =>
      obtain ⟨-, hbuf, hdisk⟩ := walCommit_components hl
      refine ⟨hbuf, l, ?_, ?_⟩
      · obtain ⟨hb, hm, hty⟩ := hbeg (t, l) (lookupActive_some hl)
        exact ⟨hb, by rw [hdisk]; exact List.mem_append_left _ hm, hty⟩
      · exact ⟨⟨(walRun ops).current_lsn, l, t, .COMMIT_TXN, 0⟩,
          by rw [hdisk]; exact List.mem_append_right _ (List.mem_singleton_self _),
          rfl, rfl, rfl⟩
  · intro hsucc h hm hcommit
    cases hl : lookupActive (walRun ops) t with
    | none => rw [walAbort_none hl] at hsucc; simp at hsucc
    | some l =>
      obtain ⟨-, hlog⟩ := walAbort_components hl
      rw [hlog] at hm
      rcases List.mem_append.mp hm with hm | hm
      · exact (hnc (t, l) (lookupActive_some hl) h hm hcommit.2).1 hcommit.1
      · rw [List.mem_singleton] at hm
        subst hm
        simp at hcommit

/-- Witness for C3: one transaction begun on a fresh WAL; committing it (and,
separately, aborting it) succeeds and the theorem's conclusions hold. -/
theorem wal_commit_durable_abort_no_commit_witness :
    (walCommit (walRun [.begin]) 1).2 = true ∧
    ((walCommit (walRun [.begin]) 1).1.buffer = [] ∧
      ∃ l, (∃ hb ∈ (walCommit (walRun [.begin]) 1).1.disk,
              hb.type = .BEGIN_TXN ∧ hb.txn_id = 1 ∧ hb.lsn = l) ∧
           ∃ hc ∈ (walCommit (walRun [.begin]) 1).1.disk,
              hc.type = .COMMIT_TXN ∧ hc.txn_id = 1 ∧ hc.prev_lsn = l) ∧
    (walAbort (walRun [.begin]) 1).2 = true ∧
    (∀ h ∈ walLog (walAbort (walRun [.begin]) 1).1,
        ¬(h.type = .COMMIT_TXN ∧ h.txn_id = 1)) :=
  ⟨by decide,
   (wal_commit_durable_abort_no_commit [.begin] 1).1 (by decide),
   by decide,
   (wal_commit_durable_abort_no_commit [.begin] 1).2 (by decide)⟩

end MiniDB

namespace MiniDB

/-! ## Slotted page

`Page` (page.cpp, page.h).  The header's `page_id`, `next_page`, `checksum`
and the `is_dirty_` flag play no role in the record operations and are not
modelled.  `free_space_offset` is set to `sizeof(PageHeader)` = 20
(4+2+2+2+pad+4+4) at initialization and never changes;
`sizeof(SlotEntry)` = 6 (2+2+1+pad).  `data` is the 4096-byte `data_`
array.  `getFreeSpace` returns a `uint16_t`: the subtraction is performed
in `int` (integral promotion) and the result converted to `uint16_t`,
i.e. reduced mod 2¹⁶ — modelled exactly.  `free_space_end -= length`
is `uint16_t` arithmetic in the source; under the page invariant proved
below it never underflows, so plain `Nat` subtraction coincides with it. -/

def PAGE_SIZE : Nat := 4096
def PAGE_HEADER_SIZE : Nat := 20
def SLOT_ENTRY_SIZE : Nat := 6

structure SlotEntry where
  offset : Nat
  length : Nat
  is_deleted : Bool
deriving DecidableEq, Repr

structure Page where
  free_space_offset : Nat
  free_space_end : Nat
  data : List Nat
  slots : List SlotEntry
deriving DecidableEq, Repr

/-- `Page::initializePage` (page.cpp lines 15-24). -/
def Page.init : Page :=
  ⟨PAGE_HEADER_SIZE, PAGE_SIZE, List.replicate PAGE_SIZE 0, []⟩

/-- `Page::getSlotArraySize`: `slots_.size() * sizeof(SlotEntry)`. -/
def getSlotArraySize (p : Page) : Nat := p.slots.length * SLOT_ENTRY_SIZE

/-- `Page::getFreeSpace`:
`free_space_end - free_space_offset - getSlotArraySize()` computed in `int`
and truncated to `uint16_t` on return. -/
def getFreeSpace (p : Page) : Nat :=
  (((p.free_space_end : Int) - p.free_space_offset - getSlotArraySize p)
    % 65536).toNat

/-- `memcpy(data_ + off, bytes, bytes.length)`. -/
def writeBytes (data : List Nat) (off : Nat) (bytes : List Nat) : List Nat :=
  data.take off ++ bytes ++ data.drop (off + bytes.length)

/-- `memcpy(buffer, data_ + off, len)`. -/
def readBytes (data : List Nat) (off len : Nat) : List Nat :=
  (data.drop off).take len

/-- The slot-reuse scan of `Page::insertRecord` (page.cpp lines 42-48):
the smallest tombstoned slot index, if any. -/
def findDeletedSlot : List SlotEntry → Option Nat
  | [] => none
  | e :: rest =>
    if e.is_deleted then some 0 else (findDeletedSlot rest).map (· + 1)

/-- `Page::insertRecord` (page.cpp lines 34-76).  Returns the updated page
and the assigned slot id, or `none` when the free-space check fails. -/
def insertRecord (p : Page) (bytes : List Nat) : Option (Page × Nat) :=
  if getFreeSpace p < bytes.length + SLOT_ENTRY_SIZE then none
  else
    let off := p.free_space_end - bytes.length
    let data := writeBytes p.data off bytes
    match findDeletedSlot p.slots with
    | some i =>
      some ({ p with
              free_space_end := off
              data := data
              slots := p.slots.set i ⟨off, bytes.length, false⟩ }, i)
    | none =>
      some ({ p with
              free_space_end := off
              data := data
              slots := p.slots ++ [⟨off, bytes.length, false⟩] }, p.slots.length)

/-- `Page::getRecord` (page.cpp lines 88-97). -/
def getRecord (p : Page) (slot : Nat) : Option (List Nat) :=
  match p.slots[slot]? with
  | none => none
  | some s =>
    if s.is_deleted then none
    else some (readBytes p.data s.offset s.length)

/-- `Page::deleteRecord` (page.cpp lines 78-86). -/
def deleteRecord (p : Page) (slot : Nat) : Option Page :=
  match p.slots[slot]? with
  | none => none
  | some s =>
    if s.is_deleted then none
    else some { p with slots := p.slots.set slot ⟨s.offset, s.length, true⟩ }

/-- `Page::updateRecord` (page.cpp lines 99-130): in place when the new
bytes fit in the existing length; otherwise tombstone, re-insert (restoring
the tombstone on failure), then `slots_[slot_id] = slots_[new_slot];
slots_[new_slot].is_deleted = true`. -/
def updateRecord (p : Page) (slot : Nat) (bytes : List Nat) : Page × Bool :=
  match p.slots[slot]? with
  | none => (p, false)
  | some s =>
    if s.is_deleted then (p, false)
    else if bytes.length ≤ s.length then
      ({ p with
         data := writeBytes p.data s.offset bytes
         slots := p.slots.set slot ⟨s.offset, bytes.length, false⟩ }, true)
    else
      let p1 := { p with slots := p.slots.set slot ⟨s.offset, s.length, true⟩ }
      match insertRecord p1 bytes with
      | none =>
        ({ p1 with slots := p1.slots.set slot ⟨s.offset, s.length, false⟩ }, false)
      | some (p2, new_slot) =>
        let e := p2.slots.getD new_slot ⟨0, 0, false⟩
        ({ p2 with
           slots := (p2.slots.set slot e).set new_slot
             ⟨e.offset, e.length, true⟩ }, true)

/-- The page well-formedness invariant: the slot directory fits below the
record area, the record area fits in the page, and every slot's record
range lies in the record area. -/
def PageInv (p : Page) : Prop :=
  p.data.length = PAGE_SIZE ∧
  p.free_space_offset = PAGE_HEADER_SIZE ∧
  p.free_space_offset + getSlotArraySize p ≤ p.free_space_end ∧
  p.free_space_end ≤ PAGE_SIZE ∧
  ∀ s ∈ p.slots, p.free_space_end ≤ s.offset ∧ s.offset + s.length ≤ PAGE_SIZE

instance (p : Page) : Decidable (PageInv p) := by
  unfold PageInv
  infer_instance

end MiniDB

namespace MiniDB

theorem getFreeSpace_of_inv {p : Page}
    (h3 : p.free_space_offset + getSlotArraySize p ≤ p.free_space_end)
    (h4 : p.free_space_end ≤ PAGE_SIZE) :
    getFreeSpace p = p.free_space_end - p.free_space_offset - getSlotArraySize p := by
  have h4' : p.free_space_end ≤ 4096 := h4
  unfold getFreeSpace
  rw [Int.emod_eq_of_lt (by omega) (by omega)]
  omega

theorem length_writeBytes {data : List Nat} {off : Nat} {bytes : List Nat}
    (h : off + bytes.length ≤ data.length) :
    (writeBytes data off bytes).length = data.length := by
  unfold writeBytes
  simp
  omega

theorem drop_append_len {α : Type} (A B : List α) {n : Nat} (h : A.length = n) :
    (A ++ B).drop n = B := by
  subst h
  exact List.drop_left A B

theorem take_append_len {α : Type} (A B : List α) {n : Nat} (h : A.length = n) :
    (A ++ B).take n = A := by
  subst h
  exact List.take_left A B

theorem readBytes_writeBytes_self {data : List Nat} {off : Nat} {bytes : List Nat}
    (h : off + bytes.length ≤ data.length) :
    readBytes (writeBytes data off bytes) off bytes.length = bytes := by
  unfold readBytes writeBytes
  have hlen : (data.take off).length = off := by simp; omega
  rw [List.append_assoc, drop_append_len _ _ hlen, take_append_len bytes _ rfl]

theorem drop_writeBytes_above {data : List Nat} {off : Nat} {bytes : List Nat} {n : Nat}
    (h1 : off + bytes.length ≤ n) (h2 : off + bytes.length ≤ data.length) :
    (writeBytes data off bytes).drop n = data.drop n := by
  unfold writeBytes
  have hA : (data.take off ++ bytes).length = off + bytes.length := by
    simp
    omega
  have hn : n = (data.take off ++ bytes).length + (n - (off + bytes.length)) := by
    rw [hA]
    omega
  conv_lhs => rw [hn, List.drop_append]
  rw [List.drop_drop]
  congr 1
  omega

theorem readBytes_writeBytes_above {data : List Nat} {off : Nat} {bytes : List Nat}
    {o len : Nat} (h1 : off + bytes.length ≤ o) (h2 : off + bytes.length ≤ data.length) :
    readBytes (writeBytes data off bytes) o len = readBytes data o len := by
  unfold readBytes
  rw [drop_writeBytes_above h1 h2]

theorem findDeletedSlot_some {l : List SlotEntry} {i : Nat}
    (h : findDeletedSlot l = some i) :
    ∃ e, l[i]? = some e ∧ e.is_deleted = true := by
  induction l generalizing i with
  | nil => simp [findDeletedSlot] at h
  | cons e rest ih =>
    unfold findDeletedSlot at h
    by_cases hd : e.is_deleted
    · rw [if_pos hd] at h
      cases h
      exact ⟨e, by simp, hd⟩
    · rw [if_neg hd] at h
      cases hj : findDeletedSlot rest with
      | none => rw [hj] at h; simp at h
      | some j =>
        rw [hj] at h
        simp at h
        obtain ⟨e', he', hd'⟩ := ih hj
        subst h
        exact ⟨e', by simpa using he', hd'⟩

theorem insertRecord_spec {p : Page} {bytes : List Nat} {p' : Page} {s : Nat}
    (hins : insertRecord p bytes = some (p', s)) :
    bytes.length + SLOT_ENTRY_SIZE ≤ getFreeSpace p ∧
    p'.free_space_offset = p.free_space_offset ∧
    p'.free_space_end = p.free_space_end - bytes.length ∧
    p'.data = writeBytes p.data (p.free_space_end - bytes.length) bytes ∧
    ((findDeletedSlot p.slots = some s ∧
      p'.slots = p.slots.set s
        ⟨p.free_space_end - bytes.length, bytes.length, false⟩) ∨
     (findDeletedSlot p.slots = none ∧ s = p.slots.length ∧
      p'.slots = p.slots ++
        [⟨p.free_space_end - bytes.length, bytes.length, false⟩])) := by
  unfold insertRecord at hins
  by_cases hg : getFreeSpace p < bytes.length + SLOT_ENTRY_SIZE
  · rw [if_pos hg] at hins
    simp at hins
  · rw [if_neg hg] at hins
    cases hfind : findDeletedSlot p.slots with
    | some i =>
      rw [hfind] at hins
      simp only [Option.some.injEq, Prod.mk.injEq] at hins
      obtain ⟨hp', hs⟩ := hins
      subst hs
      rw [← hp']
      exact ⟨Nat.le_of_not_lt hg, rfl, rfl, rfl, Or.inl ⟨rfl, rfl⟩⟩
    | none =>
      rw [hfind] at hins
      simp only [Option.some.injEq, Prod.mk.injEq] at hins
      obtain ⟨hp', hs⟩ := hins
      subst hs
      rw [← hp']
      exact ⟨Nat.le_of_not_lt hg, rfl, rfl, rfl, Or.inr ⟨rfl, rfl, rfl⟩⟩

end MiniDB

namespace MiniDB

theorem mem_of_getElem?_some {α : Type} {l : List α} {i : Nat} {a : α}
    (h : l[i]? = some a) : a ∈ l := by
  obtain ⟨hb, hv⟩ := List.getElem?_eq_some.mp h
  rw [← hv]
  exact List.getElem_mem hb

theorem insertRecord_arith {p : Page} {bytes : List Nat}
    (hInv : PageInv p)
    (hfree : bytes.length + SLOT_ENTRY_SIZE ≤ getFreeSpace p) :
    p.free_space_offset + getSlotArraySize p + bytes.length + SLOT_ENTRY_SIZE
      ≤ p.free_space_end := by
  obtain ⟨hd, hfso, hsz, hfse, hslots⟩ := hInv
  rw [getFreeSpace_of_inv hsz hfse] at hfree
  omega

theorem insertRecord_inv {p : Page} {bytes : List Nat} {p' : Page} {s : Nat}
    (hInv : PageInv p) (hins : insertRecord p bytes = some (p', s)) :
    PageInv p' := by
  obtain ⟨hfree, hfso', hfse', hdata', hbranch⟩ := insertRecord_spec hins
  have harith := insertRecord_arith hInv hfree
  obtain ⟨hd, hfso, hsz, hfse, hslots⟩ := hInv
  have hs6 : SLOT_ENTRY_SIZE = 6 := rfl
  have hps : PAGE_SIZE = 4096 := rfl
  have hlen_le : bytes.length ≤ p.free_space_end := by omega
  have hoff : p.free_space_end - bytes.length + bytes.length = p.free_space_end := by
    omega
  have hwb : p.free_space_end - bytes.length + bytes.length ≤ p.data.length := by
    omega
  refine ⟨?_, ?_, ?_, ?_, ?_⟩
  · rw [hdata', length_writeBytes hwb]
    exact hd
  · rw [hfso']
    exact hfso
  · rw [hfso', hfse']
    unfold getSlotArraySize at harith ⊢
    rcases hbranch with ⟨hfind, hsl⟩ | ⟨hfind, hsl, hsl'⟩
    · rw [hsl, List.length_set]
      omega
    · rw [hsl', List.length_append]
      simp only [List.length_singleton, hs6] at harith ⊢
      omega
  · rw [hfse']
    omega
  · intro e he
    rw [hfse']
    rcases hbranch with ⟨hfind, hsl⟩ | ⟨hfind, hsl, hsl'⟩
    · rw [hsl] at he
      rcases List.mem_or_eq_of_mem_set he with he | he
      · have := hslots e he
        omega
      · subst he
        simp only
        omega
    · rw [hsl'] at he
      rcases List.mem_append.mp he with he | he
      · have := hslots e he
        omega
      · rw [List.mem_singleton] at he
        subst he
        simp only
        omega

theorem insertRecord_get {p : Page} {bytes : List Nat} {p' : Page} {s : Nat}
    (hInv : PageInv p) (hins : insertRecord p bytes = some (p', s)) :
    getRecord p' s = some bytes := by
  obtain ⟨hfree, hfso', hfse', hdata', hbranch⟩ := insertRecord_spec hins
  have harith := insertRecord_arith hInv hfree
  obtain ⟨hd, hfso, hsz, hfse, hslots⟩ := hInv
  have hwb : p.free_space_end - bytes.length + bytes.length ≤ p.data.length := by
    have : PAGE_SIZE = 4096 := rfl
    omega
  have hslot : p'.slots[s]? =
      some ⟨p.free_space_end - bytes.length, bytes.length, false⟩ := by
    rcases hbranch with ⟨hfind, hsl⟩ | ⟨hfind, hsl, hsl'⟩
    · rw [hsl]
      obtain ⟨e, he, -⟩ := findDeletedSlot_some hfind
      have hlt : s < p.slots.length := by
        by_contra hge
        rw [List.getElem?_eq_none (by omega)] at he
        simp at he
      exact List.getElem?_set_self hlt
    · rw [hsl', hsl]
      exact List.getElem?_concat_length _ _
  unfold getRecord
  rw [hslot]
  simp only [Bool.false_eq_true, if_false]
  rw [hdata']
  have := @readBytes_writeBytes_self p.data
    (p.free_space_end - bytes.length) bytes hwb
  rw [this]

theorem insertRecord_preserves_get {p : Page} {bytes : List Nat} {p' : Page} {s : Nat}
    (hInv : PageInv p) (hins : insertRecord p bytes = some (p', s))
    {t : Nat} {v : List Nat} (hget : getRecord p t = some v) :
    getRecord p' t = some v := by
  obtain ⟨hfree, hfso', hfse', hdata', hbranch⟩ := insertRecord_spec hins
  have harith := insertRecord_arith hInv hfree
  obtain ⟨hd, hfso, hsz, hfse, hslots⟩ := hInv
  unfold getRecord at hget
  cases hte : p.slots[t]? with
  | none => simp only [hte] at hget; simp at hget
  | some e =>
    simp only [hte] at hget
    by_cases hdel : e.is_deleted
    · rw [if_pos hdel] at hget; simp at hget
    · rw [if_neg hdel] at hget
      have hmem : e ∈ p.slots := by
        have : t < p.slots.length := by
          by_contra hge
          rw [List.getElem?_eq_none (by omega)] at hte
          simp at hte
        exact mem_of_getElem?_some hte
      obtain ⟨hoff_ge, hoff_le⟩ := hslots e hmem
      have hslot' : p'.slots[t]? = some e := by
        rcases hbranch with ⟨hfind, hsl⟩ | ⟨hfind, hsl, hsl'⟩
        · rw [hsl]
          have hne : s ≠ t := by
            intro hst
            subst hst
            obtain ⟨e', he', hdel'⟩ := findDeletedSlot_some hfind
            rw [hte] at he'
            simp at he'
            subst he'
            exact hdel hdel'
          rw [List.getElem?_set_ne hne]
          exact hte
        · rw [hsl']
          have : t < p.slots.length := by
            by_contra hge
            rw [List.getElem?_eq_none (by omega)] at hte
            simp at hte
          rw [List.getElem?_append_left this]
          exact hte
      unfold getRecord
      simp only [hslot']
      rw [if_neg hdel, hdata']
      rw [readBytes_writeBytes_above (by omega) (by omega)]
      exact hget

end MiniDB

namespace MiniDB

/-- Insert a sequence of records one after another (each call is
`Page::insertRecord`), collecting the returned slot ids. -/
def insertAll (p : Page) : List (List Nat) → Option (Page × List Nat)
  | [] => some (p, [])
  | b :: rest =>
    match insertRecord p b with
    | none => none
    | some (p1, s) =>
      match insertAll p1 rest with
      | none => none
      | some (p2, ids) => some (p2, s :: ids)

theorem insertAll_preserves {p : Page} {rs : List (List Nat)} {p' : Page}
    {ids : List Nat} (hInv : PageInv p) (h : insertAll p rs = some (p', ids)) :
    PageInv p' ∧ ∀ t v, getRecord p t = some v → getRecord p' t = some v := by
  induction rs generalizing p ids with
  | nil =>
    simp only [insertAll, Option.some.injEq, Prod.mk.injEq] at h
    obtain ⟨h1, -⟩ := h
    subst h1
    exact ⟨hInv, fun t v hv => hv⟩
  | cons b rest ih =>
    unfold insertAll at h
    cases hi : insertRecord p b with
    | none => simp only [hi] at h; exact Option.noConfusion h
    | some pr =>
      obtain ⟨p1, s⟩ := pr
      simp only [hi] at h
      cases ha : insertAll p1 rest with
      | none => simp only [ha] at h; exact Option.noConfusion h
      | some qr =>
        obtain ⟨p2, ids'⟩ := qr
        simp only [ha, Option.some.injEq, Prod.mk.injEq] at h
        obtain ⟨h1, -⟩ := h
        subst h1
        have hInv1 := insertRecord_inv hInv hi
        obtain ⟨hInv2, hpres⟩ := ih hInv1 ha
        exact ⟨hInv2, fun t v hv =>
          hpres t v (insertRecord_preserves_get hInv hi hv)⟩

theorem insertAll_get {p : Page} {rs : List (List Nat)} {p' : Page}
    {ids : List Nat} (hInv : PageInv p) (h : insertAll p rs = some (p', ids)) :
    ids.length = rs.length ∧
    ∀ j, j < rs.length → getRecord p' (ids.getD j 0) = some (rs.getD j []) := by
  induction rs generalizing p ids with
  | nil =>
    simp only [insertAll, Option.some.injEq, Prod.mk.injEq] at h
    obtain ⟨-, h2⟩ := h
    subst h2
    exact ⟨rfl, fun j hj => by simp at hj⟩
  | cons b rest ih =>
    unfold insertAll at h
    cases hi : insertRecord p b with
    | none => simp only [hi] at h; exact Option.noConfusion h
    | some pr =>
      obtain ⟨p1, s⟩ := pr
      simp only [hi] at h
      cases ha : insertAll p1 rest with
      | none => simp only [ha] at h; exact Option.noConfusion h
      | some qr =>
        obtain ⟨p2, ids'⟩ := qr
        simp only [ha, Option.some.injEq, Prod.mk.injEq] at h
        obtain ⟨h1, h2⟩ := h
        subst h1
        subst h2
        have hInv1 := insertRecord_inv hInv hi
        obtain ⟨len_eq, hrest⟩ := ih hInv1 ha
        refine ⟨by simp [len_eq], ?_⟩
        intro j hj
        cases j with
        | zero =>
          have h0 := insertRecord_get hInv hi
          obtain ⟨-, hpres⟩ := insertAll_preserves hInv1 ha
          simpa using hpres s b h0
        | succ k =>
          have hk : k < rest.length := by simpa using hj
          simpa using hrest k hk

theorem pageInv_init : PageInv Page.init := by
  refine ⟨?_, rfl, ?_, ?_, ?_⟩
  · show (List.replicate PAGE_SIZE 0).length = PAGE_SIZE
    exact List.length_replicate _ _
  · show PAGE_HEADER_SIZE + getSlotArraySize Page.init ≤ PAGE_SIZE
    decide
  · show (PAGE_SIZE : Nat) ≤ PAGE_SIZE
    exact le_refl _
  · intro e he
    exact absurd he (List.not_mem_nil e)

/-- C7: on a well-formed page, a successful `insert_record(bytes)` returning
slot `s` makes `get_record(s)` return exactly `bytes`; and a successful
sequence of inserts makes each returned slot id retrieve the corresponding
original bytes. -/
theorem page_insert_then_get (p : Page) (bytes : List Nat) (p1 : Page) (s : Nat)
    (rs : List (List Nat)) (q : Page) (ids : List Nat)
    (hInv : PageInv p)
    (hlen : bytes.length ≤ getFreeSpace p)
    (hins : insertRecord p bytes = some (p1, s))
    (hall : insertAll p rs = some (q, ids)) :
    getRecord p1 s = some bytes ∧
    ids.length = rs.length ∧
    ∀ j, j < rs.length → getRecord q (ids.getD j 0) = some (rs.getD j []) :=
  ⟨insertRecord_get hInv hins,
   (insertAll_get hInv hall).1,
   (insertAll_get hInv hall).2⟩

/-- Witness for C7: on a fresh page, insert `[7,8,9]` (single-insert part)
and the sequence `[[1],[2,3]]` (multi-insert part). -/
theorem page_insert_then_get_witness :
    ∃ p1 s q ids,
      PageInv Page.init ∧
      ([7, 8, 9] : List Nat).length ≤ getFreeSpace Page.init ∧
      insertRecord Page.init [7, 8, 9] = some (p1, s) ∧
      insertAll Page.init [[1], [2, 3]] = some (q, ids) ∧
      (getRecord p1 s = some [7, 8, 9] ∧
       ids.length = 2 ∧
       ∀ j, j < 2 → getRecord q (ids.getD j 0) = some ([[1], [2, 3]].getD j [])) :=
  ⟨_, _, _, _, pageInv_init, by decide, rfl, rfl,
   page_insert_then_get Page.init [7, 8, 9] _ _ [[1], [2, 3]] _ _
     pageInv_init (by decide) rfl rfl⟩

end MiniDB

namespace MiniDB

set_option maxRecDepth 40000 in
/-- C8 failing input: a fresh page holding one 2-byte record at slot 0.
`update_record(0, [1,2,3,4])` must grow the record, so the source tombstones
slot 0 and re-inserts; the re-insert reuses the smallest tombstoned slot,
which is slot 0 itself.  The subsequent "swap" (`slots_[slot_id] =
slots_[new_slot]; slots_[new_slot].is_deleted = true`) then tombstones the
very slot that was just written: the call returns success but
`get_record(0)` fails afterwards, contradicting both the claim and the
source's own intent that the caller's SlotId still refers to the new
bytes. -/
theorem update_grow_tombstones_slot :
    ∃ p1 : Page,
      insertRecord Page.init [1, 2] = some (p1, 0) ∧
      getRecord p1 0 = some [1, 2] ∧
      (updateRecord p1 0 [1, 2, 3, 4]).2 = true ∧
      getRecord (updateRecord p1 0 [1, 2, 3, 4]).1 0 = none := by
  refine ⟨_, rfl, ?_, ?_, ?_⟩ <;> decide

end MiniDB

namespace MiniDB

/-! ## Buffer pool and file manager

`BufferPool::deletePage` (buffer_pool.cpp lines 134-156) and
`FileManager::deallocatePage` (file_manager.cpp).  The buffer pool holds the
page table (PageId → frame), the LRU list, the free-frame list and the
per-frame pin counts; `pin_counts[f]` models `pages_[f].getPinCount()`.
`deallocatePage` appends to the free list and rewrites the on-disk header
only when `page_id < num_pages_`. -/

structure FMState where
  num_pages : Nat
  free_pages : List Nat
deriving DecidableEq, Repr

/-- `FileManager::deallocatePage` (file_manager.cpp lines 162-167). -/
def deallocatePage (fm : FMState) (p : Nat) : FMState :=
  if p < fm.num_pages then { fm with free_pages := fm.free_pages ++ [p] } else fm

structure BPState where
  page_table : List (Nat × Nat)
  lru_list : List Nat
  free_frames : List Nat
  pin_counts : List Nat
  fm : FMState
deriving DecidableEq, Repr

def lookupPT (pt : List (Nat × Nat)) (p : Nat) : Option Nat :=
  (pt.find? (fun e => e.1 == p)).map (fun e => e.2)

/-- `BufferPool::deletePage` (buffer_pool.cpp lines 134-156): for a resident
page, refuse if pinned, else drop it from the LRU list and the page table
and return the frame to the free list; in every non-refused case call
`FileManager::deallocatePage` and return true. -/
def deletePage (s : BPState) (p : Nat) : BPState × Bool :=
  match lookupPT s.page_table p with
  | some f =>
    if 0 < s.pin_counts.getD f 0 then (s, false)
    else
      ({ s with
         lru_list := s.lru_list.filter (fun x => x != f)
         free_frames := s.free_frames ++ [f]
         page_table := s.page_table.filter (fun e => e.1 != p)
         fm := deallocatePage s.fm p }, true)
  | none => ({ s with fm := deallocatePage s.fm p }, true)

/-- C10 counterexample: deleting a PageId that is neither resident nor ever
allocated (empty file) returns true and leaves the buffer pool untouched,
but does NOT append the id to the File Manager's free list —
`deallocatePage` is a no-op for `page_id ≥ num_pages_`, so the claim's
"still deallocates p (appending p to the on-disk free list)" fails. -/
theorem deletePage_nonresident_no_append :
    (deletePage ⟨[], [], [], [], ⟨0, []⟩⟩ 5).2 = true ∧
    (deletePage ⟨[], [], [], [], ⟨0, []⟩⟩ 5).1 = ⟨[], [], [], [], ⟨0, []⟩⟩ ∧
    (deletePage ⟨[], [], [], [], ⟨0, []⟩⟩ 5).1.fm.free_pages ≠ [] ++ [5] := by
  decide

/-- Amended C10: for a non-resident PageId `p`, `deletePage(p)` returns true
and changes nothing but the File Manager state, never checking any pin
count; the File Manager appends `p` to the free list iff `p` is below the
file's page count, and otherwise leaves its state unchanged. -/
theorem deletePage_nonresident (s : BPState) (p : Nat)
    (h : lookupPT s.page_table p = none) :
    deletePage s p = ({ s with fm := deallocatePage s.fm p }, true) ∧
    (p < s.fm.num_pages →
      (deletePage s p).1.fm.free_pages = s.fm.free_pages ++ [p]) ∧
    (¬ p < s.fm.num_pages → (deletePage s p).1.fm = s.fm) := by
  unfold deletePage
  rw [h]
  refine ⟨rfl, ?_, ?_⟩
  · intro hp
    show (deallocatePage s.fm p).free_pages = _
    unfold deallocatePage
    rw [if_pos hp]
  · intro hp
    show deallocatePage s.fm p = s.fm
    unfold deallocatePage
    rw [if_neg hp]

/-- Witness for the amended C10: page 7 is absent from a one-entry page
table but allocated on disk (page count 8): it is appended to the free
list and the rest of the state is untouched. -/
theorem deletePage_nonresident_witness :
    lookupPT ([(3, 0)] : List (Nat × Nat)) 7 = none ∧
    (deletePage ⟨[(3, 0)], [0], [], [1], ⟨8, []⟩⟩ 7
      = (⟨[(3, 0)], [0], [], [1], ⟨8, [7]⟩⟩, true) ∧
     (7 < 8 →
      (deletePage ⟨[(3, 0)], [0], [], [1], ⟨8, []⟩⟩ 7).1.fm.free_pages = [] ++ [7]) ∧
     (¬ 7 < 8 →
      (deletePage ⟨[(3, 0)], [0], [], [1], ⟨8, []⟩⟩ 7).1.fm = ⟨8, []⟩)) :=
  ⟨by decide, deletePage_nonresident ⟨[(3, 0)], [0], [], [1], ⟨8, []⟩⟩ 7 (by decide)⟩

end MiniDB

namespace MiniDB

/-! ## B+ tree

`BTree` (btree.cpp, btree.h).  Nodes are leaves (keys + RecordId values,
linked left-to-right through `next`) or internal nodes (keys + children).
The pointer structure (including parent back-pointers, used only for
bottom-up restructuring) is modelled by the tree itself; restructuring is
threaded through the recursive descent, which computes the same result.
The leaf `next` chain always lists the leaves in left-to-right order:
`splitLeaf` links the new right leaf after the split leaf, and the merges
rewire it accordingly; it is therefore represented by the in-order leaf
sequence.  An empty tree is `none` (`root_ == nullptr`).
`order_` = maximum children of an internal node, `getMinKeys() =
(order_ - 1) / 2` (btree.h). -/

abbrev Rid := Nat × Nat

inductive BNode where
  | leaf (keys : List Int) (vals : List Rid)
  | node (keys : List Int) (children : List BNode)
deriving Repr

/-- `BTree::getMinKeys` (btree.h): `(order_ - 1) / 2` (integer division). -/
def getMinKeys (order : Nat) : Nat := (order - 1) / 2

theorem sizeOf_getElem_lt (cs : List BNode) (i : Nat) (h : i < cs.length) :
    sizeOf cs[i] < sizeOf cs := by
  have hm : cs[i] ∈ cs := List.getElem_mem h
  exact List.sizeOf_lt_of_mem hm

/-- The descent step of `BTree::findLeaf` (btree.cpp lines 31-43):
`while (i < keys.size() && key >= keys[i]) i++`. -/
def childIdx (ks : List Int) (k : Int) : Nat :=
  (ks.takeWhile (fun x => decide (x ≤ k))).length

/-- `std::lower_bound`: number of leading keys `< k`. -/
def lowerBound (ks : List Int) (k : Int) : Nat :=
  (ks.takeWhile (fun x => decide (x < k))).length

/-- `vector::insert(begin() + i, a)`. -/
def insertAt {α : Type} (l : List α) (i : Nat) (a : α) : List α :=
  l.take i ++ a :: l.drop i

/-- `vector::erase(begin() + i)`. -/
def eraseAt {α : Type} (l : List α) (i : Nat) : List α :=
  l.take i ++ l.drop (i + 1)

/-- `std::find` position of `k`. -/
def idxOfKey : List Int → Int → Option Nat
  | [], _ => none
  | x :: rest, k => if x = k then some 0 else (idxOfKey rest k).map (· + 1)

/-- `BTree::insertIntoLeaf` (btree.cpp lines 63-77): `lower_bound`, then
overwrite on duplicate, otherwise insert in order. -/
def insertIntoLeaf (ks : List Int) (vs : List Rid) (k : Int) (v : Rid) :
    List Int × List Rid :=
  let pos := lowerBound ks k
  match ks[pos]? with
  | some x =>
    if x = k then (ks, vs.set pos v)
    else (insertAt ks pos k, insertAt vs pos v)
  | none => (insertAt ks pos k, insertAt vs pos v)

inductive InsRes where
  | ok (n : BNode)
  | split (l : BNode) (sep : Int) (r : BNode)
deriving Repr

/-- `BTree::insert` below the root: descend (`findLeaf`), insert into the
leaf, split on overflow (`splitLeaf` btree.cpp 79-99 / `splitInternal`
131-152), propagating the separator up (`insertIntoParent` 101-129, which
places the separator by `lower_bound` and the new right child after the
split child).  A `split` result is what `insertIntoParent` receives.  The
`else` fallback for an out-of-range child index is unreachable on
well-formed trees (`children.size() == keys.size() + 1`). -/
def insertNode (order : Nat) (k : Int) (v : Rid) : BNode → InsRes
  | .leaf ks vs =>
    let kv := insertIntoLeaf ks vs k v
    if order ≤ kv.1.length then
      let mid := kv.1.length / 2
      .split (.leaf (kv.1.take mid) (kv.2.take mid)) (kv.1.getD mid 0)
        (.leaf (kv.1.drop mid) (kv.2.drop mid))
    else .ok (.leaf kv.1 kv.2)
  | .node ks cs =>
    if h : childIdx ks k < cs.length then
      match insertNode order k v cs[childIdx ks k] with
      | .ok c => .ok (.node ks (cs.set (childIdx ks k) c))
      | .split l sep r =>
        let pos := lowerBound ks sep
        let ks' := insertAt ks pos sep
        let cs' := insertAt (cs.set (childIdx ks k) l) (pos + 1) r
        if order ≤ ks'.length then
          let mid := ks'.length / 2
          .split (.node (ks'.take mid) (cs'.take (mid + 1))) (ks'.getD mid 0)
            (.node (ks'.drop (mid + 1)) (cs'.drop (mid + 1)))
        else .ok (.node ks' cs')
    else .ok (.node ks cs)
termination_by t => sizeOf t
decreasing_by
  simp_wf
  rename_i ks cs
  have := sizeOf_getElem_lt cs (childIdx ks k) (by assumption)
  omega

/-- `BTree::insert` (btree.cpp lines 45-61), including the fresh-root and
new-root-on-split cases. -/
def insertTree (order : Nat) (t : Option BNode) (k : Int) (v : Rid) :
    Option BNode :=
  match t with
  | none => some (.leaf [k] [v])
  | some r =>
    match insertNode order k v r with
    | .ok r' => some r'
    | .split l sep r' => some (.node [sep] [l, r'])

/-- `BTree::findLeaf` (btree.cpp lines 31-43): the leaf the descent
reaches. -/
def findLeafT (k : Int) : BNode → List Int × List Rid
  | .leaf ks vs => (ks, vs)
  | .node ks cs =>
    if h : childIdx ks k < cs.length then
      findLeafT k cs[childIdx ks k]
    else ([], [])
termination_by t => sizeOf t
decreasing_by
  simp_wf
  rename_i ks cs
  have := sizeOf_getElem_lt cs (childIdx ks k) (by assumption)
  omega

/-- `BTree::search` (btree.cpp lines 405-414). -/
def searchT (t : Option BNode) (k : Int) : Option Rid :=
  match t with
  | none => none
  | some r =>
    let lf := findLeafT k r
    match idxOfKey lf.1 k with
    | none => none
    | some pos => lf.2[pos]?

def keyCount : BNode → Nat
  | .leaf ks _ => ks.length
  | .node ks _ => ks.length

/-- `BTree::handleUnderflow` (btree.cpp lines 241-267) with its four
helpers (borrow from left/right sibling, merge with left/right sibling,
btree.cpp lines 269-397), expressed from the parent's point of view:
`ks`/`cs` are the parent's keys and children where `cs` already holds
the underflowed child at index `i`.  Mismatched sibling kinds cannot occur
on well-formed trees; those fallthrough branches return the input. -/
def rebalance (order : Nat) (ks : List Int) (cs : List BNode) (i : Nat) :
    List Int × List BNode :=
  if 0 < i ∧ getMinKeys order < keyCount (cs.getD (i - 1) (.leaf [] [])) then
    -- borrowFromLeftSibling
    match cs.getD i (.leaf [] []), cs.getD (i - 1) (.leaf [] []) with
    | .leaf nks nvs, .leaf lks lvs =>
      let movedK := lks.getLast?.getD 0
      let movedV := lvs.getLast?.getD (0, 0)
      (ks.set (i - 1) movedK,
       (cs.set i (.leaf (movedK :: nks) (movedV :: nvs))).set (i - 1)
         (.leaf lks.dropLast lvs.dropLast))
    | .node nks ncs, .node lks lcs =>
      let sep := ks.getD (i - 1) 0
      let movedK := lks.getLast?.getD 0
      let movedC := lcs.getLast?.getD (.leaf [] [])
      (ks.set (i - 1) movedK,
       (cs.set i (.node (sep :: nks) (movedC :: ncs))).set (i - 1)
         (.node lks.dropLast lcs.dropLast))
    | _, _ => (ks, cs)
  else if i + 1 < cs.length ∧
      getMinKeys order < keyCount (cs.getD (i + 1) (.leaf [] [])) then
    -- borrowFromRightSibling
    match cs.getD i (.leaf [] []), cs.getD (i + 1) (.leaf [] []) with
    | .leaf nks nvs, .leaf rks rvs =>
      let movedK := rks.getD 0 0
      let movedV := rvs.getD 0 (0, 0)
      (ks.set i (rks.tail.getD 0 0),
       (cs.set i (.leaf (nks ++ [movedK]) (nvs ++ [movedV]))).set (i + 1)
         (.leaf rks.tail rvs.tail))
    | .node nks ncs, .node rks rcs =>
      let movedC := rcs.getD 0 (.leaf [] [])
      (ks.set i (rks.getD 0 0),
       (cs.set i (.node (nks ++ [ks.getD i 0]) (ncs ++ [movedC]))).set (i + 1)
         (.node rks.tail rcs.tail))
    | _, _ => (ks, cs)
  else if 0 < i then
    -- mergeWithLeftSibling
    match cs.getD i (.leaf [] []), cs.getD (i - 1) (.leaf [] []) with
    | .leaf nks nvs, .leaf lks lvs =>
      (eraseAt ks (i - 1),
       eraseAt (cs.set (i - 1) (.leaf (lks ++ nks) (lvs ++ nvs))) i)
    | .node nks ncs, .node lks lcs =>
      (eraseAt ks (i - 1),
       eraseAt (cs.set (i - 1)
         (.node (lks ++ ks.getD (i - 1) 0 :: nks) (lcs ++ ncs))) i)
    | _, _ => (ks, cs)
  else if i + 1 < cs.length then
    -- mergeWithRightSibling
    match cs.getD i (.leaf [] []), cs.getD (i + 1) (.leaf [] []) with
    | .leaf nks nvs, .leaf rks rvs =>
      (eraseAt ks i,
       eraseAt (cs.set i (.leaf (nks ++ rks) (nvs ++ rvs))) (i + 1))
    | .node nks ncs, .node rks rcs =>
      (eraseAt ks i,
       eraseAt (cs.set i
         (.node (nks ++ ks.getD i 0 :: rks) (ncs ++ rcs))) (i + 1))
    | _, _ => (ks, cs)
  else (ks, cs)

/-- `BTree::remove` below the root (btree.cpp lines 154-213): descend,
erase in the leaf (`std::find`), and on each level rebalance the child
when it underflows (`keys.size() < getMinKeys()`). -/
def removeNode (order : Nat) (k : Int) : BNode → BNode × Bool
  | .leaf ks vs =>
    match idxOfKey ks k with
    | none => (.leaf ks vs, false)
    | some pos => (.leaf (eraseAt ks pos) (eraseAt vs pos), true)
  | .node ks cs =>
    if h : childIdx ks k < cs.length then
      let res := removeNode order k cs[childIdx ks k]
      if keyCount res.1 < getMinKeys order then
        let kc := rebalance order ks (cs.set (childIdx ks k) res.1) (childIdx ks k)
        (.node kc.1 kc.2, res.2)
      else (.node ks (cs.set (childIdx ks k) res.1), res.2)
    else (.node ks cs, false)
termination_by t => sizeOf t
decreasing_by
  simp_wf
  rename_i ks cs
  have := sizeOf_getElem_lt cs (childIdx ks k) (by assumption)
  omega

/-- `BTree::remove` at the root: an emptied root leaf drops the tree to
empty (btree.cpp lines 175-180); a root left with zero keys after a merge
promotes its only child (btree.cpp lines 347-352 / 388-393). -/
def removeTree (order : Nat) (t : Option BNode) (k : Int) :
    Option BNode × Bool :=
  match t with
  | none => (none, false)
  | some r =>
    let res := removeNode order k r
    match res.1 with
    | .leaf [] _ => (none, res.2)
    | .node [] (c :: _) => (some c, res.2)
    | r' => (some r', res.2)

mutual
/-- The in-order sequence of leaves of a subtree: the `next`-chain segment
below this node. -/
def leavesOf : BNode → List (List Int × List Rid)
  | .leaf ks vs => [(ks, vs)]
  | .node _ cs => leavesOfL cs
def leavesOfL : List BNode → List (List Int × List Rid)
  | [] => []
  | c :: cs => leavesOf c ++ leavesOfL cs
end

/-- The suffix of the leaf chain starting at `findLeaf(k)`: the chain the
`while (leaf)` loop of `BTree::rangeSearch` walks. -/
def leafChainFrom (k : Int) : BNode → List (List Int × List Rid)
  | .leaf ks vs => [(ks, vs)]
  | .node ks cs =>
    if h : childIdx ks k < cs.length then
      leafChainFrom k cs[childIdx ks k] ++ leavesOfL (cs.drop (childIdx ks k + 1))
    else []
termination_by t => sizeOf t
decreasing_by
  simp_wf
  rename_i ks cs
  have := sizeOf_getElem_lt cs (childIdx ks k) (by assumption)
  omega

/-- The inner loop of `BTree::rangeSearch` (btree.cpp lines 423-430) over
one leaf: collect values with key in `[lo, hi]`, with the early
`return results` on the first key `> hi` signalled in the Bool. -/
def scanLeafPairs : List (Int × Rid) → Int → Int → List Rid × Bool
  | [], _, _ => ([], false)
  | (k, v) :: rest, lo, hi =>
    if lo ≤ k ∧ k ≤ hi then
      let res := scanLeafPairs rest lo hi
      (v :: res.1, res.2)
    else if hi < k then ([], true)
    else scanLeafPairs rest lo hi

/-- The `while (leaf)` loop of `BTree::rangeSearch`. -/
def scanChain : List (List Int × List Rid) → Int → Int → List Rid
  | [], _, _ => []
  | (ks, vs) :: rest, lo, hi =>
    let res := scanLeafPairs (ks.zip vs) lo hi
    if res.2 then res.1 else res.1 ++ scanChain rest lo hi

/-- `BTree::rangeSearch` (btree.cpp lines 416-435). -/
def rangeSearchT (t : Option BNode) (lo hi : Int) : List Rid :=
  match t with
  | none => []
  | some r => scanChain (leafChainFrom lo r) lo hi

inductive BOp where
  | ins (k : Int) (v : Rid)
  | del (k : Int)

def applyBOp (order : Nat) (t : Option BNode) : BOp → Option BNode
  | .ins k v => insertTree order t k v
  | .del k => (removeTree order t k).1

/-- The tree after a sequence of insert/remove calls on a fresh `BTree`. -/
def runBOps (order : Nat) (ops : List BOp) : Option BNode :=
  ops.foldl (applyBOp order) none

end MiniDB

namespace MiniDB

/-- The shape part of the B+ tree invariant, indexed by height (so all
leaves sit at equal depth and siblings always have the same kind): key and
value counts agree in leaves, `children.size() == keys.size() + 1` in
internal nodes, every node holds at most `order - 1` keys, the root holds
at least one key, and every other node holds at least `getMinKeys order`
keys. -/
def ShapeInvH (order : Nat) : Nat → Bool → BNode → Prop
  | 0, isRoot, .leaf ks vs =>
    ks.length = vs.length ∧ ks.length ≤ order - 1 ∧
    (if isRoot then 1 else getMinKeys order) ≤ ks.length
  | h + 1, isRoot, .node ks cs =>
    cs.length = ks.length + 1 ∧ ks.length ≤ order - 1 ∧
    (if isRoot then 1 else getMinKeys order) ≤ ks.length ∧
    ∀ c ∈ cs, ShapeInvH order h false c
  | _, _, _ => False

/-- `ShapeInvH` minus the minimum-keys bound on the top node. -/
def PartShapeH (order : Nat) : Nat → BNode → Prop
  | 0, .leaf ks vs => ks.length = vs.length ∧ ks.length ≤ order - 1
  | h + 1, .node ks cs =>
    cs.length = ks.length + 1 ∧ ks.length ≤ order - 1 ∧
    ∀ c ∈ cs, ShapeInvH order h false c
  | _, _ => False

/-- A tree reachable from `BTree()` is empty or a root of some height
satisfying the shape invariant. -/
def TreeShape (order : Nat) : Option BNode → Prop
  | none => True
  | some r => ∃ h, ShapeInvH order h true r

theorem shapeInvH_iff (order h : Nat) (isRoot : Bool) (t : BNode) :
    ShapeInvH order h isRoot t ↔
      PartShapeH order h t ∧
      (if isRoot then 1 else getMinKeys order) ≤ keyCount t := by
  match h, t with
  | 0, .leaf ks vs => simp [ShapeInvH, PartShapeH, keyCount]; tauto
  | h + 1, .leaf ks vs => simp [ShapeInvH, PartShapeH]
  | 0, .node ks cs => simp [ShapeInvH, PartShapeH]
  | h + 1, .node ks cs => simp [ShapeInvH, PartShapeH, keyCount]; tauto

mutual
/-- The strict descendants of a node. -/
def subnodes : BNode → List BNode
  | .leaf _ _ => []
  | .node _ cs => cs ++ subnodesL cs
def subnodesL : List BNode → List BNode
  | [] => []
  | c :: cs => subnodes c ++ subnodesL cs
end

mutual
/-- Is some strict descendant key count below m (computable check for the
C4 counterexample). -/
def hasBelow (m : Nat) : BNode → Bool
  | .leaf _ _ => false
  | .node _ cs => hasBelowL m cs
def hasBelowL (m : Nat) : List BNode → Bool
  | [] => false
  | c :: cs => decide (keyCount c < m) || hasBelow m c || hasBelowL m cs
end

unseal insertNode removeNode in
/-- C4 counterexample: with the default order 4 (so ⌈(order−1)/2⌉ = 2),
insert 1,2,3,4 then remove 1.  The remove leaves a non-root leaf holding a
single key: `getMinKeys() = (order-1)/2 = 1` in the source is the floor,
not the ceiling, so no rebalancing fires and the claimed lower bound
⌈(order−1)/2⌉ = 2 is violated. -/
theorem btree_ceil_min_violated :
    ∃ r, runBOps 4 [.ins 1 (0, 0), .ins 2 (0, 1), .ins 3 (0, 2),
        .ins 4 (0, 3), .del 1] = some r ∧
      hasBelow (4 / 2) r = true :=
  ⟨_, rfl, by decide⟩

end MiniDB

namespace MiniDB

theorem length_insertAt {α : Type} {l : List α} {i : Nat} (a : α)
    (h : i ≤ l.length) : (insertAt l i a).length = l.length + 1 := by
  unfold insertAt
  simp
  omega

theorem length_eraseAt {α : Type} {l : List α} {i : Nat}
    (h : i < l.length) : (eraseAt l i).length = l.length - 1 := by
  unfold eraseAt
  simp
  omega

theorem mem_insertAt {α : Type} {l : List α} {i : Nat} {a x : α}
    (h : x ∈ insertAt l i a) : x ∈ l ∨ x = a := by
  unfold insertAt at h
  rcases List.mem_append.mp h with h | h
  · exact Or.inl (List.mem_of_mem_take h)
  · rcases List.mem_cons.mp h with h | h
    · exact Or.inr h
    · exact Or.inl (List.mem_of_mem_drop h)

theorem mem_eraseAt {α : Type} {l : List α} {i : Nat} {x : α}
    (h : x ∈ eraseAt l i) : x ∈ l := by
  unfold eraseAt at h
  rcases List.mem_append.mp h with h | h
  · exact List.mem_of_mem_take h
  · exact List.mem_of_mem_drop h

theorem takeWhile_len_le (p : Int → Bool) (l : List Int) :
    (l.takeWhile p).length ≤ l.length := by
  induction l with
  | nil => simp
  | cons x rest ih =>
    rw [List.takeWhile_cons]
    split
    · simpa using ih
    · simp

theorem childIdx_le_length (ks : List Int) (k : Int) :
    childIdx ks k ≤ ks.length := by
  unfold childIdx
  exact takeWhile_len_le _ _

theorem lowerBound_le_length (ks : List Int) (k : Int) :
    lowerBound ks k ≤ ks.length := by
  unfold lowerBound
  exact takeWhile_len_le _ _

theorem idxOfKey_lt_length {ks : List Int} {k : Int} {i : Nat}
    (h : idxOfKey ks k = some i) : i < ks.length := by
  induction ks generalizing i with
  | nil => simp [idxOfKey] at h
  | cons x rest ih =>
    unfold idxOfKey at h
    by_cases hx : x = k
    · rw [if_pos hx] at h
      cases h
      simp
    · rw [if_neg hx] at h
      cases hj : idxOfKey rest k with
      | none => rw [hj] at h; simp at h
      | some j =>
        rw [hj] at h
        simp at h
        subst h
        have := ih hj
        simp
        omega

theorem getD_of_lt {α : Type} (l : List α) (i : Nat) (d : α)
    (h : i < l.length) : l.getD i d = l[i] := by
  simp [List.getD, List.getElem?_eq_getElem h]

theorem insertIntoLeaf_len {ks : List Int} {vs : List Rid} {k : Int} {v : Rid}
    (hl : ks.length = vs.length) :
    (insertIntoLeaf ks vs k v).1.length = (insertIntoLeaf ks vs k v).2.length ∧
    ks.length ≤ (insertIntoLeaf ks vs k v).1.length ∧
    (insertIntoLeaf ks vs k v).1.length ≤ ks.length + 1 := by
  unfold insertIntoLeaf
  have hp := lowerBound_le_length ks k
  cases hx : ks[lowerBound ks k]? with
  | some x =>
    by_cases hxk : x = k
    · simp only [hx, if_pos hxk]
      exact ⟨by simp [hl], le_refl _, Nat.le_succ _⟩
    · simp only [hx, if_neg hxk]
      rw [length_insertAt k hp, length_insertAt v (by omega)]
      omega
  | none =>
    simp only [hx]
    rw [length_insertAt k hp, length_insertAt v (by omega)]
    omega

end MiniDB

namespace MiniDB

theorem min_le_orderm1 {order : Nat} (ho : 3 ≤ order) :
    getMinKeys order ≤ order - 1 := by
  unfold getMinKeys
  omega

theorem insertNode_shape {order : Nat} (ho : 3 ≤ order) (k : Int) (v : Rid)
    (t : BNode) :
    ∀ h isRoot, ShapeInvH order h isRoot t →
      (∀ t', insertNode order k v t = .ok t' → ShapeInvH order h isRoot t') ∧
      (∀ l sep r, insertNode order k v t = .split l sep r →
        ShapeInvH order h false l ∧ ShapeInvH order h false r) := by
  induction t using insertNode.induct order k v with
  | case1 ks vs kv hcond =>
    have hcond' : order ≤ (insertIntoLeaf ks vs k v).1.length := hcond
    intro h isRoot hshape
    cases h with
    | succ h => simp [ShapeInvH] at hshape
    | zero =>
      obtain ⟨hlv, hku, hmin⟩ := hshape
      obtain ⟨hq, hge, hle⟩ := insertIntoLeaf_len (k := k) (v := v) hlv
      have hlen : (insertIntoLeaf ks vs k v).1.length = order := by omega
      constructor
      · intro t' heq
        rw [insertNode] at heq
        rw [if_pos hcond'] at heq
        simp at heq
      · intro l sep r heq
        rw [insertNode] at heq
        rw [if_pos hcond'] at heq
        simp only [InsRes.split.injEq] at heq
        obtain ⟨hl, -, hr⟩ := heq
        subst hl
        subst hr
        constructor
        · refine ⟨?_, ?_, ?_⟩ <;>
            simp [List.length_take, hq, hlen, getMinKeys] <;> omega
        · refine ⟨?_, ?_, ?_⟩ <;>
            simp [List.length_drop, hq, hlen, getMinKeys] <;> omega
  | case2 ks vs kv hcond =>
    have hcond' : ¬ order ≤ (insertIntoLeaf ks vs k v).1.length := hcond
    intro h isRoot hshape
    cases h with
    | succ h => simp [ShapeInvH] at hshape
    | zero =>
      obtain ⟨hlv, hku, hmin⟩ := hshape
      obtain ⟨hq, hge, hle⟩ := insertIntoLeaf_len (k := k) (v := v) hlv
      constructor
      · intro t' heq
        rw [insertNode] at heq
        rw [if_neg hcond'] at heq
        simp only [InsRes.ok.injEq] at heq
        subst heq
        exact ⟨hq, by omega, by omega⟩
      · intro l sep r heq
        rw [insertNode] at heq
        rw [if_neg hcond'] at heq
        simp at heq
  | case3 ks cs hidx c hrec ih =>
    intro h isRoot hshape
    cases h with
    | zero => simp [ShapeInvH] at hshape
    | succ h =>
      obtain ⟨hcl, hku, hmin, hch⟩ := hshape
      have hchild := hch _ (List.getElem_mem hidx)
      obtain ⟨ihok, -⟩ := ih h false hchild
      have hc := ihok c hrec
      constructor
      · intro t' heq
        rw [insertNode] at heq
        rw [dif_pos hidx] at heq
        simp only [hrec] at heq
        simp only [InsRes.ok.injEq] at heq
        subst heq
        refine ⟨by simp [hcl], hku, hmin, ?_⟩
        intro x hx
        rcases List.mem_or_eq_of_mem_set hx with hx | hx
        · exact hch x hx
        · subst hx
          exact hc
      · intro l sep r heq
        rw [insertNode] at heq
        rw [dif_pos hidx] at heq
        simp only [hrec] at heq
        simp at heq
  | case4 ks cs hidx l0 sep0 r0 hrec pos0 ks0 hcond ih =>
    have hcond' : order ≤ (insertAt ks (lowerBound ks sep0) sep0).length := hcond
    intro h isRoot hshape
    cases h with
    | zero => simp [ShapeInvH] at hshape
    | succ h =>
      obtain ⟨hcl, hku, hmin, hch⟩ := hshape
      have hchild := hch _ (List.getElem_mem hidx)
      obtain ⟨-, ihsplit⟩ := ih h false hchild
      obtain ⟨hL, hR⟩ := ihsplit l0 sep0 r0 hrec
      have hpos := lowerBound_le_length ks sep0
      have hklen : (insertAt ks (lowerBound ks sep0) sep0).length = ks.length + 1 :=
        length_insertAt _ hpos
      have hcslen :
          (insertAt (cs.set (childIdx ks k) l0) (lowerBound ks sep0 + 1) r0).length
            = cs.length + 1 := by
        rw [length_insertAt]
        · simp
        · simp [hcl]
          omega
      have horder : (insertAt ks (lowerBound ks sep0) sep0).length = order := by
        omega
      have hmemall : ∀ x ∈ insertAt (cs.set (childIdx ks k) l0)
          (lowerBound ks sep0 + 1) r0, ShapeInvH order h false x := by
        intro x hx
        rcases mem_insertAt hx with hx | hx
        · rcases List.mem_or_eq_of_mem_set hx with hx | hx
          · exact hch x hx
          · subst hx; exact hL
        · subst hx; exact hR
      constructor
      · intro t' heq
        rw [insertNode] at heq
        rw [dif_pos hidx] at heq
        simp only [hrec] at heq
        rw [if_pos hcond'] at heq
        simp at heq
      · intro l sep r heq
        rw [insertNode] at heq
        rw [dif_pos hidx] at heq
        simp only [hrec] at heq
        rw [if_pos hcond'] at heq
        simp only [InsRes.split.injEq] at heq
        obtain ⟨hl, -, hr⟩ := heq
        subst hl
        subst hr
        constructor
        · refine ⟨?_, ?_, ?_, ?_⟩
          · simp only [List.length_take]
            omega
          · simp only [List.length_take]
            omega
          · simp only [List.length_take, getMinKeys, Bool.false_eq_true, if_false]
            omega
          · intro x hx
            exact hmemall x (List.mem_of_mem_take hx)
        · refine ⟨?_, ?_, ?_, ?_⟩
          · simp only [List.length_drop]
            omega
          · simp only [List.length_drop]
            omega
          · simp only [List.length_drop, getMinKeys, Bool.false_eq_true, if_false]
            omega
          · intro x hx
            exact hmemall x (List.mem_of_mem_drop hx)
  | case5 ks cs hidx l0 sep0 r0 hrec pos0 ks0 hcond ih =>
    have hcond' : ¬ order ≤ (insertAt ks (lowerBound ks sep0) sep0).length := hcond
    intro h isRoot hshape
    cases h with
    | zero => simp [ShapeInvH] at hshape
    | succ h =>
      obtain ⟨hcl, hku, hmin, hch⟩ := hshape
      have hchild := hch _ (List.getElem_mem hidx)
      obtain ⟨-, ihsplit⟩ := ih h false hchild
      obtain ⟨hL, hR⟩ := ihsplit l0 sep0 r0 hrec
      have hpos := lowerBound_le_length ks sep0
      have hklen : (insertAt ks (lowerBound ks sep0) sep0).length = ks.length + 1 :=
        length_insertAt _ hpos
      have hcslen :
          (insertAt (cs.set (childIdx ks k) l0) (lowerBound ks sep0 + 1) r0).length
            = cs.length + 1 := by
        rw [length_insertAt]
        · simp
        · simp [hcl]
          omega
      constructor
      · intro t' heq
        rw [insertNode] at heq
        rw [dif_pos hidx] at heq
        simp only [hrec] at heq
        rw [if_neg hcond'] at heq
        simp only [InsRes.ok.injEq] at heq
        subst heq
        refine ⟨by omega, by omega, ?_, ?_⟩
        · split at hmin <;> rename_i hroot
          · rw [if_pos hroot]
            omega
          · rw [if_neg hroot]
            omega
        · intro x hx
          rcases mem_insertAt hx with hx | hx
          · rcases List.mem_or_eq_of_mem_set hx with hx | hx
            · exact hch x hx
            · subst hx; exact hL
          · subst hx; exact hR
      · intro l sep r heq
        rw [insertNode] at heq
        rw [dif_pos hidx] at heq
        simp only [hrec] at heq
        rw [if_neg hcond'] at heq
        simp at heq
  | case6 ks cs hidx =>
    intro h isRoot hshape
    cases h with
    | zero => simp [ShapeInvH] at hshape
    | succ h =>
      obtain ⟨hcl, hku, hmin, hch⟩ := hshape
      exfalso
      have := childIdx_le_length ks k
      omega

theorem getMinKeys_pos {order : Nat} (ho : 3 ≤ order) : 1 ≤ getMinKeys order := by
  unfold getMinKeys
  omega

theorem getLastD_mem {α : Type} {l : List α} (h : l ≠ []) (d : α) :
    l.getLast?.getD d ∈ l := by
  rw [List.getLast?_eq_getLast l h, Option.getD_some]
  exact List.getLast_mem h

theorem mem_dropLast {α : Type} {l : List α} {x : α} (h : x ∈ l.dropLast) :
    x ∈ l :=
  List.dropLast_subset l h

theorem shape_keyCount_bounds {order h : Nat} {isRoot : Bool} {t : BNode}
    (hs : ShapeInvH order h isRoot t) :
    (if isRoot then 1 else getMinKeys order) ≤ keyCount t ∧
    keyCount t ≤ order - 1 := by
  match h, t with
  | 0, .leaf ks vs => exact ⟨hs.2.2, hs.2.1⟩
  | h + 1, .node ks cs => exact ⟨hs.2.2.1, hs.2.1⟩
  | 0, .node ks cs => exact absurd hs (by simp [ShapeInvH])
  | h + 1, .leaf ks vs => exact absurd hs (by simp [ShapeInvH])

theorem shape_to_part {order h : Nat} {isRoot : Bool} {t : BNode}
    (hs : ShapeInvH order h isRoot t) : PartShapeH order h t :=
  ((shapeInvH_iff order h isRoot t).mp hs).1

theorem partShape_to_shape {order h : Nat} {t : BNode}
    (hp : PartShapeH order h t) (hm : getMinKeys order ≤ keyCount t) :
    ShapeInvH order h false t := by
  rw [shapeInvH_iff]
  refine ⟨hp, ?_⟩
  rw [if_neg (by simp)]
  exact hm

theorem shape_false_true {order h : Nat} {t : BNode} (ho : 3 ≤ order)
    (hs : ShapeInvH order h false t) : ShapeInvH order h true t := by
  rw [shapeInvH_iff] at hs ⊢
  have h1 := getMinKeys_pos ho
  rcases hs with ⟨hp, hm⟩
  rw [if_neg (by simp)] at hm
  refine ⟨hp, ?_⟩
  rw [if_pos rfl]
  omega

theorem insertTree_shape {order : Nat} (ho : 3 ≤ order) (t : Option BNode)
    (k : Int) (v : Rid) (ht : TreeShape order t) :
    TreeShape order (insertTree order t k v) := by
  match t with
  | none =>
    show ∃ h, ShapeInvH order h true (.leaf [k] [v])
    refine ⟨0, rfl, ?_, ?_⟩
    · show 1 ≤ order - 1
      omega
    · rw [if_pos rfl]
      simp
  | some r =>
    obtain ⟨h, hr⟩ := ht
    obtain ⟨hok, hsplit⟩ := insertNode_shape ho k v r h true hr
    simp only [insertTree]
    cases hins : insertNode order k v r with
    | ok r' => exact ⟨h, hok r' hins⟩
    | split l sep r' =>
      obtain ⟨hL, hR⟩ := hsplit l sep r' hins
      refine ⟨h + 1, rfl, ?_, ?_, ?_⟩
      · show 1 ≤ order - 1
        omega
      · rw [if_pos rfl]
        simp
      · intro c hc
        rcases List.mem_cons.mp hc with rfl | hc
        · exact hL
        · rcases List.mem_cons.mp hc with rfl | hc
          · exact hR
          · simp at hc

theorem mem_eraseAt_idx {α : Type} {l : List α} {i : Nat} {c : α}
    (hc : c ∈ eraseAt l i) : ∃ j, ∃ hj : j < l.length, j ≠ i ∧ l[j] = c := by
  unfold eraseAt at hc
  rcases List.mem_append.mp hc with h | h
  · obtain ⟨j, hj, hje⟩ := List.mem_iff_getElem.mp h
    have hjt : j < i ∧ j < l.length := by
      simpa [List.length_take, Nat.lt_min] using hj
    rw [List.getElem_take] at hje
    exact ⟨j, hjt.2, by omega, hje⟩
  · obtain ⟨j, hj, hje⟩ := List.mem_iff_getElem.mp h
    have hjd : i + 1 + j < l.length := by
      simp [List.length_drop] at hj
      omega
    rw [List.getElem_drop] at hje
    exact ⟨i + 1 + j, hjd, by omega, hje⟩

/-- `handleUnderflow` repairs the deficient child at `i` (which holds
exactly `getMinKeys order - 1` keys after the child's removal step): the
parent's key count drops by at most one, `children = keys + 1` is kept,
and every child of the result satisfies the full non-root invariant. -/
theorem rebalance_shape {order hei : Nat} (ho : 3 ≤ order)
    (ks : List Int) (cs : List BNode) (i : Nat)
    (hcl : cs.length = ks.length + 1)
    (hku : ks.length ≤ order - 1)
    (hk1 : 1 ≤ ks.length)
    (hi : i < cs.length)
    (hpart : PartShapeH order hei (cs.getD i (.leaf [] [])))
    (hlow : getMinKeys order - 1 ≤ keyCount (cs.getD i (.leaf [] [])))
    (hhigh : keyCount (cs.getD i (.leaf [] [])) < getMinKeys order)
    (hrest : ∀ j, j < cs.length → j ≠ i →
      ShapeInvH order hei false (cs.getD j (.leaf [] []))) :
    (rebalance order ks cs i).2.length = (rebalance order ks cs i).1.length + 1 ∧
    ks.length - 1 ≤ (rebalance order ks cs i).1.length ∧
    (rebalance order ks cs i).1.length ≤ ks.length ∧
    ∀ c ∈ (rebalance order ks cs i).2, ShapeInvH order hei false c := by
  have hmo : getMinKeys order = (order - 1) / 2 := rfl
  have hm1 : 1 ≤ getMinKeys order := getMinKeys_pos ho
  unfold rebalance
  cases hei with
  | zero =>
    rcases hx : cs.getD i (.leaf [] []) with ⟨nks, nvs⟩ | ⟨nks, ncs⟩
    · rw [hx] at hpart hlow hhigh
      obtain ⟨hnq, hnu⟩ := hpart
      simp only [keyCount] at hlow hhigh
      by_cases h1 : 0 < i ∧
          getMinKeys order < keyCount (cs.getD (i - 1) (BNode.leaf [] []))
      · rw [if_pos h1]
        obtain ⟨hi0, hdon⟩ := h1
        have hSL := hrest (i - 1) (by omega) (by omega)
        rcases hy : cs.getD (i - 1) (.leaf [] []) with ⟨lks, lvs⟩ | ⟨lks, lcs⟩
        · rw [hy] at hSL hdon
          obtain ⟨hlq, hlu, hlmin⟩ := hSL
          simp only [keyCount] at hdon
          simp only [hx, hy]
          refine ⟨?_, ?_, ?_, ?_⟩
          · simp only [List.length_set]
            omega
          · simp only [List.length_set]
            omega
          · simp only [List.length_set]
            omega
          · intro c hc
            obtain ⟨j, hj, rfl⟩ := List.mem_iff_getElem.mp hc
            have hjl : j < cs.length := by simpa [List.length_set] using hj
            rw [List.getElem_set]
            by_cases hj1 : i - 1 = j
            · rw [if_pos hj1]
              refine ⟨?_, ?_, ?_⟩
              · simp only [List.length_dropLast]
                omega
              · simp only [List.length_dropLast]
                omega
              · rw [if_neg (by simp)]
                simp only [List.length_dropLast]
                omega
            · rw [if_neg hj1, List.getElem_set]
              by_cases hj2 : i = j
              · rw [if_pos hj2]
                refine ⟨?_, ?_, ?_⟩
                · simp only [List.length_cons]
                  omega
                · simp only [List.length_cons]
                  omega
                · rw [if_neg (by simp)]
                  simp only [List.length_cons]
                  omega
              · rw [if_neg hj2]
                have hr := hrest j hjl (by omega)
                rwa [getD_of_lt _ _ _ hjl] at hr
        · rw [hy] at hSL
          simp [ShapeInvH] at hSL
      · rw [if_neg h1]
        by_cases h2 : i + 1 < cs.length ∧
            getMinKeys order < keyCount (cs.getD (i + 1) (BNode.leaf [] []))
        · rw [if_pos h2]
          obtain ⟨hip, hdon⟩ := h2
          have hSR := hrest (i + 1) (by omega) (by omega)
          rcases hy : cs.getD (i + 1) (.leaf [] []) with ⟨rks, rvs⟩ | ⟨rks, rcs⟩
          · rw [hy] at hSR hdon
            obtain ⟨hrq, hru, hrmin⟩ := hSR
            simp only [keyCount] at hdon
            simp only [hx, hy]
            refine ⟨?_, ?_, ?_, ?_⟩
            · simp only [List.length_set]
              omega
            · simp only [List.length_set]
              omega
            · simp only [List.length_set]
              omega
            · intro c hc
              obtain ⟨j, hj, rfl⟩ := List.mem_iff_getElem.mp hc
              have hjl : j < cs.length := by simpa [List.length_set] using hj
              rw [List.getElem_set]
              by_cases hj1 : i + 1 = j
              · rw [if_pos hj1]
                refine ⟨?_, ?_, ?_⟩
                · simp only [List.length_tail]
                  omega
                · simp only [List.length_tail]
                  omega
                · rw [if_neg (by simp)]
                  simp only [List.length_tail]
                  omega
              · rw [if_neg hj1, List.getElem_set]
                by_cases hj2 : i = j
                · rw [if_pos hj2]
                  refine ⟨?_, ?_, ?_⟩
                  · simp only [List.length_append, List.length_cons,
                      List.length_nil]
                    omega
                  · simp only [List.length_append, List.length_cons,
                      List.length_nil]
                    omega
                  · rw [if_neg (by simp)]
                    simp only [List.length_append, List.length_cons,
                      List.length_nil]
                    omega
                · rw [if_neg hj2]
                  have hr := hrest j hjl (by omega)
                  rwa [getD_of_lt _ _ _ hjl] at hr
          · rw [hy] at hSR
            simp [ShapeInvH] at hSR
        · rw [if_neg h2]
          by_cases h3 : 0 < i
          · rw [if_pos h3]
            have hls : ¬ getMinKeys order <
                keyCount (cs.getD (i - 1) (BNode.leaf [] [])) :=
              fun hb => h1 ⟨h3, hb⟩
            have hSL := hrest (i - 1) (by omega) (by omega)
            rcases hy : cs.getD (i - 1) (.leaf [] []) with ⟨lks, lvs⟩ | ⟨lks, lcs⟩
            · rw [hy] at hSL hls
              obtain ⟨hlq, hlu, hlmin⟩ := hSL
              have hlm : getMinKeys order ≤ lks.length := by simpa using hlmin
              simp only [keyCount] at hls
              simp only [hx, hy]
              refine ⟨?_, ?_, ?_, ?_⟩
              · simp only [eraseAt, List.length_append, List.length_take,
                  List.length_drop, List.length_set]
                omega
              · simp only [eraseAt, List.length_append, List.length_take,
                  List.length_drop]
                omega
              · simp only [eraseAt, List.length_append, List.length_take,
                  List.length_drop]
                omega
              · intro c hc
                obtain ⟨j, hjl, hjne, hje⟩ := mem_eraseAt_idx hc
                have hjl' : j < cs.length := by simpa [List.length_set] using hjl
                rw [List.getElem_set] at hje
                by_cases hj1 : i - 1 = j
                · rw [if_pos hj1] at hje
                  subst hje
                  refine ⟨?_, ?_, ?_⟩
                  · simp only [List.length_append]
                    omega
                  · simp only [List.length_append]
                    omega
                  · rw [if_neg (by simp)]
                    simp only [List.length_append]
                    omega
                · rw [if_neg hj1] at hje
                  subst hje
                  have hr := hrest j hjl' hjne
                  rwa [getD_of_lt _ _ _ hjl'] at hr
            · rw [hy] at hSL
              simp [ShapeInvH] at hSL
          · rw [if_neg h3]
            by_cases h4 : i + 1 < cs.length
            · rw [if_pos h4]
              have hrs : ¬ getMinKeys order <
                  keyCount (cs.getD (i + 1) (BNode.leaf [] [])) :=
                fun hb => h2 ⟨h4, hb⟩
              have hSR := hrest (i + 1) (by omega) (by omega)
              rcases hy : cs.getD (i + 1) (.leaf [] []) with ⟨rks, rvs⟩ | ⟨rks, rcs⟩
              · rw [hy] at hSR hrs
                obtain ⟨hrq, hru, hrmin⟩ := hSR
                have hrm : getMinKeys order ≤ rks.length := by simpa using hrmin
                simp only [keyCount] at hrs
                simp only [hx, hy]
                refine ⟨?_, ?_, ?_, ?_⟩
                · simp only [eraseAt, List.length_append, List.length_take,
                    List.length_drop, List.length_set]
                  omega
                · simp only [eraseAt, List.length_append, List.length_take,
                    List.length_drop]
                  omega
                · simp only [eraseAt, List.length_append, List.length_take,
                    List.length_drop]
                  omega
                · intro c hc
                  obtain ⟨j, hjl, hjne, hje⟩ := mem_eraseAt_idx hc
                  have hjl' : j < cs.length := by simpa [List.length_set] using hjl
                  rw [List.getElem_set] at hje
                  by_cases hj1 : i = j
                  · rw [if_pos hj1] at hje
                    subst hje
                    refine ⟨?_, ?_, ?_⟩
                    · simp only [List.length_append]
                      omega
                    · simp only [List.length_append]
                      omega
                    · rw [if_neg (by simp)]
                      simp only [List.length_append]
                      omega
                  · rw [if_neg hj1] at hje
                    subst hje
                    have hr := hrest j hjl' (by omega)
                    rwa [getD_of_lt _ _ _ hjl'] at hr
              · rw [hy] at hSR
                simp [ShapeInvH] at hSR
            · exfalso
              omega
    · rw [hx] at hpart
      simp [PartShapeH] at hpart
  | succ h =>
    rcases hx : cs.getD i (.leaf [] []) with ⟨nks, nvs⟩ | ⟨nks, ncs⟩
    · rw [hx] at hpart
      simp [PartShapeH] at hpart
    · rw [hx] at hpart hlow hhigh
      obtain ⟨hnc, hnu, hnch⟩ := hpart
      simp only [keyCount] at hlow hhigh
      by_cases h1 : 0 < i ∧
          getMinKeys order < keyCount (cs.getD (i - 1) (BNode.leaf [] []))
      · rw [if_pos h1]
        obtain ⟨hi0, hdon⟩ := h1
        have hSL := hrest (i - 1) (by omega) (by omega)
        rcases hy : cs.getD (i - 1) (.leaf [] []) with ⟨lks, lvs⟩ | ⟨lks, lcs⟩
        · rw [hy] at hSL
          simp [ShapeInvH] at hSL
        · rw [hy] at hSL hdon
          obtain ⟨hlc, hlu, hlmin, hlch⟩ := hSL
          simp only [keyCount] at hdon
          have hlcs : lcs ≠ [] := List.ne_nil_of_length_pos (by omega)
          simp only [hx, hy]
          refine ⟨?_, ?_, ?_, ?_⟩
          · simp only [List.length_set]
            omega
          · simp only [List.length_set]
            omega
          · simp only [List.length_set]
            omega
          · intro c hc
            obtain ⟨j, hj, rfl⟩ := List.mem_iff_getElem.mp hc
            have hjl : j < cs.length := by simpa [List.length_set] using hj
            rw [List.getElem_set]
            by_cases hj1 : i - 1 = j
            · rw [if_pos hj1]
              refine ⟨?_, ?_, ?_, ?_⟩
              · simp only [List.length_dropLast]
                omega
              · simp only [List.length_dropLast]
                omega
              · rw [if_neg (by simp)]
                simp only [List.length_dropLast]
                omega
              · intro c hc
                exact hlch c (mem_dropLast hc)
            · rw [if_neg hj1, List.getElem_set]
              by_cases hj2 : i = j
              · rw [if_pos hj2]
                refine ⟨?_, ?_, ?_, ?_⟩
                · simp only [List.length_cons]
                  omega
                · simp only [List.length_cons]
                  omega
                · rw [if_neg (by simp)]
                  simp only [List.length_cons]
                  omega
                · intro c hc
                  rcases List.mem_cons.mp hc with rfl | hc
                  · exact hlch _ (getLastD_mem hlcs _)
                  · exact hnch c hc
              · rw [if_neg hj2]
                have hr := hrest j hjl (by omega)
                rwa [getD_of_lt _ _ _ hjl] at hr
      · rw [if_neg h1]
        by_cases h2 : i + 1 < cs.length ∧
            getMinKeys order < keyCount (cs.getD (i + 1) (BNode.leaf [] []))
        · rw [if_pos h2]
          obtain ⟨hip, hdon⟩ := h2
          have hSR := hrest (i + 1) (by omega) (by omega)
          rcases hy : cs.getD (i + 1) (.leaf [] []) with ⟨rks, rvs⟩ | ⟨rks, rcs⟩
          · rw [hy] at hSR
            simp [ShapeInvH] at hSR
          · rw [hy] at hSR hdon
            obtain ⟨hrc, hru, hrmin, hrch⟩ := hSR
            simp only [keyCount] at hdon
            have hrcs : 0 < rcs.length := by omega
            simp only [hx, hy]
            refine ⟨?_, ?_, ?_, ?_⟩
            · simp only [List.length_set]
              omega
            · simp only [List.length_set]
              omega
            · simp only [List.length_set]
              omega
            · intro c hc
              obtain ⟨j, hj, rfl⟩ := List.mem_iff_getElem.mp hc
              have hjl : j < cs.length := by simpa [List.length_set] using hj
              rw [List.getElem_set]
              by_cases hj1 : i + 1 = j
              · rw [if_pos hj1]
                refine ⟨?_, ?_, ?_, ?_⟩
                · simp only [List.length_tail]
                  omega
                · simp only [List.length_tail]
                  omega
                · rw [if_neg (by simp)]
                  simp only [List.length_tail]
                  omega
                · intro c hc
                  exact hrch c (List.mem_of_mem_tail hc)
              · rw [if_neg hj1, List.getElem_set]
                by_cases hj2 : i = j
                · rw [if_pos hj2]
                  refine ⟨?_, ?_, ?_, ?_⟩
                  · simp only [List.length_append, List.length_cons,
                      List.length_nil]
                    omega
                  · simp only [List.length_append, List.length_cons,
                      List.length_nil]
                    omega
                  · rw [if_neg (by simp)]
                    simp only [List.length_append, List.length_cons,
                      List.length_nil]
                    omega
                  · intro c hc
                    rcases List.mem_append.mp hc with hc | hc
                    · exact hnch c hc
                    · rcases List.mem_cons.mp hc with rfl | hc
                      · rw [getD_of_lt _ _ _ hrcs]
                        exact hrch _ (List.getElem_mem hrcs)
                      · simp at hc
                · rw [if_neg hj2]
                  have hr := hrest j hjl (by omega)
                  rwa [getD_of_lt _ _ _ hjl] at hr
        · rw [if_neg h2]
          by_cases h3 : 0 < i
          · rw [if_pos h3]
            have hls : ¬ getMinKeys order <
                keyCount (cs.getD (i - 1) (BNode.leaf [] [])) :=
              fun hb => h1 ⟨h3, hb⟩
            have hSL := hrest (i - 1) (by omega) (by omega)
            rcases hy : cs.getD (i - 1) (.leaf [] []) with ⟨lks, lvs⟩ | ⟨lks, lcs⟩
            · rw [hy] at hSL
              simp [ShapeInvH] at hSL
            · rw [hy] at hSL hls
              obtain ⟨hlc, hlu, hlmin, hlch⟩ := hSL
              have hlm : getMinKeys order ≤ lks.length := by simpa using hlmin
              simp only [keyCount] at hls
              simp only [hx, hy]
              refine ⟨?_, ?_, ?_, ?_⟩
              · simp only [eraseAt, List.length_append, List.length_take,
                  List.length_drop, List.length_set]
                omega
              · simp only [eraseAt, List.length_append, List.length_take,
                  List.length_drop]
                omega
              · simp only [eraseAt, List.length_append, List.length_take,
                  List.length_drop]
                omega
              · intro c hc
                obtain ⟨j, hjl, hjne, hje⟩ := mem_eraseAt_idx hc
                have hjl' : j < cs.length := by simpa [List.length_set] using hjl
                rw [List.getElem_set] at hje
                by_cases hj1 : i - 1 = j
                · rw [if_pos hj1] at hje
                  subst hje
                  refine ⟨?_, ?_, ?_, ?_⟩
                  · simp only [List.length_append, List.length_cons]
                    omega
                  · simp only [List.length_append, List.length_cons]
                    omega
                  · rw [if_neg (by simp)]
                    simp only [List.length_append, List.length_cons]
                    omega
                  · intro c hc
                    rcases List.mem_append.mp hc with hc | hc
                    · exact hlch c hc
                    · exact hnch c hc
                · rw [if_neg hj1] at hje
                  subst hje
                  have hr := hrest j hjl' hjne
                  rwa [getD_of_lt _ _ _ hjl'] at hr
          · rw [if_neg h3]
            by_cases h4 : i + 1 < cs.length
            · rw [if_pos h4]
              have hrs : ¬ getMinKeys order <
                  keyCount (cs.getD (i + 1) (BNode.leaf [] [])) :=
                fun hb => h2 ⟨h4, hb⟩
              have hSR := hrest (i + 1) (by omega) (by omega)
              rcases hy : cs.getD (i + 1) (.leaf [] []) with ⟨rks, rvs⟩ | ⟨rks, rcs⟩
              · rw [hy] at hSR
                simp [ShapeInvH] at hSR
              · rw [hy] at hSR hrs
                obtain ⟨hrc, hru, hrmin, hrch⟩ := hSR
                have hrm : getMinKeys order ≤ rks.length := by simpa using hrmin
                simp only [keyCount] at hrs
                simp only [hx, hy]
                refine ⟨?_, ?_, ?_, ?_⟩
                · simp only [eraseAt, List.length_append, List.length_take,
                    List.length_drop, List.length_set]
                  omega
                · simp only [eraseAt, List.length_append, List.length_take,
                    List.length_drop]
                  omega
                · simp only [eraseAt, List.length_append, List.length_take,
                    List.length_drop]
                  omega
                · intro c hc
                  obtain ⟨j, hjl, hjne, hje⟩ := mem_eraseAt_idx hc
                  have hjl' : j < cs.length := by simpa [List.length_set] using hjl
                  rw [List.getElem_set] at hje
                  by_cases hj1 : i = j
                  · rw [if_pos hj1] at hje
                    subst hje
                    refine ⟨?_, ?_, ?_, ?_⟩
                    · simp only [List.length_append, List.length_cons]
                      omega
                    · simp only [List.length_append, List.length_cons]
                      omega
                    · rw [if_neg (by simp)]
                      simp only [List.length_append, List.length_cons]
                      omega
                    · intro c hc
                      rcases List.mem_append.mp hc with hc | hc
                      · exact hnch c hc
                      · exact hrch c hc
                  · rw [if_neg hj1] at hje
                    subst hje
                    have hr := hrest j hjl' (by omega)
                    rwa [getD_of_lt _ _ _ hjl'] at hr
            · exfalso
              omega

/-- `BTree::remove` below the root: the result's key count drops by at most
one, and the full shape invariant survives except possibly the minimum-keys
bound at the top node. -/
theorem removeNode_shape {order : Nat} (ho : 3 ≤ order) (k : Int) (t : BNode) :
    ∀ hei isRoot, ShapeInvH order hei isRoot t →
      keyCount t - 1 ≤ keyCount (removeNode order k t).1 ∧
      keyCount (removeNode order k t).1 ≤ keyCount t ∧
      PartShapeH order hei (removeNode order k t).1 := by
  induction t using removeNode.induct order k with
  | case1 ks vs hnone =>
    intro hei isRoot hshape
    cases hei with
    | succ h => simp [ShapeInvH] at hshape
    | zero =>
      obtain ⟨hq, hu, hmin⟩ := hshape
      rw [removeNode]
      simp only [hnone, keyCount]
      exact ⟨by omega, by omega, hq, hu⟩
  | case2 ks vs pos hsome =>
    intro hei isRoot hshape
    cases hei with
    | succ h => simp [ShapeInvH] at hshape
    | zero =>
      obtain ⟨hq, hu, hmin⟩ := hshape
      have hpos := idxOfKey_lt_length hsome
      have h1 := length_eraseAt hpos
      have h2 : (eraseAt vs pos).length = vs.length - 1 :=
        length_eraseAt (by omega)
      rw [removeNode]
      simp only [hsome, keyCount]
      exact ⟨by omega, by omega, by omega, by omega⟩
  | case3 ks cs hidx res hun ih =>
    intro hei isRoot hshape
    cases hei with
    | zero => simp [ShapeInvH] at hshape
    | succ h =>
      obtain ⟨hcl, hku, hmin, hch⟩ := hshape
      have hm1 := getMinKeys_pos ho
      have hchild := hch _ (List.getElem_mem hidx)
      obtain ⟨hd1, hd2, hdp⟩ := ih h false hchild
      have hun' : keyCount (removeNode order k cs[childIdx ks k]).1 <
          getMinKeys order := hun
      have hcb := shape_keyCount_bounds hchild
      rw [if_neg (by simp)] at hcb
      have hk1 : 1 ≤ ks.length := by
        rcases isRoot with _ | _ <;> simp at hmin <;> omega
      have hsl : (cs.set (childIdx ks k)
          (removeNode order k cs[childIdx ks k]).1).length = cs.length := by
        simp
      have hreb := @rebalance_shape order h ho ks
        (cs.set (childIdx ks k) (removeNode order k cs[childIdx ks k]).1)
        (childIdx ks k)
        (by rw [hsl]; omega)
        hku hk1
        (by rw [hsl]; omega)
        (by rw [getD_of_lt _ _ _ (by rw [hsl]; omega), List.getElem_set_self]
            exact hdp)
        (by rw [getD_of_lt _ _ _ (by rw [hsl]; omega), List.getElem_set_self]
            omega)
        (by rw [getD_of_lt _ _ _ (by rw [hsl]; omega), List.getElem_set_self]
            omega)
        (by intro j hj hne
            rw [hsl] at hj
            rw [getD_of_lt _ _ _ (by rw [hsl]; omega),
              List.getElem_set_ne (by omega)]
            exact hch _ (List.getElem_mem hj))
      obtain ⟨e1, e2, e3, e4⟩ := hreb
      rw [removeNode, dif_pos hidx]
      simp only [if_pos hun']
      simp only [keyCount]
      refine ⟨e2, e3, e1, by omega, e4⟩
  | case4 ks cs hidx res hun ih =>
    intro hei isRoot hshape
    cases hei with
    | zero => simp [ShapeInvH] at hshape
    | succ h =>
      obtain ⟨hcl, hku, hmin, hch⟩ := hshape
      have hchild := hch _ (List.getElem_mem hidx)
      obtain ⟨hd1, hd2, hdp⟩ := ih h false hchild
      have hun' : ¬ keyCount (removeNode order k cs[childIdx ks k]).1 <
          getMinKeys order := hun
      rw [removeNode, dif_pos hidx]
      simp only [if_neg hun']
      simp only [keyCount]
      refine ⟨by omega, by omega, ?_, hku, ?_⟩
      · simp only [List.length_set]
        omega
      · intro c hc
        rcases List.mem_or_eq_of_mem_set hc with hc | hc
        · exact hch c hc
        · subst hc
          exact partShape_to_shape hdp (by omega)
  | case5 ks cs hidx =>
    intro hei isRoot hshape
    cases hei with
    | zero => simp [ShapeInvH] at hshape
    | succ h =>
      obtain ⟨hcl, hku, hmin, hch⟩ := hshape
      exfalso
      have := childIdx_le_length ks k
      omega

/-- `BTree::remove` at the root keeps the tree invariant: the root-leaf
drop, the single-child promotion, and the default case each restore a
well-shaped (possibly empty) tree. -/
theorem removeTree_shape {order : Nat} (ho : 3 ≤ order) (t : Option BNode)
    (k : Int) (ht : TreeShape order t) :
    TreeShape order (removeTree order t k).1 := by
  match t with
  | none => exact trivial
  | some r =>
    obtain ⟨h, hr⟩ := ht
    obtain ⟨hd1, hd2, hdp⟩ := removeNode_shape ho k r h true hr
    simp only [removeTree]
    rcases hres : (removeNode order k r).1 with ⟨ks, vs⟩ | ⟨ks, cs⟩
    · rw [hres] at hdp
      cases ks with
      | nil => exact trivial
      | cons k0 ks2 =>
        cases h with
        | succ h2 => simp [PartShapeH] at hdp
        | zero =>
          refine ⟨0, ?_⟩
          rw [shapeInvH_iff]
          refine ⟨hdp, ?_⟩
          rw [if_pos rfl]
          simp only [keyCount, List.length_cons]
          omega
    · rw [hres] at hdp
      cases h with
      | zero => simp [PartShapeH] at hdp
      | succ h2 =>
        obtain ⟨hc, hu2, hch⟩ := hdp
        cases ks with
        | nil =>
          cases cs with
          | nil => simp at hc
          | cons c rest =>
            exact ⟨h2, shape_false_true ho (hch c (by simp))⟩
        | cons k0 ks2 =>
          refine ⟨h2 + 1, ?_⟩
          rw [shapeInvH_iff]
          refine ⟨⟨hc, hu2, hch⟩, ?_⟩
          rw [if_pos rfl]
          simp only [keyCount, List.length_cons]
          omega

theorem applyBOp_shape {order : Nat} (ho : 3 ≤ order) (t : Option BNode)
    (op : BOp) (ht : TreeShape order t) :
    TreeShape order (applyBOp order t op) := by
  cases op with
  | ins k v => exact insertTree_shape ho t k v ht
  | del k => exact removeTree_shape ho t k ht

theorem foldl_shape {order : Nat} (ho : 3 ≤ order) (ops : List BOp) :
    ∀ t, TreeShape order t →
      TreeShape order (ops.foldl (applyBOp order) t) := by
  induction ops with
  | nil => exact fun t ht => ht
  | cons op rest ih =>
    intro t ht
    exact ih _ (applyBOp_shape ho t op ht)

/-- Every tree reachable from `BTree()` by inserts and removes satisfies
the shape invariant (with the source's floor minimum `(order-1)/2`). -/
theorem runBOps_shape {order : Nat} (ho : 3 ≤ order) (ops : List BOp) :
    TreeShape order (runBOps order ops) :=
  foldl_shape ho ops none trivial

theorem mem_subnodesL {cs : List BNode} {n : BNode}
    (h : n ∈ subnodesL cs) : ∃ c ∈ cs, n ∈ subnodes c := by
  induction cs with
  | nil => simp [subnodesL] at h
  | cons c rest ih =>
    simp only [subnodesL] at h
    rcases List.mem_append.mp h with h | h
    · exact ⟨c, by simp, h⟩
    · obtain ⟨c2, hc2, hn⟩ := ih h
      exact ⟨c2, by simp [hc2], hn⟩

theorem shape_subnodes_bounds {order : Nat} (ho : 3 ≤ order) :
    ∀ hei (isRoot : Bool) (t : BNode), ShapeInvH order hei isRoot t →
      ∀ n ∈ subnodes t,
        getMinKeys order ≤ keyCount n ∧ keyCount n ≤ order - 1 := by
  intro hei
  induction hei with
  | zero =>
    intro isRoot t hs n hn
    cases t with
    | leaf ks vs => simp [subnodes] at hn
    | node ks cs => simp [ShapeInvH] at hs
  | succ h ih =>
    intro isRoot t hs n hn
    cases t with
    | leaf ks vs => simp [ShapeInvH] at hs
    | node ks cs =>
      obtain ⟨hcl, hku, hmin, hch⟩ := hs
      simp only [subnodes] at hn
      rcases List.mem_append.mp hn with hn | hn
      · have hb := shape_keyCount_bounds (hch n hn)
        rw [if_neg (by simp)] at hb
        exact hb
      · obtain ⟨c, hc, hnc⟩ := mem_subnodesL hn
        exact ih false c (hch c hc) n hnc

/-- C4: after any insert/remove sequence from the empty tree, the root
holds between 1 and order−1 keys, and every other node holds between
⌊(order−1)/2⌋ (`getMinKeys`, the source's floor — not the claimed ceiling
⌈(order−1)/2⌉) and order−1 keys; remove repairs an underflowing non-root
node by borrowing from or merging with a sibling down to this floor. -/
theorem btree_node_key_bounds {order : Nat} (ho : 3 ≤ order) (ops : List BOp)
    (r : BNode) (hr : runBOps order ops = some r) :
    1 ≤ keyCount r ∧ keyCount r ≤ order - 1 ∧
    ∀ n ∈ subnodes r,
      getMinKeys order ≤ keyCount n ∧ keyCount n ≤ order - 1 := by
  have hts := runBOps_shape ho ops
  rw [hr] at hts
  obtain ⟨h, hs⟩ := hts
  have hb := shape_keyCount_bounds hs
  rw [if_pos rfl] at hb
  exact ⟨hb.1, hb.2, fun n hn => shape_subnodes_bounds ho h true r hs n hn⟩

unseal insertNode removeNode in
theorem btree_node_key_bounds_witness :
    ∃ r, runBOps 4 [.ins 1 (0, 0), .ins 2 (0, 1), .ins 3 (0, 2),
        .ins 4 (0, 3), .del 1] = some r ∧
      (1 ≤ keyCount r ∧ keyCount r ≤ 4 - 1 ∧
        ∀ n ∈ subnodes r,
          getMinKeys 4 ≤ keyCount n ∧ keyCount n ≤ 4 - 1) :=
  ⟨_, rfl, btree_node_key_bounds (by decide)
    [.ins 1 (0, 0), .ins 2 (0, 1), .ins 3 (0, 2), .ins 4 (0, 3), .del 1]
    _ rfl⟩

/-- Ground-truth model for C9, from the spec's words: a key-sorted
association list with last-write-wins insert ("if key already present,
overwrite the value"). -/
def assocInsert : List (Int × Rid) → Int → Rid → List (Int × Rid)
  | [], k, v => [(k, v)]
  | (k0, v0) :: rest, k, v =>
    if k < k0 then (k, v) :: (k0, v0) :: rest
    else if k = k0 then (k, v) :: rest
    else (k0, v0) :: assocInsert rest k v

/-- The spec's ground-truth lookup: first (hence, on a sorted duplicate-free
list, unique) binding of `k`. -/
def specSearch : List (Int × Rid) → Int → Option Rid
  | [], _ => none
  | (k0, v0) :: rest, k => if k0 = k then some v0 else specSearch rest k

/-- The model list after a sequence of inserts. -/
def insModel (ins : List (Int × Rid)) : List (Int × Rid) :=
  ins.foldl (fun l p => assocInsert l p.1 p.2) []

/-- Flatten a leaf sequence to its key/value bindings. -/
def chainPairs : List (List Int × List Rid) → List (Int × Rid)
  | [] => []
  | (ks, vs) :: rest => ks.zip vs ++ chainPairs rest

/-- The in-order bindings of a subtree. -/
def pairs (t : BNode) : List (Int × Rid) := chainPairs (leavesOf t)

def pairsL (cs : List BNode) : List (Int × Rid) := chainPairs (leavesOfL cs)

def treePairs : Option BNode → List (Int × Rid)
  | none => []
  | some r => pairs r

theorem chainPairs_append (l1 l2 : List (List Int × List Rid)) :
    chainPairs (l1 ++ l2) = chainPairs l1 ++ chainPairs l2 := by
  induction l1 with
  | nil => simp [chainPairs]
  | cons lf rest ih =>
    obtain ⟨ks, vs⟩ := lf
    simp [chainPairs, ih]

theorem pairs_leaf (ks : List Int) (vs : List Rid) :
    pairs (.leaf ks vs) = ks.zip vs := by
  simp [pairs, leavesOf, chainPairs]

theorem pairs_node (ks : List Int) (cs : List BNode) :
    pairs (.node ks cs) = pairsL cs := by
  simp [pairs, pairsL, leavesOf]

theorem pairsL_nil : pairsL [] = [] := rfl

theorem pairsL_cons (c : BNode) (cs : List BNode) :
    pairsL (c :: cs) = pairs c ++ pairsL cs := by
  simp [pairsL, leavesOfL, pairs, chainPairs_append]

theorem pairsL_append (cs1 cs2 : List BNode) :
    pairsL (cs1 ++ cs2) = pairsL cs1 ++ pairsL cs2 := by
  induction cs1 with
  | nil => simp [pairsL, leavesOfL, chainPairs]
  | cons c rest ih => simp [pairsL_cons, ih, List.append_assoc]

theorem mem_assocInsert_keys {l : List (Int × Rid)} {k x : Int} {v : Rid} :
    x ∈ (assocInsert l k v).map Prod.fst ↔
      x = k ∨ x ∈ l.map Prod.fst := by
  induction l with
  | nil => simp [assocInsert]
  | cons p rest ih =>
    obtain ⟨k0, v0⟩ := p
    by_cases h1 : k < k0
    · simp [assocInsert, if_pos h1]
    · by_cases h2 : k = k0
      · subst h2
        simp [assocInsert, if_neg h1]
      · simp only [assocInsert, if_neg h1, if_neg h2, List.map_cons,
          List.mem_cons]
        rw [ih]
        tauto

theorem assocInsert_sorted {l : List (Int × Rid)} {k : Int} {v : Rid}
    (h : (l.map Prod.fst).Pairwise (· < ·)) :
    ((assocInsert l k v).map Prod.fst).Pairwise (· < ·) := by
  induction l with
  | nil => simp [assocInsert]
  | cons p rest ih =>
    obtain ⟨k0, v0⟩ := p
    simp only [List.map_cons, List.pairwise_cons] at h
    obtain ⟨hk0, hrest⟩ := h
    by_cases h1 : k < k0
    · simp only [assocInsert, if_pos h1, List.map_cons, List.pairwise_cons]
      refine ⟨?_, hk0, hrest⟩
      intro x hx
      rcases List.mem_cons.mp hx with rfl | hx
      · exact h1
      · exact lt_trans h1 (hk0 x hx)
    · by_cases h2 : k = k0
      · subst h2
        have hrw : assocInsert ((k, v0) :: rest) k v = (k, v) :: rest := by
          simp [assocInsert]
        rw [hrw]
        simp only [List.map_cons, List.pairwise_cons]
        exact ⟨hk0, hrest⟩
      · simp only [assocInsert, if_neg h1, if_neg h2, List.map_cons,
          List.pairwise_cons]
        refine ⟨?_, ih hrest⟩
        intro x hx
        rcases mem_assocInsert_keys.mp hx with rfl | hx
        · omega
        · exact hk0 x hx

theorem assocInsert_append_left {l1 l2 : List (Int × Rid)} {k : Int}
    {v : Rid} (h : ∀ p ∈ l1, p.1 < k) :
    assocInsert (l1 ++ l2) k v = l1 ++ assocInsert l2 k v := by
  induction l1 with
  | nil => simp
  | cons p rest ih =>
    obtain ⟨k0, v0⟩ := p
    have hk0 : k0 < k := h (k0, v0) (by simp)
    simp only [List.cons_append, assocInsert, if_neg (by omega : ¬ k < k0),
      if_neg (by omega : ¬ k = k0), List.append_eq]
    rw [ih (fun p hp => h p (by simp [hp]))]

theorem assocInsert_append_right {l1 l2 : List (Int × Rid)} {k : Int}
    {v : Rid} (h : ∀ p ∈ l2, k < p.1) :
    assocInsert (l1 ++ l2) k v = assocInsert l1 k v ++ l2 := by
  induction l1 with
  | nil =>
    cases l2 with
    | nil => simp [assocInsert]
    | cons p rest =>
      obtain ⟨k2, v2⟩ := p
      have hk2 : k < k2 := h (k2, v2) (by simp)
      simp [assocInsert, if_pos hk2]
  | cons p rest ih =>
    obtain ⟨k0, v0⟩ := p
    by_cases h1 : k < k0
    · simp [assocInsert, if_pos h1]
    · by_cases h2 : k = k0
      · subst h2
        simp [assocInsert, if_neg h1]
      · simp only [List.cons_append, assocInsert, if_neg h1, if_neg h2,
          List.append_eq]
        rw [ih]

theorem specSearch_assocInsert_self {l : List (Int × Rid)} {k : Int}
    {v : Rid} : specSearch (assocInsert l k v) k = some v := by
  induction l with
  | nil => simp [assocInsert, specSearch]
  | cons p rest ih =>
    obtain ⟨k0, v0⟩ := p
    by_cases h1 : k < k0
    · simp [assocInsert, if_pos h1, specSearch]
    · by_cases h2 : k = k0
      · subst h2
        have hrw : assocInsert ((k, v0) :: rest) k v = (k, v) :: rest := by
          simp [assocInsert]
        rw [hrw]
        simp [specSearch]
      · simp only [assocInsert, if_neg h1, if_neg h2, specSearch]
        rw [if_neg (fun he => h2 he.symm)]
        exact ih

theorem specSearch_assocInsert_ne {l : List (Int × Rid)} {k k2 : Int}
    {v : Rid} (hne : k2 ≠ k) :
    specSearch (assocInsert l k v) k2 = specSearch l k2 := by
  induction l with
  | nil =>
    simp only [assocInsert, specSearch]
    rw [if_neg (fun he => hne he.symm)]
  | cons p rest ih =>
    obtain ⟨k0, v0⟩ := p
    by_cases h1 : k < k0
    · simp only [assocInsert, if_pos h1, specSearch]
      rw [if_neg (fun he => hne he.symm)]
    · by_cases h2 : k = k0
      · subst h2
        have hrw : assocInsert ((k, v0) :: rest) k v = (k, v) :: rest := by
          simp [assocInsert]
        rw [hrw]
        simp only [specSearch]
        rw [if_neg (fun he => hne he.symm), if_neg (fun he => hne he.symm)]
      · simp only [assocInsert, if_neg h1, if_neg h2, specSearch]
        by_cases h3 : k0 = k2
        · rw [if_pos h3, if_pos h3]
        · rw [if_neg h3, if_neg h3]
          exact ih

theorem assocInsert_length_mem {l : List (Int × Rid)} {k : Int} {v : Rid}
    (hs : (l.map Prod.fst).Pairwise (· < ·))
    (h : k ∈ l.map Prod.fst) :
    (assocInsert l k v).length = l.length := by
  induction l with
  | nil => simp at h
  | cons p rest ih =>
    obtain ⟨k0, v0⟩ := p
    simp only [List.map_cons, List.pairwise_cons] at hs
    obtain ⟨hk0, hrest⟩ := hs
    simp only [List.map_cons, List.mem_cons] at h
    by_cases h1 : k < k0
    · exfalso
      rcases h with rfl | h
      · omega
      · have := hk0 k h
        omega
    · by_cases h2 : k = k0
      · subst h2
        simp [assocInsert, if_neg h1]
      · simp only [assocInsert, if_neg h1, if_neg h2, List.length_cons]
        rw [ih hrest (by tauto)]

theorem getLast?_cons_or {α : Type} (a : α) (xs : List α) :
    (a :: xs).getLast? = xs.getLast?.or (some a) := by
  cases xs with
  | nil => simp
  | cons b t =>
    rw [List.getLast?_cons_cons]
    obtain ⟨y, hy⟩ := Option.isSome_iff_exists.mp
      ((List.getLast?_isSome (l := b :: t)).mpr (by simp))
    rw [hy]
    rfl

theorem specSearch_foldl (k : Int) (ins : List (Int × Rid)) :
    ∀ l, specSearch (ins.foldl (fun acc p => assocInsert acc p.1 p.2) l) k
      = (((ins.filter (fun p => decide (p.1 = k))).map Prod.snd).getLast?).or
          (specSearch l k) := by
  induction ins with
  | nil =>
    intro l
    simp
  | cons p rest ih =>
    obtain ⟨k0, v0⟩ := p
    intro l
    simp only [List.foldl_cons]
    rw [ih]
    by_cases h : k0 = k
    · subst h
      rw [specSearch_assocInsert_self]
      rw [List.filter_cons_of_pos (by simp), List.map_cons, getLast?_cons_or,
        Option.or_assoc]
      rfl
    · rw [specSearch_assocInsert_ne (fun he => h he.symm)]
      rw [List.filter_cons_of_neg (by simp [h])]

/-- `specSearch` on the model list is the value of the most recent insert
with the given key. -/
theorem specSearch_insModel (ins : List (Int × Rid)) (k : Int) :
    specSearch (insModel ins) k
      = ((ins.filter (fun p => decide (p.1 = k))).map Prod.snd).getLast? := by
  rw [insModel, specSearch_foldl]
  simp [specSearch]

theorem insModel_sorted (ins : List (Int × Rid)) :
    ((insModel ins).map Prod.fst).Pairwise (· < ·) := by
  suffices h : ∀ l, (l.map Prod.fst).Pairwise (· < ·) →
      ((ins.foldl (fun acc p => assocInsert acc p.1 p.2) l).map
        Prod.fst).Pairwise (· < ·) by
    exact h [] (by simp)
  induction ins with
  | nil => exact fun l hl => hl
  | cons p rest ih =>
    intro l hl
    exact ih _ (assocInsert_sorted hl)

theorem mem_insModel_keys {ins : List (Int × Rid)} {x : Int} :
    x ∈ (insModel ins).map Prod.fst ↔ x ∈ ins.map Prod.fst := by
  suffices h : ∀ l, (x ∈ (ins.foldl (fun acc p => assocInsert acc p.1 p.2)
      l).map Prod.fst ↔ x ∈ ins.map Prod.fst ∨ x ∈ l.map Prod.fst) by
    rw [insModel]
    rw [h []]
    simp
  induction ins with
  | nil =>
    intro l
    simp
  | cons p rest ih =>
    intro l
    obtain ⟨k0, v0⟩ := p
    simp only [List.foldl_cons]
    rw [ih]
    rw [mem_assocInsert_keys]
    simp only [List.map_cons, List.mem_cons]
    tauto

theorem takeWhile_pred {p : Int → Bool} {l : List Int} :
    (∀ j, (hj : j < l.length) → j < (l.takeWhile p).length → p l[j]) ∧
    (∀ hn : (l.takeWhile p).length < l.length,
      ¬ p (l[(l.takeWhile p).length]) = true) := by
  induction l with
  | nil => exact ⟨fun j hj => by simp at hj, fun hn => by simp at hn⟩
  | cons x rest ih =>
    by_cases hx : p x
    · rw [List.takeWhile_cons, if_pos hx]
      constructor
      · intro j hj hjl
        cases j with
        | zero => simpa using hx
        | succ j2 =>
          simp only [List.length_cons, List.getElem_cons_succ] at hj hjl ⊢
          exact ih.1 j2 (by omega) (by omega)
      · intro hn
        simp only [List.length_cons] at hn
        simp only [List.length_cons, List.getElem_cons_succ]
        exact ih.2 (by omega)
    · rw [List.takeWhile_cons, if_neg hx]
      refine ⟨fun j hj hjl => by simp at hjl, fun hn => by simpa using hx⟩

theorem takeWhile_len_eq {p : Int → Bool} {l : List Int} {i : Nat}
    (hle : i ≤ l.length)
    (h1 : ∀ j, (hj : j < l.length) → j < i → p l[j])
    (h2 : ∀ hj : i < l.length, ¬ p (l[i]) = true) :
    (l.takeWhile p).length = i := by
  induction l generalizing i with
  | nil =>
    simp only [List.length_nil] at hle
    simp [List.takeWhile]
    omega
  | cons x rest ih =>
    cases i with
    | zero =>
      have hx := h2 (by simp)
      simp only [List.getElem_cons_zero] at hx
      rw [List.takeWhile_cons, if_neg hx]
      rfl
    | succ i2 =>
      have hx : p x := h1 0 (by simp) (by omega)
      rw [List.takeWhile_cons, if_pos hx]
      simp only [List.length_cons]
      rw [@ih i2 (by simp at hle; omega)
        (fun j hj hji => by
          have hk := h1 (j + 1) (by simp; omega) (by omega)
          simpa using hk)
        (fun hj => by
          have hk := h2 (by simp; omega)
          simpa using hk)]

theorem childIdx_spec (ks : List Int) (k : Int) :
    (∀ j, (hj : j < ks.length) → j < childIdx ks k → ks[j] ≤ k) ∧
    (∀ hn : childIdx ks k < ks.length, k < ks[childIdx ks k]) := by
  obtain ⟨h1, h2⟩ := takeWhile_pred (p := fun x => decide (x ≤ k)) (l := ks)
  constructor
  · intro j hj hjl
    have := h1 j hj hjl
    simpa using this
  · intro hn
    have := h2 hn
    simp at this
    exact this

theorem lowerBound_spec (ks : List Int) (k : Int) :
    (∀ j, (hj : j < ks.length) → j < lowerBound ks k → ks[j] < k) ∧
    (∀ hn : lowerBound ks k < ks.length, k ≤ ks[lowerBound ks k]) := by
  obtain ⟨h1, h2⟩ := takeWhile_pred (p := fun x => decide (x < k)) (l := ks)
  constructor
  · intro j hj hjl
    have := h1 j hj hjl
    simpa using this
  · intro hn
    have := h2 hn
    simp at this
    exact this

theorem getD_insertAt {α : Type} (l : List α) (i : Nat) (a d : α)
    (hi : i ≤ l.length) (j : Nat) :
    (insertAt l i a).getD j d =
      if j < i then l.getD j d
      else if j = i then a
      else l.getD (j - 1) d := by
  have hlen : (List.take i l).length = i := by
    rw [List.length_take]
    omega
  unfold insertAt
  by_cases h1 : j < i
  · rw [if_pos h1]
    simp only [List.getD_eq_getElem?_getD]
    rw [List.getElem?_append_left (by rw [hlen]; omega)]
    rw [List.getElem?_take, if_pos h1]
  · rw [if_neg h1]
    by_cases h2 : j = i
    · subst h2
      simp only [List.getD_eq_getElem?_getD]
      rw [List.getElem?_append_right hlen.le, hlen]
      simp
    · rw [if_neg h2]
      simp only [List.getD_eq_getElem?_getD]
      rw [List.getElem?_append_right (by rw [hlen]; omega), hlen]
      have hj1 : j - i = (j - i - 1) + 1 := by omega
      rw [hj1, List.getElem?_cons_succ, List.getElem?_drop]
      congr 2
      omega

def lbK (lo : Option Int) (x : Int) : Prop := ∀ a, lo = some a → a < x

def lbOk (lo : Option Int) (x : Int) : Prop := ∀ a, lo = some a → a ≤ x

def ubOk (hi : Option Int) (x : Int) : Prop := ∀ b, hi = some b → x < b

def childLo (lo : Option Int) (ks : List Int) (i : Nat) : Option Int :=
  if i = 0 then lo else some (ks.getD (i - 1) 0)

def childHi (hi : Option Int) (ks : List Int) (i : Nat) : Option Int :=
  if i < ks.length then some (ks.getD i 0) else hi

/-- The key-ordering part of the B+ tree invariant, height-indexed like
`ShapeInvH`: keys strictly sorted within every node, leaf keys within the
half-open window `[lo, hi)`, separators strictly inside `(lo, hi)`, and
child `i` of an internal node windowed between the adjacent separators
(inclusive on the left, exclusive on the right), matching `childIdx`'s
`upper_bound`-style descent. -/
def OrdInvH (lo hi : Option Int) : Nat → BNode → Prop
  | 0, .leaf ks _ =>
    ks.Pairwise (· < ·) ∧ ∀ x ∈ ks, lbOk lo x ∧ ubOk hi x
  | h + 1, .node ks cs =>
    ks.Pairwise (· < ·) ∧ (∀ x ∈ ks, lbK lo x ∧ ubOk hi x) ∧
    ∀ i, (hic : i < cs.length) →
      OrdInvH (childLo lo ks i) (childHi hi ks i) h cs[i]
  | _, _ => False

theorem pairsL_sorted_aux {order h : Nat}
    (ih : ∀ (lo hi : Option Int) (isRoot : Bool) (t : BNode),
      ShapeInvH order h isRoot t → OrdInvH lo hi h t →
      ((pairs t).map Prod.fst).Pairwise (· < ·) ∧
      ∀ p ∈ pairs t, lbOk lo p.1 ∧ ubOk hi p.1) :
    ∀ (ks : List Int), ∀ (cs : List BNode) (lo hi : Option Int),
      cs.length = ks.length + 1 →
      ks.Pairwise (· < ·) →
      (∀ x ∈ ks, lbK lo x ∧ ubOk hi x) →
      (∀ i, (hic : i < cs.length) →
        OrdInvH (childLo lo ks i) (childHi hi ks i) h cs[i]) →
      (∀ c ∈ cs, ShapeInvH order h false c) →
      ((pairsL cs).map Prod.fst).Pairwise (· < ·) ∧
      ∀ p ∈ pairsL cs, lbOk lo p.1 ∧ ubOk hi p.1 := by
  intro ks
  induction ks with
  | nil =>
    intro cs lo hi hcl hsort hkb hch hsh
    cases cs with
    | nil => simp at hcl
    | cons c cs2 =>
      have hnil : cs2 = [] :=
        List.eq_nil_of_length_eq_zero (by simpa using hcl)
      subst hnil
      rw [pairsL_cons, pairsL_nil, List.append_nil]
      have hc0 := hch 0 (by simp)
      have e1 : childLo lo ([] : List Int) 0 = lo := by simp [childLo]
      have e2 : childHi hi ([] : List Int) 0 = hi := by simp [childHi]
      rw [e1, e2, List.getElem_cons_zero] at hc0
      exact ih lo hi false c (hsh c (by simp)) hc0
  | cons k0 ks2 ihk =>
    intro cs lo hi hcl hsort hkb hch hsh
    cases cs with
    | nil => simp at hcl
    | cons c cs2 =>
      simp only [List.pairwise_cons] at hsort
      obtain ⟨hk0, hsort2⟩ := hsort
      have hc0 := hch 0 (by simp)
      have e1 : childLo lo (k0 :: ks2) 0 = lo := by simp [childLo]
      have e2 : childHi hi (k0 :: ks2) 0 = some k0 := by simp [childHi]
      rw [e1, e2, List.getElem_cons_zero] at hc0
      have ihead := ih lo (some k0) false c (hsh c (by simp)) hc0
      have itail := ihk cs2 (some k0) hi (by simpa using hcl) hsort2
        (fun x hx => ⟨fun a ha => by
            rw [Option.some_inj] at ha
            subst ha
            exact hk0 x hx,
          (hkb x (List.mem_cons_of_mem _ hx)).2⟩)
        (fun j hj => by
          have hj1 := hch (j + 1) (by simpa using hj)
          have hclo : childLo lo (k0 :: ks2) (j + 1) = childLo (some k0) ks2 j := by
            cases j with
            | zero => simp [childLo]
            | succ j2 => simp [childLo]
          have hchi : childHi hi (k0 :: ks2) (j + 1) = childHi hi ks2 j := by
            by_cases hjk : j < ks2.length
            · simp only [childHi]
              rw [if_pos (by simp only [List.length_cons]; omega), if_pos hjk,
                List.getD_cons_succ]
            · simp only [childHi]
              rw [if_neg (by simp only [List.length_cons]; omega), if_neg hjk]
          rw [hclo, hchi, List.getElem_cons_succ] at hj1
          exact hj1)
        (fun c2 hc2 => hsh c2 (List.mem_cons_of_mem _ hc2))
      rw [pairsL_cons, List.map_append]
      have hbk0 := hkb k0 (by simp)
      constructor
      · rw [List.pairwise_append]
        refine ⟨ihead.1, itail.1, ?_⟩
        intro a ha b hb
        obtain ⟨p, hp, rfl⟩ := List.mem_map.mp ha
        obtain ⟨q, hq, rfl⟩ := List.mem_map.mp hb
        have h1 := (ihead.2 p hp).2 k0 rfl
        have h2 := (itail.2 q hq).1 k0 rfl
        omega
      · intro p hp
        rcases List.mem_append.mp hp with hp | hp
        · have h1 := ihead.2 p hp
          refine ⟨h1.1, ?_⟩
          intro b hb
          have h2 := h1.2 k0 rfl
          have h3 := hbk0.2 b hb
          omega
        · have h1 := itail.2 p hp
          refine ⟨?_, h1.2⟩
          intro a ha
          have h2 := h1.1 k0 rfl
          have h3 := hbk0.1 a ha
          omega

/-- Under the shape and ordering invariants, the flattened binding list of
a subtree is strictly sorted by key and windowed by the node's bounds. -/
theorem ordInv_pairs_sorted {order : Nat} (hei : Nat) :
    ∀ (lo hi : Option Int) (isRoot : Bool) (t : BNode),
      ShapeInvH order hei isRoot t → OrdInvH lo hi hei t →
      ((pairs t).map Prod.fst).Pairwise (· < ·) ∧
      ∀ p ∈ pairs t, lbOk lo p.1 ∧ ubOk hi p.1 := by
  induction hei with
  | zero =>
    intro lo hi isRoot t hs ho
    cases t with
    | node ks cs => simp [ShapeInvH] at hs
    | leaf ks vs =>
      obtain ⟨hq, -, -⟩ := hs
      obtain ⟨hsort, hbound⟩ := ho
      rw [pairs_leaf]
      constructor
      · rw [List.map_fst_zip _ _ (by omega)]
        exact hsort
      · intro p hp
        obtain ⟨pk, pv⟩ := p
        have hm := List.of_mem_zip hp
        exact hbound pk hm.1
  | succ h ih =>
    intro lo hi isRoot t hs ho
    cases t with
    | leaf ks vs => simp [ShapeInvH] at hs
    | node ks cs =>
      obtain ⟨hcl, -, -, hch⟩ := hs
      obtain ⟨hsort, hkb, hchild⟩ := ho
      rw [pairs_node]
      exact pairsL_sorted_aux ih ks cs lo hi hcl hsort hkb hchild hch

theorem lowerBound_cons_lt {k0 k : Int} (ks : List Int) (h : k0 < k) :
    lowerBound (k0 :: ks) k = lowerBound ks k + 1 := by
  unfold lowerBound
  rw [List.takeWhile_cons, if_pos (by simpa using h)]
  simp

theorem lowerBound_cons_ge {k0 k : Int} (ks : List Int) (h : ¬ k0 < k) :
    lowerBound (k0 :: ks) k = 0 := by
  unfold lowerBound
  rw [List.takeWhile_cons, if_neg (by simpa using h)]
  rfl

theorem childIdx_cons_le {k0 k : Int} (ks : List Int) (h : k0 ≤ k) :
    childIdx (k0 :: ks) k = childIdx ks k + 1 := by
  unfold childIdx
  rw [List.takeWhile_cons, if_pos (by simpa using h)]
  simp

theorem childIdx_cons_gt {k0 k : Int} (ks : List Int) (h : ¬ k0 ≤ k) :
    childIdx (k0 :: ks) k = 0 := by
  unfold childIdx
  rw [List.takeWhile_cons, if_neg (by simpa using h)]
  rfl

theorem insertAt_cons_succ {α : Type} (x : α) (l : List α) (i : Nat) (a : α) :
    insertAt (x :: l) (i + 1) a = x :: insertAt l i a := by
  simp [insertAt]

theorem insertIntoLeaf_cons_lt {k k0 : Int} {v v0 : Rid}
    {ks : List Int} {vs : List Rid} (h : k0 < k) :
    insertIntoLeaf (k0 :: ks) (v0 :: vs) k v =
      (k0 :: (insertIntoLeaf ks vs k v).1,
       v0 :: (insertIntoLeaf ks vs k v).2) := by
  simp only [insertIntoLeaf, lowerBound_cons_lt ks h]
  rw [List.getElem?_cons_succ]
  cases hx : ks[lowerBound ks k]? with
  | none => simp [insertAt_cons_succ]
  | some x =>
    by_cases hxk : x = k
    · simp [hxk, List.set_cons_succ]
    · simp [hxk, insertAt_cons_succ]

theorem insertIntoLeaf_model (k : Int) (v : Rid) :
    ∀ (ks : List Int) (vs : List Rid), ks.length = vs.length →
      (insertIntoLeaf ks vs k v).1.zip (insertIntoLeaf ks vs k v).2
        = assocInsert (ks.zip vs) k v ∧
      (insertIntoLeaf ks vs k v).1
        = (assocInsert (ks.zip vs) k v).map Prod.fst := by
  intro ks
  induction ks with
  | nil =>
    intro vs hlen
    have hv : vs = [] := List.eq_nil_of_length_eq_zero
      (by simp at hlen; omega)
    subst hv
    constructor <;>
      simp [insertIntoLeaf, lowerBound, List.takeWhile, assocInsert, insertAt]
  | cons k0 ks2 ihs =>
    intro vs hlen
    cases vs with
    | nil => simp at hlen
    | cons v0 vs2 =>
      have hlen2 : ks2.length = vs2.length := by simpa using hlen
      by_cases h1 : k < k0
      · have hlb : lowerBound (k0 :: ks2) k = 0 :=
          lowerBound_cons_ge _ (by omega)
        have hk0k : ¬ k0 = k := by omega
        have heq : insertIntoLeaf (k0 :: ks2) (v0 :: vs2) k v
            = (k :: k0 :: ks2, v :: v0 :: vs2) := by
          simp only [insertIntoLeaf, hlb]
          rw [List.getElem?_cons_zero]
          simp [hk0k, insertAt]
        rw [heq]
        have hred : assocInsert ((k0, v0) :: ks2.zip vs2) k v
            = (k, v) :: (k0, v0) :: ks2.zip vs2 := by
          simp [assocInsert, if_pos h1]
        constructor
        · rw [List.zip_cons_cons, List.zip_cons_cons, hred]
        · rw [List.zip_cons_cons, hred, List.map_cons, List.map_cons,
            List.map_fst_zip _ _ (le_of_eq hlen2)]
      · by_cases h2 : k = k0
        · subst h2
          have hlb : lowerBound (k :: ks2) k = 0 :=
            lowerBound_cons_ge _ (by omega)
          have heq : insertIntoLeaf (k :: ks2) (v0 :: vs2) k v
              = (k :: ks2, v :: vs2) := by
            simp only [insertIntoLeaf, hlb]
            rw [List.getElem?_cons_zero]
            simp
          rw [heq]
          have hred : assocInsert ((k, v0) :: ks2.zip vs2) k v
              = (k, v) :: ks2.zip vs2 := by
            simp [assocInsert]
          constructor
          · rw [List.zip_cons_cons, List.zip_cons_cons, hred]
          · rw [List.zip_cons_cons, hred, List.map_cons,
              List.map_fst_zip _ _ (le_of_eq hlen2)]
        · have h3 : k0 < k := by omega
          rw [insertIntoLeaf_cons_lt h3]
          obtain ⟨ih1, ih2⟩ := ihs vs2 hlen2
          constructor
          · simp only [List.zip_cons_cons]
            rw [ih1]
            simp [assocInsert, if_neg (by omega : ¬ k < k0),
              if_neg (by omega : ¬ k = k0)]
          · simp only [List.zip_cons_cons]
            rw [ih2]
            simp [assocInsert, if_neg (by omega : ¬ k < k0),
              if_neg (by omega : ¬ k = k0)]

theorem getD_take {α : Type} (l : List α) (n j : Nat) (d : α) (h : j < n) :
    (l.take n).getD j d = l.getD j d := by
  simp [List.getD_eq_getElem?_getD, List.getElem?_take, if_pos h]

theorem getD_drop {α : Type} (l : List α) (n j : Nat) (d : α) :
    (l.drop n).getD j d = l.getD (n + j) d := by
  simp [List.getD_eq_getElem?_getD, List.getElem?_drop]

theorem take_zip2 {α β : Type} :
    ∀ (n : Nat) (l1 : List α) (l2 : List β),
      (l1.take n).zip (l2.take n) = (l1.zip l2).take n := by
  intro n
  induction n with
  | zero =>
    intro l1 l2
    simp
  | succ m ih =>
    intro l1 l2
    cases l1 with
    | nil => simp
    | cons a l1 =>
      cases l2 with
      | nil => simp
      | cons b l2 => simp [List.take_succ_cons, ih]

theorem drop_zip2 {α β : Type} :
    ∀ (n : Nat) (l1 : List α) (l2 : List β),
      (l1.drop n).zip (l2.drop n) = (l1.zip l2).drop n := by
  intro n
  induction n with
  | zero =>
    intro l1 l2
    simp
  | succ m ih =>
    intro l1 l2
    cases l1 with
    | nil => simp
    | cons a l1 =>
      cases l2 with
      | nil => simp
      | cons b l2 => simp [List.drop_succ_cons, ih]

theorem mem_pairsL_idx {cs : List BNode} {p : Int × Rid} (h : p ∈ pairsL cs) :
    ∃ j, ∃ hj : j < cs.length, p ∈ pairs cs[j] := by
  induction cs with
  | nil => simp [pairsL, leavesOfL, chainPairs] at h
  | cons c rest ih =>
    rw [pairsL_cons] at h
    rcases List.mem_append.mp h with h | h
    · exact ⟨0, by simp, h⟩
    · obtain ⟨j, hj, hp⟩ := ih h
      exact ⟨j + 1, by simpa using hj, by simpa using hp⟩

theorem mem_pairsL_take {cs : List BNode} {i : Nat} {p : Int × Rid}
    (h : p ∈ pairsL (cs.take i)) :
    ∃ j, ∃ hj : j < cs.length, j < i ∧ p ∈ pairs cs[j] := by
  obtain ⟨j, hj, hp⟩ := mem_pairsL_idx h
  have hjt : j < i ∧ j < cs.length := by
    simp only [List.length_take, Nat.lt_min] at hj
    exact hj
  rw [List.getElem_take] at hp
  exact ⟨j, hjt.2, hjt.1, hp⟩

theorem mem_pairsL_drop {cs : List BNode} {n : Nat} {p : Int × Rid}
    (h : p ∈ pairsL (cs.drop n)) :
    ∃ j, ∃ hj : n + j < cs.length, p ∈ pairs cs[n + j] := by
  obtain ⟨j, hj, hp⟩ := mem_pairsL_idx h
  have hjd : n + j < cs.length := by
    simp only [List.length_drop] at hj
    omega
  rw [List.getElem_drop] at hp
  exact ⟨j, hjd, hp⟩

theorem set_decomp {α : Type} {l : List α} {i : Nat} (a : α)
    (h : i < l.length) :
    l.set i a = l.take i ++ a :: l.drop (i + 1) := by
  rw [List.set_eq_take_append_cons_drop, if_pos h]

theorem self_decomp {α : Type} {l : List α} {i : Nat} (h : i < l.length) :
    l = l.take i ++ l[i] :: l.drop (i + 1) := by
  conv_lhs => rw [← List.take_append_drop i l]
  rw [List.drop_eq_getElem_cons h]

theorem insertAt_set_decomp {l : List BNode} {i : Nat} (a b : BNode)
    (h : i < l.length) :
    insertAt (l.set i a) (i + 1) b = l.take i ++ a :: b :: l.drop (i + 1) := by
  rw [set_decomp a h]
  unfold insertAt
  have hlen : (l.take i).length = i := by
    simp only [List.length_take]
    omega
  rw [List.take_append_eq_append_take, List.drop_append_eq_append_drop, hlen]
  rw [List.take_of_length_le (by rw [hlen]; omega)]
  have h1 : i + 1 - i = 1 := by omega
  rw [h1]
  simp

theorem pairwise_getElem_le {ks : List Int} (h : ks.Pairwise (· < ·))
    {a b : Nat} (hab : a ≤ b) (hb : b < ks.length) :
    ks[a] ≤ ks[b] := by
  rcases Nat.eq_or_lt_of_le hab with heq | hlt
  · subst heq
    exact le_refl _
  · exact le_of_lt (List.pairwise_iff_getElem.mp h a b (by omega) hb hlt)

/-- Every binding left of the descent child has key `< k`, and every
binding right of it has key `> k`. -/
theorem pairsL_flanks {order h : Nat} {lo hi : Option Int}
    {ks : List Int} {cs : List BNode} (k : Int)
    (hcl : cs.length = ks.length + 1)
    (hsort : ks.Pairwise (· < ·))
    (hch : ∀ c ∈ cs, ShapeInvH order h false c)
    (hchild : ∀ i, (hic : i < cs.length) →
      OrdInvH (childLo lo ks i) (childHi hi ks i) h cs[i]) :
    (∀ p ∈ pairsL (cs.take (childIdx ks k)), p.1 < k) ∧
    (∀ p ∈ pairsL (cs.drop (childIdx ks k + 1)), k < p.1) := by
  obtain ⟨hcs1, hcs2⟩ := childIdx_spec ks k
  have hile := childIdx_le_length ks k
  constructor
  · intro p hp
    obtain ⟨j, hj, hji, hpj⟩ := mem_pairsL_take hp
    have hjk : j < ks.length := by omega
    have hb := (ordInv_pairs_sorted h (childLo lo ks j) (childHi hi ks j)
      false cs[j] (hch _ (List.getElem_mem hj)) (hchild j hj)).2 p hpj
    have hhi : childHi hi ks j = some (ks.getD j 0) := by
      simp [childHi, hjk]
    have h1 := hb.2 (ks.getD j 0) hhi
    rw [getD_of_lt _ _ _ hjk] at h1
    have h2 := hcs1 j hjk hji
    omega
  · intro p hp
    obtain ⟨j, hjd, hpj⟩ := mem_pairsL_drop hp
    have hick : childIdx ks k < ks.length := by omega
    have hjk : childIdx ks k + j < ks.length := by omega
    have hb := (ordInv_pairs_sorted h
      (childLo lo ks (childIdx ks k + 1 + j))
      (childHi hi ks (childIdx ks k + 1 + j))
      false cs[childIdx ks k + 1 + j]
      (hch _ (List.getElem_mem hjd)) (hchild _ hjd)).2 p hpj
    have hlo : childLo lo ks (childIdx ks k + 1 + j)
        = some (ks.getD (childIdx ks k + j) 0) := by
      simp only [childLo]
      rw [if_neg (by omega)]
      congr 1
      congr 1
      omega
    have h1 := hb.1 (ks.getD (childIdx ks k + j) 0) hlo
    rw [getD_of_lt _ _ _ hjk] at h1
    have h2 := hcs2 hick
    have h3 := pairwise_getElem_le hsort (le_refl (childIdx ks k) |>.trans
      (Nat.le_add_right _ j)) hjk
    omega

theorem insertIntoLeaf_keys_facts {lo hi : Option Int} {ks : List Int}
    {vs : List Rid} {k : Int} {v : Rid}
    (hq : ks.length = vs.length)
    (hsort : ks.Pairwise (· < ·))
    (hb : ∀ x ∈ ks, lbOk lo x ∧ ubOk hi x)
    (hlbk : lbOk lo k) (hubk : ubOk hi k) :
    (insertIntoLeaf ks vs k v).1.Pairwise (· < ·) ∧
    (∀ x ∈ (insertIntoLeaf ks vs k v).1, lbOk lo x ∧ ubOk hi x) := by
  obtain ⟨h1, h2⟩ := insertIntoLeaf_model k v ks vs hq
  constructor
  · rw [h2]
    apply assocInsert_sorted
    rw [List.map_fst_zip _ _ (le_of_eq hq)]
    exact hsort
  · intro x hx
    rw [h2] at hx
    rcases mem_assocInsert_keys.mp hx with rfl | hx
    · exact ⟨hlbk, hubk⟩
    · rw [List.map_fst_zip _ _ (le_of_eq hq)] at hx
      exact hb x hx

theorem sorted_split_bounds {lo hi : Option Int} {nks : List Int} {mid : Nat}
    (hsort : nks.Pairwise (· < ·))
    (hb : ∀ x ∈ nks, lbOk lo x ∧ ubOk hi x)
    (hmid : mid < nks.length) (hmid0 : 0 < mid) :
    (∀ x ∈ nks.take mid, ubOk (some (nks.getD mid 0)) x) ∧
    (∀ x ∈ nks.drop mid, lbOk (some (nks.getD mid 0)) x) ∧
    (∀ x ∈ nks.drop (mid + 1), lbK (some (nks.getD mid 0)) x) ∧
    lbK lo (nks.getD mid 0) ∧ ubOk hi (nks.getD mid 0) := by
  have hg := List.pairwise_iff_getElem.mp hsort
  rw [getD_of_lt _ _ _ hmid]
  refine ⟨?_, ?_, ?_, ?_, ?_⟩
  · intro x hx
    obtain ⟨j, hj, hje⟩ := List.mem_iff_getElem.mp hx
    have hjt : j < mid ∧ j < nks.length := by
      simp only [List.length_take, Nat.lt_min] at hj
      exact hj
    rw [List.getElem_take] at hje
    intro b hbb
    rw [Option.some_inj] at hbb
    subst hbb
    subst hje
    exact hg j mid hjt.2 hmid hjt.1
  · intro x hx
    obtain ⟨j, hj, hje⟩ := List.mem_iff_getElem.mp hx
    rw [List.getElem_drop] at hje
    intro a haa
    rw [Option.some_inj] at haa
    subst haa
    subst hje
    have hmj : mid + j < nks.length := by
      simp only [List.length_drop] at hj
      omega
    exact pairwise_getElem_le hsort (Nat.le_add_right _ _) hmj
  · intro x hx
    obtain ⟨j, hj, hje⟩ := List.mem_iff_getElem.mp hx
    rw [List.getElem_drop] at hje
    intro a haa
    rw [Option.some_inj] at haa
    subst haa
    subst hje
    have hmj : mid + 1 + j < nks.length := by
      simp only [List.length_drop] at hj
      omega
    exact hg mid (mid + 1 + j) hmid hmj (by omega)
  · intro a haa
    have h00 : 0 < nks.length := by omega
    have h0 := (hb nks[0] (List.getElem_mem h00)).1 a haa
    have h1 := hg 0 mid (by omega) hmid hmid0
    omega
  · exact (hb nks[mid] (List.getElem_mem hmid)).2

theorem lowerBound_eq_childIdx {ks : List Int} {k sep : Int}
    (hsort : ks.Pairwise (· < ·))
    (hlow : ∀ hpos : 0 < childIdx ks k,
      ks.getD (childIdx ks k - 1) 0 < sep)
    (hhigh : ∀ hj : childIdx ks k < ks.length, sep < ks[childIdx ks k]) :
    lowerBound ks sep = childIdx ks k := by
  unfold lowerBound
  apply takeWhile_len_eq (childIdx_le_length ks k)
  · intro j hj hji
    have hle := childIdx_le_length ks k
    simp only [decide_eq_true_eq]
    have hcb : childIdx ks k - 1 < ks.length := by omega
    have h1 : ks[j] ≤ ks.getD (childIdx ks k - 1) 0 := by
      rw [getD_of_lt _ _ _ hcb]
      exact pairwise_getElem_le hsort (by omega) hcb
    have h2 := hlow (by omega)
    omega
  · intro hj
    simp only [decide_eq_true_eq]
    have := hhigh hj
    omega

theorem insertAt_sorted_bounds {lo hi : Option Int} {ks : List Int}
    {sep : Int} {i : Nat}
    (hsort : ks.Pairwise (· < ·))
    (hb : ∀ x ∈ ks, lbK lo x ∧ ubOk hi x)
    (hile : i ≤ ks.length)
    (hlow : ∀ j, (hj : j < ks.length) → j < i → ks[j] < sep)
    (hhigh : ∀ hj : i < ks.length, sep < ks[i])
    (hsb : lbK lo sep ∧ ubOk hi sep) :
    (insertAt ks i sep).Pairwise (· < ·) ∧
    (∀ x ∈ insertAt ks i sep, lbK lo x ∧ ubOk hi x) := by
  have hg := List.pairwise_iff_getElem.mp hsort
  constructor
  · unfold insertAt
    rw [List.pairwise_append]
    refine ⟨List.Pairwise.sublist (List.take_sublist _ _) hsort, ?_, ?_⟩
    · rw [List.pairwise_cons]
      refine ⟨?_, List.Pairwise.sublist (List.drop_sublist _ _) hsort⟩
      intro x hx
      obtain ⟨j, hj, hje⟩ := List.mem_iff_getElem.mp hx
      rw [List.getElem_drop] at hje
      subst hje
      have hij : i + j < ks.length := by
        simp only [List.length_drop] at hj
        omega
      have h1 := hhigh (by omega)
      have h2 : ks[i] ≤ ks[i + j] :=
        pairwise_getElem_le hsort (Nat.le_add_right _ _) hij
      omega
    · intro a ha b hbm
      obtain ⟨j, hj, hje⟩ := List.mem_iff_getElem.mp ha
      have hjt : j < i ∧ j < ks.length := by
        simp only [List.length_take, Nat.lt_min] at hj
        exact hj
      rw [List.getElem_take] at hje
      subst hje
      rcases List.mem_cons.mp hbm with rfl | hbm
      · exact hlow j hjt.2 hjt.1
      · obtain ⟨j2, hj2, hje2⟩ := List.mem_iff_getElem.mp hbm
        rw [List.getElem_drop] at hje2
        subst hje2
        have hij : i + j2 < ks.length := by
          simp only [List.length_drop] at hj2
          omega
        exact hg j (i + j2) hjt.2 hij (by omega)
  · intro x hx
    rcases mem_insertAt hx with hx | hx
    · exact hb x hx
    · subst hx
      exact hsb

theorem getD_splice {l : List BNode} {i : Nat} (a b d : BNode)
    (h : i < l.length) (j : Nat) :
    (l.take i ++ a :: b :: l.drop (i + 1)).getD j d =
      if j < i then l.getD j d
      else if j = i then a
      else if j = i + 1 then b
      else l.getD (j - 1) d := by
  have hlen : (l.take i).length = i := by
    simp only [List.length_take]
    omega
  by_cases h1 : j < i
  · rw [if_pos h1]
    simp only [List.getD_eq_getElem?_getD]
    rw [List.getElem?_append_left (by rw [hlen]; omega), List.getElem?_take,
      if_pos h1]
  · rw [if_neg h1]
    simp only [List.getD_eq_getElem?_getD]
    rw [List.getElem?_append_right (by rw [hlen]; omega), hlen]
    by_cases h2 : j = i
    · subst h2
      rw [if_pos rfl]
      simp
    · rw [if_neg h2]
      by_cases h3 : j = i + 1
      · subst h3
        rw [if_pos rfl]
        have h4 : i + 1 - i = 1 := by omega
        rw [h4]
        simp
      · rw [if_neg h3]
        have h4 : j - i = (j - i - 2) + 1 + 1 := by omega
        rw [h4, List.getElem?_cons_succ, List.getElem?_cons_succ,
          List.getElem?_drop]
        congr 2
        omega

theorem pairsL_take_drop (cs : List BNode) (n : Nat) :
    pairsL (cs.take n) ++ pairsL (cs.drop n) = pairsL cs := by
  rw [← pairsL_append, List.take_append_drop]

theorem children_windows_insertAt {lo hi : Option Int} {ks : List Int}
    {i : Nat} {sep : Int} (hile : i ≤ ks.length) :
    (∀ j, j < i → childLo lo (insertAt ks i sep) j = childLo lo ks j ∧
        childHi hi (insertAt ks i sep) j = childHi hi ks j) ∧
    (childLo lo (insertAt ks i sep) i = childLo lo ks i ∧
      childHi hi (insertAt ks i sep) i = some sep) ∧
    (childLo lo (insertAt ks i sep) (i + 1) = some sep ∧
      childHi hi (insertAt ks i sep) (i + 1) = childHi hi ks i) ∧
    (∀ j, i + 2 ≤ j → j ≤ ks.length + 1 →
      childLo lo (insertAt ks i sep) j = childLo lo ks (j - 1) ∧
      childHi hi (insertAt ks i sep) j = childHi hi ks (j - 1)) := by
  have hklen := length_insertAt sep hile
  refine ⟨?_, ⟨?_, ?_⟩, ⟨?_, ?_⟩, ?_⟩
  · intro j hji
    constructor
    · simp only [childLo]
      by_cases h0 : j = 0
      · rw [if_pos h0, if_pos h0]
      · rw [if_neg h0, if_neg h0, getD_insertAt _ _ _ _ hile,
          if_pos (by omega)]
    · simp only [childHi]
      rw [hklen, if_pos (by omega), if_pos (by omega),
        getD_insertAt _ _ _ _ hile, if_pos hji]
  · simp only [childLo]
    by_cases h0 : i = 0
    · rw [if_pos h0, if_pos h0]
    · rw [if_neg h0, if_neg h0, getD_insertAt _ _ _ _ hile,
        if_pos (by omega)]
  · simp only [childHi]
    rw [hklen, if_pos (by omega), getD_insertAt _ _ _ _ hile,
      if_neg (by omega), if_pos rfl]
  · simp only [childLo]
    rw [if_neg (by omega), getD_insertAt _ _ _ _ hile]
    have h4 : i + 1 - 1 = i := by omega
    rw [h4, if_neg (by omega), if_pos rfl]
  · simp only [childHi]
    rw [hklen]
    by_cases hik : i < ks.length
    · rw [if_pos (by omega), if_pos hik, getD_insertAt _ _ _ _ hile,
        if_neg (by omega), if_neg (by omega)]
      have h4 : i + 1 - 1 = i := by omega
      rw [h4]
    · rw [if_neg (by omega), if_neg hik]
  · intro j hj2 hjle
    constructor
    · simp only [childLo]
      rw [if_neg (by omega), if_neg (by omega),
        getD_insertAt _ _ _ _ hile, if_neg (by omega), if_neg (by omega)]
    · simp only [childHi]
      rw [hklen]
      by_cases hjk : j - 1 < ks.length
      · rw [if_pos (by omega), if_pos hjk, getD_insertAt _ _ _ _ hile,
          if_neg (by omega), if_neg (by omega)]
      · rw [if_neg (by omega), if_neg hjk]

theorem children_windows_split {lo hi : Option Int} {ks : List Int}
    {mid : Nat} (hmid : mid < ks.length) :
    (∀ j, j ≤ mid →
      childLo lo (ks.take mid) j = childLo lo ks j ∧
      childHi (some (ks.getD mid 0)) (ks.take mid) j = childHi hi ks j) ∧
    (∀ j,
      childLo (some (ks.getD mid 0)) (ks.drop (mid + 1)) j
        = childLo lo ks (mid + 1 + j) ∧
      childHi hi (ks.drop (mid + 1)) j = childHi hi ks (mid + 1 + j)) := by
  have htlen : (ks.take mid).length = mid := by
    simp only [List.length_take]
    omega
  have hdlen : (ks.drop (mid + 1)).length = ks.length - (mid + 1) :=
    List.length_drop ..
  constructor
  · intro j hjm
    constructor
    · simp only [childLo]
      by_cases h0 : j = 0
      · rw [if_pos h0, if_pos h0]
      · rw [if_neg h0, if_neg h0, getD_take _ _ _ _ (by omega)]
    · simp only [childHi]
      rw [htlen]
      by_cases hjm2 : j < mid
      · rw [if_pos hjm2, if_pos (by omega), getD_take _ _ _ _ hjm2]
      · have hje : j = mid := by omega
        subst hje
        rw [if_neg (by omega), if_pos hmid]
  · intro j
    constructor
    · simp only [childLo]
      by_cases h0 : j = 0
      · subst h0
        rw [if_pos rfl, if_neg (by omega)]
        have h4 : mid + 1 + 0 - 1 = mid := by omega
        rw [h4]
      · rw [if_neg h0, if_neg (by omega), getD_drop]
        have h4 : mid + 1 + (j - 1) = mid + 1 + j - 1 := by omega
        rw [h4]
    · simp only [childHi]
      rw [hdlen]
      by_cases hjk : mid + 1 + j < ks.length
      · rw [if_pos (by omega), if_pos hjk, getD_drop]
      · rw [if_neg (by omega), if_neg hjk]

/-- `BTree::insert` below the root preserves the ordering invariant and
refines `assocInsert` on the flattened bindings; a split hands the parent
two well-windowed halves and a separator strictly inside the node's
window. -/
theorem insertNode_ord {order : Nat} (ho : 3 ≤ order) (k : Int) (v : Rid)
    (t : BNode) :
    ∀ h isRoot (lo hi : Option Int), ShapeInvH order h isRoot t →
      OrdInvH lo hi h t → lbOk lo k → ubOk hi k →
      (∀ t', insertNode order k v t = .ok t' →
        OrdInvH lo hi h t' ∧ pairs t' = assocInsert (pairs t) k v) ∧
      (∀ l sep r, insertNode order k v t = .split l sep r →
        OrdInvH lo (some sep) h l ∧ OrdInvH (some sep) hi h r ∧
        lbK lo sep ∧ ubOk hi sep ∧
        pairs l ++ pairs r = assocInsert (pairs t) k v) := by
  induction t using insertNode.induct order k v with
  | case1 ks vs kv hcond =>
    have hcond' : order ≤ (insertIntoLeaf ks vs k v).1.length := hcond
    intro h isRoot lo hi hs ho2 hlbk hubk
    cases h with
    | succ h => simp [ShapeInvH] at hs
    | zero =>
      obtain ⟨hq, hku, hmin⟩ := hs
      obtain ⟨hsorted, hbound⟩ := ho2
      obtain ⟨hq2, hge, hle⟩ := insertIntoLeaf_len (k := k) (v := v) hq
      obtain ⟨nsort, nb⟩ :=
        insertIntoLeaf_keys_facts hq hsorted hbound hlbk hubk
      obtain ⟨hz, hkeq⟩ := insertIntoLeaf_model k v ks vs hq
      have hlen : (insertIntoLeaf ks vs k v).1.length = order := by omega
      have hmid0 : 0 < (insertIntoLeaf ks vs k v).1.length / 2 := by omega
      have hmidlt : (insertIntoLeaf ks vs k v).1.length / 2
          < (insertIntoLeaf ks vs k v).1.length := by omega
      obtain ⟨hsb1, hsb2, hsb3, hsb4, hsb5⟩ :=
        sorted_split_bounds nsort nb hmidlt hmid0
      constructor
      · intro t' heq
        rw [insertNode] at heq
        rw [if_pos hcond'] at heq
        simp at heq
      · intro l sep r heq
        rw [insertNode] at heq
        rw [if_pos hcond'] at heq
        simp only [InsRes.split.injEq] at heq
        obtain ⟨hl, hsep, hr⟩ := heq
        subst hl
        subst hr
        subst hsep
        refine ⟨⟨?_, ?_⟩, ⟨?_, ?_⟩, hsb4, hsb5, ?_⟩
        · exact List.Pairwise.sublist (List.take_sublist _ _) nsort
        · intro x hx
          exact ⟨(nb x (List.mem_of_mem_take hx)).1, hsb1 x hx⟩
        · exact List.Pairwise.sublist (List.drop_sublist _ _) nsort
        · intro x hx
          exact ⟨hsb2 x hx, (nb x (List.mem_of_mem_drop hx)).2⟩
        · rw [pairs_leaf, pairs_leaf, pairs_leaf, take_zip2, drop_zip2, hz,
            List.take_append_drop]
  | case2 ks vs kv hcond =>
    have hcond' : ¬ order ≤ (insertIntoLeaf ks vs k v).1.length := hcond
    intro h isRoot lo hi hs ho2 hlbk hubk
    cases h with
    | succ h => simp [ShapeInvH] at hs
    | zero =>
      obtain ⟨hq, hku, hmin⟩ := hs
      obtain ⟨hsorted, hbound⟩ := ho2
      obtain ⟨nsort, nb⟩ :=
        insertIntoLeaf_keys_facts hq hsorted hbound hlbk hubk
      obtain ⟨hz, hkeq⟩ := insertIntoLeaf_model k v ks vs hq
      constructor
      · intro t' heq
        rw [insertNode] at heq
        rw [if_neg hcond'] at heq
        simp only [InsRes.ok.injEq] at heq
        subst heq
        refine ⟨⟨nsort, nb⟩, ?_⟩
        rw [pairs_leaf, pairs_leaf, hz]
      · intro l sep r heq
        rw [insertNode] at heq
        rw [if_neg hcond'] at heq
        simp at heq
  | case3 ks cs hidx c hrec ih =>
    intro h isRoot lo hi hs ho2 hlbk hubk
    cases h with
    | zero => simp [ShapeInvH] at hs
    | succ h =>
      obtain ⟨hcl, hku, hmin, hch⟩ := hs
      obtain ⟨hsort, hkb, hchild⟩ := ho2
      have hile := childIdx_le_length ks k
      have hclk : lbOk (childLo lo ks (childIdx ks k)) k := by
        intro a ha
        simp only [childLo] at ha
        by_cases h0 : childIdx ks k = 0
        · rw [if_pos h0] at ha
          exact hlbk a ha
        · rw [if_neg h0, Option.some_inj] at ha
          subst ha
          rw [getD_of_lt _ _ _ (by omega)]
          exact (childIdx_spec ks k).1 (childIdx ks k - 1) (by omega)
            (by omega)
      have hchk : ubOk (childHi hi ks (childIdx ks k)) k := by
        intro b hb2
        simp only [childHi] at hb2
        by_cases h0 : childIdx ks k < ks.length
        · rw [if_pos h0, Option.some_inj] at hb2
          subst hb2
          rw [getD_of_lt _ _ _ h0]
          exact (childIdx_spec ks k).2 h0
        · rw [if_neg h0] at hb2
          exact hubk b hb2
      obtain ⟨ihok, -⟩ := ih h false (childLo lo ks (childIdx ks k))
        (childHi hi ks (childIdx ks k)) (hch _ (List.getElem_mem hidx))
        (hchild (childIdx ks k) hidx) hclk hchk
      obtain ⟨hcOrd, hcPairs⟩ := ihok c hrec
      obtain ⟨hfl, hfr⟩ := pairsL_flanks k hcl hsort hch hchild
      constructor
      · intro t' heq
        rw [insertNode] at heq
        rw [dif_pos hidx] at heq
        simp only [hrec] at heq
        simp only [InsRes.ok.injEq] at heq
        subst heq
        constructor
        · refine ⟨hsort, hkb, ?_⟩
          intro j hj
          have hjl : j < cs.length := by simpa using hj
          rw [List.getElem_set]
          by_cases hje : childIdx ks k = j
          · subst hje
            rw [if_pos rfl]
            exact hcOrd
          · rw [if_neg hje]
            exact hchild j hjl
        · have hdec : cs.set (childIdx ks k) c
              = cs.take (childIdx ks k) ++ c :: cs.drop (childIdx ks k + 1) :=
            set_decomp c hidx
          have hcs := self_decomp hidx
          rw [pairs_node, pairs_node, hdec]
          conv_rhs => rw [hcs]
          rw [pairsL_append, pairsL_cons, pairsL_append, pairsL_cons,
            hcPairs, assocInsert_append_left hfl,
            assocInsert_append_right hfr]
      · intro l sep r heq
        rw [insertNode] at heq
        rw [dif_pos hidx] at heq
        simp only [hrec] at heq
        simp at heq
  | case4 ks cs hidx l0 sep0 r0 hrec pos0 ks0 hcond ih =>
    have hcond' : order ≤ (insertAt ks (lowerBound ks sep0) sep0).length :=
      hcond
    intro h isRoot lo hi hs ho2 hlbk hubk
    cases h with
    | zero => simp [ShapeInvH] at hs
    | succ h =>
      obtain ⟨hcl, hku, hmin, hch⟩ := hs
      obtain ⟨hsort, hkb, hchild⟩ := ho2
      have hile := childIdx_le_length ks k
      have hclk : lbOk (childLo lo ks (childIdx ks k)) k := by
        intro a ha
        simp only [childLo] at ha
        by_cases h0 : childIdx ks k = 0
        · rw [if_pos h0] at ha
          exact hlbk a ha
        · rw [if_neg h0, Option.some_inj] at ha
          subst ha
          rw [getD_of_lt _ _ _ (by omega)]
          exact (childIdx_spec ks k).1 (childIdx ks k - 1) (by omega)
            (by omega)
      have hchk : ubOk (childHi hi ks (childIdx ks k)) k := by
        intro b hb2
        simp only [childHi] at hb2
        by_cases h0 : childIdx ks k < ks.length
        · rw [if_pos h0, Option.some_inj] at hb2
          subst hb2
          rw [getD_of_lt _ _ _ h0]
          exact (childIdx_spec ks k).2 h0
        · rw [if_neg h0] at hb2
          exact hubk b hb2
      obtain ⟨-, ihsplit⟩ := ih h false (childLo lo ks (childIdx ks k))
        (childHi hi ks (childIdx ks k)) (hch _ (List.getElem_mem hidx))
        (hchild (childIdx ks k) hidx) hclk hchk
      obtain ⟨hOl, hOr, hslK, hsUb, hPairsSplit⟩ := ihsplit l0 sep0 r0 hrec
      have hlow1 : ∀ hpos : 0 < childIdx ks k,
          ks.getD (childIdx ks k - 1) 0 < sep0 := by
        intro hpos
        exact hslK (ks.getD (childIdx ks k - 1) 0) (by
          simp only [childLo]
          rw [if_neg (by omega)])
      have hhigh1 : ∀ hj : childIdx ks k < ks.length,
          sep0 < ks[childIdx ks k] := by
        intro hj
        have h1 := hsUb (ks.getD (childIdx ks k) 0) (by
          simp only [childHi]
          rw [if_pos hj])
        rwa [getD_of_lt _ _ _ hj] at h1
      have hpos := lowerBound_eq_childIdx hsort hlow1 hhigh1
      have hlowall : ∀ j, (hj : j < ks.length) → j < childIdx ks k →
          ks[j] < sep0 := by
        intro j hj hji
        have hcb : childIdx ks k - 1 < ks.length := by omega
        have h1 : ks[j] ≤ ks.getD (childIdx ks k - 1) 0 := by
          rw [getD_of_lt _ _ _ hcb]
          exact pairwise_getElem_le hsort (by omega) hcb
        have h2 := hlow1 (by omega)
        omega
      have hsepb : lbK lo sep0 ∧ ubOk hi sep0 := by
        constructor
        · intro a ha
          by_cases h0 : childIdx ks k = 0
          · apply hslK
            simp only [childLo]
            rw [if_pos h0]
            exact ha
          · have hcb : childIdx ks k - 1 < ks.length := by omega
            have h1 := (hkb (ks.getD (childIdx ks k - 1) 0) (by
              rw [getD_of_lt _ _ _ hcb]
              exact List.getElem_mem hcb)).1 a ha
            have h2 := hlow1 (by omega)
            omega
        · intro b hb2
          by_cases h0 : childIdx ks k < ks.length
          · have h1 := (hkb ks[childIdx ks k]
              (List.getElem_mem h0)).2 b hb2
            have h2 := hhigh1 h0
            omega
          · apply hsUb
            simp only [childHi]
            rw [if_neg h0]
            exact hb2
      obtain ⟨nsort2, nkb2⟩ :=
        insertAt_sorted_bounds hsort hkb hile hlowall hhigh1 hsepb
      obtain ⟨hw1, hw2, hw3, hw4⟩ :=
        @children_windows_insertAt lo hi ks (childIdx ks k) sep0 hile
      have hcs'd : insertAt (cs.set (childIdx ks k) l0)
          (childIdx ks k + 1) r0
          = cs.take (childIdx ks k) ++ l0 :: r0 ::
            cs.drop (childIdx ks k + 1) :=
        insertAt_set_decomp l0 r0 hidx
      have hSClen : (cs.take (childIdx ks k) ++ l0 :: r0 ::
          cs.drop (childIdx ks k + 1)).length = cs.length + 1 := by
        simp
        omega
      have hklen2 := length_insertAt sep0 hile
      have hpc : ∀ j, j < cs.length + 1 →
          OrdInvH (childLo lo (insertAt ks (childIdx ks k) sep0) j)
            (childHi hi (insertAt ks (childIdx ks k) sep0) j) h
            ((cs.take (childIdx ks k) ++ l0 :: r0 ::
              cs.drop (childIdx ks k + 1)).getD j (BNode.leaf [] [])) := by
        intro j hj
        rw [getD_splice l0 r0 (BNode.leaf [] []) hidx j]
        by_cases hr1 : j < childIdx ks k
        · rw [if_pos hr1, (hw1 j hr1).1, (hw1 j hr1).2,
            getD_of_lt _ _ _ (by omega)]
          exact hchild j (by omega)
        · rw [if_neg hr1]
          by_cases hr2 : j = childIdx ks k
          · subst hr2
            rw [if_pos rfl, hw2.1, hw2.2]
            exact hOl
          · rw [if_neg hr2]
            by_cases hr3 : j = childIdx ks k + 1
            · subst hr3
              rw [if_pos rfl, hw3.1, hw3.2]
              exact hOr
            · rw [if_neg hr3, (hw4 j (by omega) (by omega)).1,
                (hw4 j (by omega) (by omega)).2,
                getD_of_lt _ _ _ (by omega)]
              exact hchild (j - 1) (by omega)
      obtain ⟨hfl, hfr⟩ := pairsL_flanks k hcl hsort hch hchild
      have hks'len : (insertAt ks (childIdx ks k) sep0).length = order := by
        rw [hklen2]
        rw [hpos] at hcond'
        rw [hklen2] at hcond'
        omega
      have hmid'0 : 0 < (insertAt ks (childIdx ks k) sep0).length / 2 := by
        rw [hks'len]
        omega
      have hmid'lt : (insertAt ks (childIdx ks k) sep0).length / 2
          < (insertAt ks (childIdx ks k) sep0).length := by
        rw [hks'len]
        omega
      have nkb2w : ∀ x ∈ insertAt ks (childIdx ks k) sep0,
          lbOk lo x ∧ ubOk hi x := by
        intro x hx
        obtain ⟨h1, h2⟩ := nkb2 x hx
        exact ⟨fun a ha => le_of_lt (h1 a ha), h2⟩
      obtain ⟨ssb1, ssb2, ssb3, ssb4, ssb5⟩ :=
        sorted_split_bounds nsort2 nkb2w hmid'lt hmid'0
      obtain ⟨hws1, hws2⟩ :=
        @children_windows_split lo hi (insertAt ks (childIdx ks k) sep0)
          ((insertAt ks (childIdx ks k) sep0).length / 2) hmid'lt
      constructor
      · intro t' heq
        rw [insertNode] at heq
        rw [dif_pos hidx] at heq
        simp only [hrec] at heq
        rw [hpos] at heq
        rw [hpos] at hcond'
        rw [if_pos hcond'] at heq
        simp at heq
      · intro l sep r heq
        rw [insertNode] at heq
        rw [dif_pos hidx] at heq
        simp only [hrec] at heq
        rw [hpos] at heq
        rw [hpos] at hcond'
        rw [if_pos hcond'] at heq
        simp only [InsRes.split.injEq] at heq
        obtain ⟨hl, hsep, hr⟩ := heq
        subst hl
        subst hr
        subst hsep
        rw [hcs'd]
        refine ⟨⟨?_, ?_, ?_⟩, ⟨?_, ?_, ?_⟩, ssb4, ssb5, ?_⟩
        · exact List.Pairwise.sublist (List.take_sublist _ _) nsort2
        · intro x hx
          exact ⟨(nkb2 x (List.mem_of_mem_take hx)).1, ssb1 x hx⟩
        · intro j hj
          have hjm : j < (insertAt ks (childIdx ks k) sep0).length / 2 + 1
              ∧ j < cs.length + 1 := by
            rw [List.length_take, hSClen] at hj
            constructor <;> omega
          rw [List.getElem_take, (hws1 j (by omega)).1, (hws1 j (by omega)).2]
          have hSCg := getD_of_lt
            (cs.take (childIdx ks k) ++ l0 :: r0 ::
              cs.drop (childIdx ks k + 1))
            j (BNode.leaf [] []) (by rw [hSClen]; omega)
          rw [← hSCg]
          exact hpc j hjm.2
        · exact List.Pairwise.sublist (List.drop_sublist _ _) nsort2
        · intro x hx
          exact ⟨ssb3 x hx, (nkb2 x (List.mem_of_mem_drop hx)).2⟩
        · intro j hj
          have hjd : (insertAt ks (childIdx ks k) sep0).length / 2 + 1 + j
              < cs.length + 1 := by
            rw [List.length_drop, hSClen] at hj
            omega
          rw [List.getElem_drop, (hws2 j).1, (hws2 j).2]
          have hSCg := getD_of_lt
            (cs.take (childIdx ks k) ++ l0 :: r0 ::
              cs.drop (childIdx ks k + 1))
            ((insertAt ks (childIdx ks k) sep0).length / 2 + 1 + j)
            (BNode.leaf [] []) (by rw [hSClen]; omega)
          rw [← hSCg]
          exact hpc _ hjd
        · rw [pairs_node, pairs_node, pairs_node, pairsL_take_drop]
          have hcs := self_decomp hidx
          conv_rhs => rw [hcs]
          rw [pairsL_append, pairsL_cons, pairsL_cons, pairsL_append,
            pairsL_cons, assocInsert_append_left hfl,
            assocInsert_append_right hfr, ← hPairsSplit]
          simp [List.append_assoc]
  | case5 ks cs hidx l0 sep0 r0 hrec pos0 ks0 hcond ih =>
    have hcond' : ¬ order ≤ (insertAt ks (lowerBound ks sep0) sep0).length :=
      hcond
    intro h isRoot lo hi hs ho2 hlbk hubk
    cases h with
    | zero => simp [ShapeInvH] at hs
    | succ h =>
      obtain ⟨hcl, hku, hmin, hch⟩ := hs
      obtain ⟨hsort, hkb, hchild⟩ := ho2
      have hile := childIdx_le_length ks k
      have hclk : lbOk (childLo lo ks (childIdx ks k)) k := by
        intro a ha
        simp only [childLo] at ha
        by_cases h0 : childIdx ks k = 0
        · rw [if_pos h0] at ha
          exact hlbk a ha
        · rw [if_neg h0, Option.some_inj] at ha
          subst ha
          rw [getD_of_lt _ _ _ (by omega)]
          exact (childIdx_spec ks k).1 (childIdx ks k - 1) (by omega)
            (by omega)
      have hchk : ubOk (childHi hi ks (childIdx ks k)) k := by
        intro b hb2
        simp only [childHi] at hb2
        by_cases h0 : childIdx ks k < ks.length
        · rw [if_pos h0, Option.some_inj] at hb2
          subst hb2
          rw [getD_of_lt _ _ _ h0]
          exact (childIdx_spec ks k).2 h0
        · rw [if_neg h0] at hb2
          exact hubk b hb2
      obtain ⟨-, ihsplit⟩ := ih h false (childLo lo ks (childIdx ks k))
        (childHi hi ks (childIdx ks k)) (hch _ (List.getElem_mem hidx))
        (hchild (childIdx ks k) hidx) hclk hchk
      obtain ⟨hOl, hOr, hslK, hsUb, hPairsSplit⟩ := ihsplit l0 sep0 r0 hrec
      have hlow1 : ∀ hpos : 0 < childIdx ks k,
          ks.getD (childIdx ks k - 1) 0 < sep0 := by
        intro hpos
        exact hslK (ks.getD (childIdx ks k - 1) 0) (by
          simp only [childLo]
          rw [if_neg (by omega)])
      have hhigh1 : ∀ hj : childIdx ks k < ks.length,
          sep0 < ks[childIdx ks k] := by
        intro hj
        have h1 := hsUb (ks.getD (childIdx ks k) 0) (by
          simp only [childHi]
          rw [if_pos hj])
        rwa [getD_of_lt _ _ _ hj] at h1
      have hpos := lowerBound_eq_childIdx hsort hlow1 hhigh1
      have hlowall : ∀ j, (hj : j < ks.length) → j < childIdx ks k →
          ks[j] < sep0 := by
        intro j hj hji
        have hcb : childIdx ks k - 1 < ks.length := by omega
        have h1 : ks[j] ≤ ks.getD (childIdx ks k - 1) 0 := by
          rw [getD_of_lt _ _ _ hcb]
          exact pairwise_getElem_le hsort (by omega) hcb
        have h2 := hlow1 (by omega)
        omega
      have hsepb : lbK lo sep0 ∧ ubOk hi sep0 := by
        constructor
        · intro a ha
          by_cases h0 : childIdx ks k = 0
          · apply hslK
            simp only [childLo]
            rw [if_pos h0]
            exact ha
          · have hcb : childIdx ks k - 1 < ks.length := by omega
            have h1 := (hkb (ks.getD (childIdx ks k - 1) 0) (by
              rw [getD_of_lt _ _ _ hcb]
              exact List.getElem_mem hcb)).1 a ha
            have h2 := hlow1 (by omega)
            omega
        · intro b hb2
          by_cases h0 : childIdx ks k < ks.length
          · have h1 := (hkb ks[childIdx ks k]
              (List.getElem_mem h0)).2 b hb2
            have h2 := hhigh1 h0
            omega
          · apply hsUb
            simp only [childHi]
            rw [if_neg h0]
            exact hb2
      obtain ⟨nsort2, nkb2⟩ :=
        insertAt_sorted_bounds hsort hkb hile hlowall hhigh1 hsepb
      obtain ⟨hw1, hw2, hw3, hw4⟩ :=
        @children_windows_insertAt lo hi ks (childIdx ks k) sep0 hile
      have hcs'd : insertAt (cs.set (childIdx ks k) l0)
          (childIdx ks k + 1) r0
          = cs.take (childIdx ks k) ++ l0 :: r0 ::
            cs.drop (childIdx ks k + 1) :=
        insertAt_set_decomp l0 r0 hidx
      have hSClen : (cs.take (childIdx ks k) ++ l0 :: r0 ::
          cs.drop (childIdx ks k + 1)).length = cs.length + 1 := by
        simp
        omega
      have hpc : ∀ j, j < cs.length + 1 →
          OrdInvH (childLo lo (insertAt ks (childIdx ks k) sep0) j)
            (childHi hi (insertAt ks (childIdx ks k) sep0) j) h
            ((cs.take (childIdx ks k) ++ l0 :: r0 ::
              cs.drop (childIdx ks k + 1)).getD j (BNode.leaf [] [])) := by
        intro j hj
        rw [getD_splice l0 r0 (BNode.leaf [] []) hidx j]
        by_cases hr1 : j < childIdx ks k
        · rw [if_pos hr1, (hw1 j hr1).1, (hw1 j hr1).2,
            getD_of_lt _ _ _ (by omega)]
          exact hchild j (by omega)
        · rw [if_neg hr1]
          by_cases hr2 : j = childIdx ks k
          · subst hr2
            rw [if_pos rfl, hw2.1, hw2.2]
            exact hOl
          · rw [if_neg hr2]
            by_cases hr3 : j = childIdx ks k + 1
            · subst hr3
              rw [if_pos rfl, hw3.1, hw3.2]
              exact hOr
            · rw [if_neg hr3, (hw4 j (by omega) (by omega)).1,
                (hw4 j (by omega) (by omega)).2,
                getD_of_lt _ _ _ (by omega)]
              exact hchild (j - 1) (by omega)
      obtain ⟨hfl, hfr⟩ := pairsL_flanks k hcl hsort hch hchild
      constructor
      · intro t' heq
        rw [insertNode] at heq
        rw [dif_pos hidx] at heq
        simp only [hrec] at heq
        rw [hpos] at heq
        rw [hpos] at hcond'
        rw [if_neg hcond'] at heq
        simp only [InsRes.ok.injEq] at heq
        subst heq
        constructor
        · rw [hcs'd]
          refine ⟨nsort2, ?_, ?_⟩
          · intro x hx
            exact nkb2 x hx
          · intro j hj
            rw [hSClen] at hj
            have hSCg := getD_of_lt
              (cs.take (childIdx ks k) ++ l0 :: r0 ::
                cs.drop (childIdx ks k + 1))
              j (BNode.leaf [] []) (by rw [hSClen]; omega)
            rw [← hSCg]
            exact hpc j hj
        · rw [pairs_node, pairs_node, hcs'd]
          have hcs := self_decomp hidx
          conv_rhs => rw [hcs]
          rw [pairsL_append, pairsL_cons, pairsL_cons, pairsL_append,
            pairsL_cons, assocInsert_append_left hfl,
            assocInsert_append_right hfr, ← hPairsSplit]
          simp [List.append_assoc]
      · intro l sep r heq
        rw [insertNode] at heq
        rw [dif_pos hidx] at heq
        simp only [hrec] at heq
        rw [hpos] at heq
        rw [hpos] at hcond'
        rw [if_neg hcond'] at heq
        simp at heq
  | case6 ks cs hidx =>
    intro h isRoot lo hi hs ho2 hlbk hubk
    cases h with
    | zero => simp [ShapeInvH] at hs
    | succ h =>
      obtain ⟨hcl, hku, hmin, hch⟩ := hs
      exfalso
      have := childIdx_le_length ks k
      omega

theorem specSearch_none {l : List (Int × Rid)} {k : Int}
    (h : ∀ p ∈ l, ¬ p.1 = k) : specSearch l k = none := by
  induction l with
  | nil => rfl
  | cons p rest ih =>
    obtain ⟨k0, v0⟩ := p
    simp only [specSearch]
    rw [if_neg (h (k0, v0) (by simp))]
    exact ih (fun p hp => h p (by simp [hp]))

theorem specSearch_append_left {l1 l2 : List (Int × Rid)} {k : Int}
    (h : ∀ p ∈ l1, ¬ p.1 = k) :
    specSearch (l1 ++ l2) k = specSearch l2 k := by
  induction l1 with
  | nil => simp
  | cons p rest ih =>
    obtain ⟨k0, v0⟩ := p
    rw [List.cons_append]
    simp only [specSearch]
    rw [if_neg (h (k0, v0) (by simp))]
    exact ih (fun p hp => h p (by simp [hp]))

theorem specSearch_append_right {l1 l2 : List (Int × Rid)} {k : Int}
    (h : ∀ p ∈ l2, ¬ p.1 = k) :
    specSearch (l1 ++ l2) k = specSearch l1 k := by
  induction l1 with
  | nil =>
    rw [List.nil_append]
    exact specSearch_none h
  | cons p rest ih =>
    obtain ⟨k0, v0⟩ := p
    rw [List.cons_append]
    simp only [specSearch]
    by_cases he : k0 = k
    · rw [if_pos he, if_pos he]
    · rw [if_neg he, if_neg he]
      exact ih

theorem idxOfKey_lookup (k : Int) :
    ∀ (ks : List Int) (vs : List Rid),
      (idxOfKey ks k = none → specSearch (ks.zip vs) k = none) ∧
      (∀ pos, idxOfKey ks k = some pos →
        specSearch (ks.zip vs) k = vs[pos]?) := by
  intro ks
  induction ks with
  | nil =>
    intro vs
    constructor
    · intro h2
      simp [specSearch]
    · intro pos h2
      simp [idxOfKey] at h2
  | cons k0 ks2 ih =>
    intro vs
    cases vs with
    | nil =>
      constructor
      · intro h2
        simp [specSearch]
      · intro pos hp
        simp [specSearch]
    | cons v0 vs2 =>
      constructor
      · intro h2
        unfold idxOfKey at h2
        by_cases he : k0 = k
        · rw [if_pos he] at h2
          simp at h2
        · rw [if_neg he] at h2
          have h3 : idxOfKey ks2 k = none := by
            cases hx : idxOfKey ks2 k
            · rfl
            · rw [hx] at h2
              simp at h2
          rw [List.zip_cons_cons]
          simp only [specSearch]
          rw [if_neg he]
          exact (ih vs2).1 h3
      · intro pos hp
        unfold idxOfKey at hp
        by_cases he : k0 = k
        · rw [if_pos he] at hp
          simp at hp
          subst hp
          rw [List.zip_cons_cons]
          simp only [specSearch]
          rw [if_pos he]
          simp
        · rw [if_neg he] at hp
          cases hx : idxOfKey ks2 k with
          | none =>
            rw [hx] at hp
            simp at hp
          | some p2 =>
            rw [hx] at hp
            simp at hp
            subst hp
            rw [List.zip_cons_cons]
            simp only [specSearch]
            rw [if_neg he, List.getElem?_cons_succ]
            exact (ih vs2).2 p2 hx

/-- The `findLeaf` descent reaches the only leaf whose bindings can hold
`k`. -/
theorem findLeafT_spec {order : Nat} (k : Int) (t : BNode) :
    ∀ h isRoot (lo hi : Option Int), ShapeInvH order h isRoot t →
      OrdInvH lo hi h t →
      specSearch (pairs t) k
        = specSearch ((findLeafT k t).1.zip (findLeafT k t).2) k := by
  induction t using findLeafT.induct k with
  | case1 ks vs =>
    intro h isRoot lo hi hs ho2
    rw [findLeafT, pairs_leaf]
  | case2 ks cs hidx ih =>
    intro h isRoot lo hi hs ho2
    cases h with
    | zero => simp [ShapeInvH] at hs
    | succ h =>
      obtain ⟨hcl, hku, hmin, hch⟩ := hs
      obtain ⟨hsort, hkb, hchild⟩ := ho2
      obtain ⟨hfl, hfr⟩ := pairsL_flanks k hcl hsort hch hchild
      rw [findLeafT, dif_pos hidx, pairs_node]
      have hcs := self_decomp hidx
      conv_lhs => rw [hcs]
      rw [pairsL_append, pairsL_cons]
      rw [specSearch_append_left (fun p hp => by have := hfl p hp; omega)]
      rw [specSearch_append_right (fun p hp => by have := hfr p hp; omega)]
      exact ih h false _ _ (hch _ (List.getElem_mem hidx)) (hchild _ hidx)
  | case3 ks cs hidx =>
    intro h isRoot lo hi hs ho2
    cases h with
    | zero => simp [ShapeInvH] at hs
    | succ h =>
      obtain ⟨hcl, -, -, -⟩ := hs
      exfalso
      have := childIdx_le_length ks k
      omega

/-- The whole-tree invariant maintained by a run of inserts: shape,
ordering, and the flattened bindings matching the model list. -/
def InsInv (order : Nat) : Option BNode → List (Int × Rid) → Prop
  | none, m => m = []
  | some r, m => ∃ h, ShapeInvH order h true r ∧ OrdInvH none none h r ∧
      pairs r = m

theorem insertTree_inv {order : Nat} (ho : 3 ≤ order) {t : Option BNode}
    {m : List (Int × Rid)} (hinv : InsInv order t m) (k : Int) (v : Rid) :
    InsInv order (insertTree order t k v) (assocInsert m k v) := by
  match t with
  | none =>
    have hm : m = [] := hinv
    subst hm
    show InsInv order (some (.leaf [k] [v])) (assocInsert [] k v)
    refine ⟨0, ⟨rfl, ?_, ?_⟩, ⟨?_, ?_⟩, ?_⟩
    · show 1 ≤ order - 1
      omega
    · rw [if_pos rfl]
      simp
    · simp
    · intro x hx
      rcases List.mem_singleton.mp hx with rfl
      exact ⟨fun a ha => by simp at ha, fun b hb => by simp at hb⟩
    · simp [pairs_leaf, assocInsert]
  | some r =>
    obtain ⟨h, hsh, hord, hpairs⟩ := hinv
    subst hpairs
    have hlb : lbOk none k := fun a ha => by simp at ha
    have hub : ubOk none k := fun b hb => by simp at hb
    obtain ⟨ihok, ihsplit⟩ :=
      insertNode_ord ho k v r h true none none hsh hord hlb hub
    simp only [insertTree]
    cases hins : insertNode order k v r with
    | ok r2 =>
      obtain ⟨hO, hP⟩ := ihok r2 hins
      exact ⟨h, (insertNode_shape ho k v r h true hsh).1 r2 hins, hO, hP⟩
    | split l sep r2 =>
      obtain ⟨hOl, hOr, hlK, hUb, hPP⟩ := ihsplit l sep r2 hins
      obtain ⟨hShl, hShr⟩ := (insertNode_shape ho k v r h true hsh).2
        l sep r2 hins
      refine ⟨h + 1, ⟨rfl, ?_, ?_, ?_⟩, ⟨?_, ?_, ?_⟩, ?_⟩
      · show 1 ≤ order - 1
        omega
      · rw [if_pos rfl]
        simp
      · intro c hc
        rcases List.mem_cons.mp hc with rfl | hc
        · exact hShl
        · rcases List.mem_cons.mp hc with rfl | hc
          · exact hShr
          · simp at hc
      · simp
      · intro x hx
        rcases List.mem_singleton.mp hx with rfl
        exact ⟨fun a ha => by simp at ha, fun b hb => by simp at hb⟩
      · intro j hj
        simp only [List.length_cons, List.length_nil] at hj
        cases j with
        | zero =>
          have e1 : childLo (none : Option Int) [sep] 0 = none := by
            simp [childLo]
          have e2 : childHi (none : Option Int) [sep] 0 = some sep := by
            simp [childHi]
          rw [e1, e2]
          simpa using hOl
        | succ j =>
          cases j with
          | zero =>
            have e1 : childLo (none : Option Int) [sep] 1 = some sep := by
              simp [childLo]
            have e2 : childHi (none : Option Int) [sep] 1 = none := by
              simp [childHi]
            rw [e1, e2]
            simpa using hOr
          | succ j => omega
      · rw [pairs_node, pairsL_cons, pairsL_cons, pairsL_nil,
          List.append_nil, hPP]

theorem runBOps_ins_inv {order : Nat} (ho : 3 ≤ order)
    (ins : List (Int × Rid)) :
    InsInv order (runBOps order (ins.map (fun p => BOp.ins p.1 p.2)))
      (insModel ins) := by
  suffices h : ∀ t m, InsInv order t m →
      InsInv order ((ins.map (fun p => BOp.ins p.1 p.2)).foldl
        (applyBOp order) t)
        (ins.foldl (fun l p => assocInsert l p.1 p.2) m) by
    exact h none [] rfl
  induction ins with
  | nil => exact fun t m h1 => h1
  | cons p rest ih =>
    intro t m h1
    simp only [List.map_cons, List.foldl_cons]
    exact ih _ _ (insertTree_inv ho h1 p.1 p.2)

theorem insInv_treePairs {order : Nat} {t : Option BNode}
    {m : List (Int × Rid)} (h : InsInv order t m) : treePairs t = m := by
  match t with
  | none =>
    have hm : m = [] := h
    subst hm
    rfl
  | some r =>
    obtain ⟨h2, -, -, hp⟩ := h
    simpa [treePairs] using hp

/-- `BTree::search` refines the model lookup. -/
theorem searchT_model {order : Nat} {t : Option BNode}
    {m : List (Int × Rid)} (hinv : InsInv order t m) (k : Int) :
    searchT t k = specSearch m k := by
  match t with
  | none =>
    have hm : m = [] := hinv
    subst hm
    rfl
  | some r =>
    obtain ⟨h, hsh, hord, hpairs⟩ := hinv
    subst hpairs
    have hfs := findLeafT_spec k r h true none none hsh hord
    simp only [searchT]
    cases hix : idxOfKey (findLeafT k r).1 k with
    | none =>
      exact ((idxOfKey_lookup k _ _).1 hix).symm.trans hfs.symm
    | some pos =>
      exact ((idxOfKey_lookup k _ _).2 pos hix).symm.trans hfs.symm

theorem scanLeafPairs_sorted (loB hiB : Int) :
    ∀ (ps : List (Int × Rid)),
      (ps.map Prod.fst).Pairwise (· < ·) →
      scanLeafPairs ps loB hiB
        = ((ps.filter (fun p => decide (loB ≤ p.1 ∧ p.1 ≤ hiB))).map
            Prod.snd,
           ps.any (fun p => decide (hiB < p.1))) := by
  intro ps
  induction ps with
  | nil =>
    intro hsort
    simp [scanLeafPairs]
  | cons p rest ih =>
    obtain ⟨k0, v0⟩ := p
    intro hsort
    simp only [List.map_cons, List.pairwise_cons] at hsort
    obtain ⟨hk0, hrest⟩ := hsort
    by_cases h1 : loB ≤ k0 ∧ k0 ≤ hiB
    · simp only [scanLeafPairs]
      rw [if_pos h1, ih hrest,
        List.filter_cons_of_pos (by simpa using h1), List.map_cons,
        List.any_cons]
      have hd : decide (hiB < k0) = false := by
        simp only [decide_eq_false_iff_not]
        omega
      rw [hd]
      simp
    · simp only [scanLeafPairs]
      rw [if_neg h1]
      by_cases h2 : hiB < k0
      · rw [if_pos h2, List.filter_cons_of_neg (by simpa using h1)]
        have hfe : rest.filter
            (fun p => decide (loB ≤ p.1 ∧ p.1 ≤ hiB)) = [] := by
          rw [List.filter_eq_nil_iff]
          intro p hp
          have hgt := hk0 p.1 (List.mem_map.mpr ⟨p, hp, rfl⟩)
          simp only [decide_eq_true_eq]
          omega
        rw [hfe, List.any_cons]
        have hd : decide (hiB < k0) = true := by simpa using h2
        rw [hd]
        simp
      · rw [if_neg h2, ih hrest,
          List.filter_cons_of_neg (by simpa using h1), List.any_cons]
        have hd : decide (hiB < k0) = false := by
          simp only [decide_eq_false_iff_not]
          omega
        rw [hd]
        simp

theorem scanChain_filter (loB hiB : Int) :
    ∀ (chain : List (List Int × List Rid)),
      ((chainPairs chain).map Prod.fst).Pairwise (· < ·) →
      scanChain chain loB hiB
        = ((chainPairs chain).filter
            (fun p => decide (loB ≤ p.1 ∧ p.1 ≤ hiB))).map Prod.snd := by
  intro chain
  induction chain with
  | nil =>
    intro hsort
    simp [scanChain, chainPairs]
  | cons lf rest ih =>
    obtain ⟨ks, vs⟩ := lf
    intro hsort
    have hcp : chainPairs ((ks, vs) :: rest)
        = ks.zip vs ++ chainPairs rest := rfl
    rw [hcp] at hsort ⊢
    rw [List.map_append, List.pairwise_append] at hsort
    obtain ⟨hs1, hs2, hcross⟩ := hsort
    simp only [scanChain]
    rw [scanLeafPairs_sorted loB hiB _ hs1]
    dsimp only
    by_cases hany : (ks.zip vs).any (fun p => decide (hiB < p.1)) = true
    · rw [if_pos hany, List.filter_append, List.map_append]
      have hfe : (chainPairs rest).filter
          (fun p => decide (loB ≤ p.1 ∧ p.1 ≤ hiB)) = [] := by
        rw [List.filter_eq_nil_iff]
        intro p hp
        obtain ⟨q, hq, hqa⟩ := List.any_eq_true.mp hany
        have hlt := hcross q.1 (List.mem_map.mpr ⟨q, hq, rfl⟩) p.1
          (List.mem_map.mpr ⟨p, hp, rfl⟩)
        simp only [decide_eq_true_eq] at hqa ⊢
        omega
      rw [hfe]
      simp
    · rw [if_neg hany, ih hs2, List.filter_append, List.map_append]

/-- The leaf chain reached from `findLeaf(k)` carries exactly the bindings
of the tree from the first key `≥ k` on: what is skipped is strictly below
`k`. -/
theorem leafChainFrom_pairs {order : Nat} (k : Int) (t : BNode) :
    ∀ h isRoot (lo hi : Option Int), ShapeInvH order h isRoot t →
      OrdInvH lo hi h t →
      ∃ dropped, pairs t = dropped ++ chainPairs (leafChainFrom k t) ∧
        ∀ p ∈ dropped, p.1 < k := by
  induction t using leafChainFrom.induct k with
  | case1 ks vs =>
    intro h isRoot lo hi hs ho2
    refine ⟨[], ?_, by simp⟩
    rw [leafChainFrom, pairs_leaf]
    simp [chainPairs]
  | case2 ks cs hidx ih =>
    intro h isRoot lo hi hs ho2
    cases h with
    | zero => simp [ShapeInvH] at hs
    | succ h =>
      obtain ⟨hcl, hku, hmin, hch⟩ := hs
      obtain ⟨hsort, hkb, hchild⟩ := ho2
      obtain ⟨hfl, hfr⟩ := pairsL_flanks k hcl hsort hch hchild
      obtain ⟨d0, hd0, hd0k⟩ :=
        ih h false _ _ (hch _ (List.getElem_mem hidx)) (hchild _ hidx)
      refine ⟨pairsL (cs.take (childIdx ks k)) ++ d0, ?_, ?_⟩
      · rw [pairs_node, leafChainFrom, dif_pos hidx, chainPairs_append]
        have hcs := self_decomp hidx
        conv_lhs => rw [hcs]
        rw [pairsL_append, pairsL_cons, hd0]
        simp [pairsL, List.append_assoc]
      · intro p hp
        rcases List.mem_append.mp hp with hp | hp
        · exact hfl p hp
        · exact hd0k p hp
  | case3 ks cs hidx =>
    intro h isRoot lo hi hs ho2
    cases h with
    | zero => simp [ShapeInvH] at hs
    | succ h =>
      obtain ⟨hcl, -, -, -⟩ := hs
      exfalso
      have := childIdx_le_length ks k
      omega

/-- `BTree::rangeSearch` returns exactly the in-window values, in
ascending key order (the filter of the sorted flattened bindings). -/
theorem rangeSearchT_model {order : Nat} {t : Option BNode}
    {m : List (Int × Rid)} (hinv : InsInv order t m) (loB hiB : Int) :
    rangeSearchT t loB hiB
      = (m.filter (fun p => decide (loB ≤ p.1 ∧ p.1 ≤ hiB))).map
        Prod.snd := by
  match t with
  | none =>
    have hm : m = [] := hinv
    subst hm
    rfl
  | some r =>
    obtain ⟨h, hsh, hord, hpairs⟩ := hinv
    subst hpairs
    obtain ⟨dropped, hdec, hdropk⟩ :=
      leafChainFrom_pairs loB r h true none none hsh hord
    have hsorted := (ordInv_pairs_sorted h none none true r hsh hord).1
    rw [hdec, List.map_append, List.pairwise_append] at hsorted
    obtain ⟨-, hs2, -⟩ := hsorted
    simp only [rangeSearchT]
    rw [scanChain_filter loB hiB _ hs2]
    rw [hdec, List.filter_append, List.map_append]
    have hfd : dropped.filter
        (fun p => decide (loB ≤ p.1 ∧ p.1 ≤ hiB)) = [] := by
      rw [List.filter_eq_nil_iff]
      intro p hp
      have := hdropk p hp
      simp only [decide_eq_true_eq]
      omega
    rw [hfd]
    simp

/-- C9: for every sequence of inserts into a fresh `BTree`, `search(k)`
returns the value of the most recent insert with key `k` (a duplicate key
overwrites the existing value in `insertIntoLeaf`, and the number of
stored bindings does not grow when an existing key is inserted again), and
`range_search(lo, hi)` returns exactly the values whose key lies in the
closed interval `[lo, hi]`, in ascending key order — the filter of the
key-sorted model list. -/
theorem btree_insert_search_range {order : Nat} (ho : 3 ≤ order)
    (ins : List (Int × Rid)) (k loB hiB : Int) (w : Rid) :
    searchT (runBOps order (ins.map (fun p => BOp.ins p.1 p.2))) k
      = ((ins.filter (fun p => decide (p.1 = k))).map Prod.snd).getLast? ∧
    rangeSearchT (runBOps order (ins.map (fun p => BOp.ins p.1 p.2)))
        loB hiB
      = ((insModel ins).filter
          (fun p => decide (loB ≤ p.1 ∧ p.1 ≤ hiB))).map Prod.snd ∧
    ((insModel ins).map Prod.fst).Pairwise (· < ·) ∧
    (k ∈ ins.map Prod.fst →
      (treePairs (insertTree order
          (runBOps order (ins.map (fun p => BOp.ins p.1 p.2))) k
          w)).length
        = (treePairs
            (runBOps order (ins.map (fun p => BOp.ins p.1 p.2)))).length) := by
  have hinv := runBOps_ins_inv ho ins
  refine ⟨?_, rangeSearchT_model hinv loB hiB, insModel_sorted ins, ?_⟩
  · rw [searchT_model hinv, specSearch_insModel]
  · intro hk
    have hinv2 := insertTree_inv ho hinv k w
    rw [insInv_treePairs hinv2, insInv_treePairs hinv]
    exact assocInsert_length_mem (insModel_sorted ins)
      (mem_insModel_keys.mpr hk)

theorem btree_insert_search_range_witness :
    searchT (runBOps 4 (([((1 : Int), ((0 : Nat), 0)), (2, (0, 1)),
        (1, (0, 2))]).map (fun p => BOp.ins p.1 p.2))) 1
      = ((([((1 : Int), ((0 : Nat), 0)), (2, (0, 1)),
          (1, (0, 2))]).filter (fun p => decide (p.1 = 1))).map
          Prod.snd).getLast? ∧
    rangeSearchT (runBOps 4 (([((1 : Int), ((0 : Nat), 0)), (2, (0, 1)),
        (1, (0, 2))]).map (fun p => BOp.ins p.1 p.2))) 1 2
      = ((insModel [((1 : Int), ((0 : Nat), 0)), (2, (0, 1)),
          (1, (0, 2))]).filter
          (fun p => decide (1 ≤ p.1 ∧ p.1 ≤ 2))).map Prod.snd ∧
    ((insModel [((1 : Int), ((0 : Nat), 0)), (2, (0, 1)),
        (1, (0, 2))]).map Prod.fst).Pairwise (· < ·) ∧
    ((1 : Int) ∈ ([((1 : Int), ((0 : Nat), 0)), (2, (0, 1)),
        (1, (0, 2))]).map Prod.fst →
      (treePairs (insertTree 4 (runBOps 4 (([((1 : Int), ((0 : Nat), 0)),
          (2, (0, 1)), (1, (0, 2))]).map (fun p => BOp.ins p.1 p.2))) 1
          (0, 9))).length
        = (treePairs (runBOps 4 (([((1 : Int), ((0 : Nat), 0)),
            (2, (0, 1)),
            (1, (0, 2))]).map (fun p => BOp.ins p.1 p.2)))).length) :=
  btree_insert_search_range (by decide) [((1 : Int), ((0 : Nat), 0)),
    (2, (0, 1)), (1, (0, 2))] 1 1 2 (0, 9)

end MiniDB
